import Mathlib

/-!
# Longest-path transfer over a tree decomposition

A shallow embedding of `src/longest_path.hpp`, `src/transfer.hpp`,
`src/utility/polynomial.hpp`, `src/utility/smallset.hpp` and
`src/chinese_remainder.hpp`.

Conventions of the embedding

* `connectivity` is `std::vector<int8_t>`, embedded as `List Int`; the one
  place where a value is computed and narrowed back to `int8_t`
  (`*max_element(c) + 1`) goes through `wrap8`.
* A function whose C++ body indexes a vector or array returns `Option`:
  `none` stands for an access outside the current bounds (undefined behaviour
  in the source).  A `boost::optional` result is the inner `Option`.
* `boost::unordered_map<connectivity, weight_type>` is an association list; the
  iteration order of the source container is unspecified, the list order
  stands for one such order.
-/

/-! ## `utility/polynomial.hpp` -/

/-- The class `polynomial<T>`: the coefficient vector `impl_`, index = degree. -/
structure polynomial (T : Type) where
  impl_ : List T
deriving DecidableEq, Repr

namespace polynomial

variable {T : Type}

/-- The call `std::vector::resize(n)`: truncate or pad with value-initialised entries. -/
def resize [Zero T] (l : List T) (n : Nat) : List T :=
  l.take n ++ List.replicate (n - l.length) 0

/-- The accessor `order() const`: `impl_.size() - 1`. -/
def order (p : polynomial T) : Nat := p.impl_.length - 1

/-- The setter `order(n)`: `impl_.resize(n + 1)`. -/
def set_order [Zero T] (p : polynomial T) (n : Nat) : polynomial T :=
  ⟨resize p.impl_ (n + 1)⟩

/-- The loop of `normalize`: `while (impl_[i] == 0 and i > 1) i--;`.
`impl_` is never empty (every constructor stores at least one coefficient and
no operation shrinks the vector below one entry), so the reads `impl_[i]` with
`i <= order()` are in bounds. -/
def normalize_index [Zero T] [DecidableEq T] (l : List T) : Nat → Nat
  | 0 => 0
  | i + 1 => if l.getD (i + 1) 0 = 0 ∧ i + 1 > 1 then normalize_index l i else i + 1

/-- The method `normalize()`: trims zero top coefficients, stopping at index 1. -/
def normalize [Zero T] [DecidableEq T] (p : polynomial T) : polynomial T :=
  p.set_order (normalize_index p.impl_ p.order)

/-- The constructor `explicit polynomial(const T& a = T(0))`. -/
def const (a : T) : polynomial T := ⟨[a]⟩

/-- The loop `for (i = 0; i <= rhs.order(); i++) impl_[i] op= rhs.impl_[i]`,
run after `impl_` has been resized to at least the size of `rhs.impl_`. -/
def zip_into (f : T → T → T) : List T → List T → List T
  | a :: as, b :: bs => f a b :: zip_into f as bs
  | as, [] => as
  | [], _ :: _ => []

/-- The operator `operator+=(const polynomial<T>&)`. -/
def add_assign [Zero T] [Add T] [DecidableEq T] (p rhs : polynomial T) : polynomial T :=
  normalize ⟨zip_into (· + ·) (p.set_order (max p.order rhs.order)).impl_ rhs.impl_⟩

/-- The operator `operator-=(const polynomial<T>&)`. -/
def sub_assign [Zero T] [Sub T] [DecidableEq T] (p rhs : polynomial T) : polynomial T :=
  normalize ⟨zip_into (· - ·) (p.set_order (max p.order rhs.order)).impl_ rhs.impl_⟩

/-- The operator `operator*=(const T&)`. -/
def scale [Zero T] [Mul T] [DecidableEq T] (p : polynomial T) (rhs : T) : polynomial T :=
  normalize ⟨p.impl_.map (· * rhs)⟩

/-- The statement `product.impl_[k] += x`. -/
def add_at [Add T] (l : List T) (k : Nat) (x : T) : List T :=
  l.modify (· + x) k

/-- The operator `operator*=(const polynomial<T>&)`: the double loop over `i` and `j`
accumulating `impl_[i] * rhs.impl_[j]` at `product.impl_[i + j]`. -/
def mul_assign [Zero T] [Add T] [Mul T] (p rhs : polynomial T) : polynomial T :=
  let product : List T := resize [0] (p.order + rhs.order + 1)
  ⟨(List.range (p.order + 1)).foldl
    (fun prod i => (List.range (rhs.order + 1)).foldl
      (fun prod j => add_at prod (i + j) (p.impl_.getD i 0 * rhs.impl_.getD j 0)) prod)
    product⟩

/-- The operator `operator<<=(std::size_t rhs)`: `impl_.insert(impl_.begin(), rhs, T(0))`. -/
def shl [Zero T] (p : polynomial T) (rhs : Nat) : polynomial T :=
  ⟨List.replicate rhs 0 ++ p.impl_⟩

/-- Coefficient of `x^n`, zero beyond the vector. -/
def coeff [Zero T] (p : polynomial T) (n : Nat) : T := p.impl_.getD n 0

/-- Binary `operator+` of `boost::ring_operators1`: copy the left operand, then `+=`. -/
instance [Zero T] [Add T] [DecidableEq T] : Add (polynomial T) := ⟨add_assign⟩

/-- Binary `operator*` of `boost::ring_operators1`: copy the left operand, then `*=`. -/
instance [Zero T] [Add T] [Mul T] : Mul (polynomial T) := ⟨mul_assign⟩

/-- The default-constructed polynomial, `polynomial(T(0))`. -/
instance [Zero T] : Zero (polynomial T) := ⟨const 0⟩

/-- The polynomial `polynomial(1)`. -/
instance [One T] : One (polynomial T) := ⟨const 1⟩

end polynomial

/-! ## `longest_path.hpp` -/

namespace longest_path

/-- The type `connectivity = std::vector<int8_t>`. -/
abbrev connectivity := List Int

/-- Narrowing of an `int` value to `int8_t` (two's complement wrap-around). -/
def wrap8 (x : Int) : Int := (x + 128) % 256 - 128

/-- The table type `boost::unordered_map<connectivity, weight_type>`. -/
abbrev table_type (W : Type) := List (connectivity × W)

/-- Lookup of a key, `table.find(key)`. -/
def lookup {W : Type} (key : connectivity) : table_type W → Option W
  | [] => none
  | (k, w) :: rest => if k = key then some w else lookup key rest

/-- The statement `new_table[key] += w`: `operator[]` inserts a
default-constructed weight when the key is absent, then `+=` adds. -/
def accumulate {W : Type} [Zero W] [Add W] (key : connectivity) (w : W) :
    table_type W → table_type W
  | [] => [(key, 0 + w)]
  | (k, v) :: rest =>
    if k = key then (k, v + w) :: rest else (k, v) :: accumulate key w rest

/-- Predicate `is_finished(c)`: `c.empty()`. -/
def is_finished (c : connectivity) : Bool := c.isEmpty

/-- Predicate `is_empty(c)`:
`not c.empty() and count_if(c, x != 0) == 0`. -/
def is_empty (c : connectivity) : Bool :=
  !c.isEmpty && c.countP (fun x => x != 0) == 0

/-- Predicate `is_endpoint(c, i)`: `c[i] > 0 and count(c, c[i]) == 1`. -/
def is_endpoint (c : connectivity) (i : Nat) : Option Bool :=
  match (c)[i]? with
  | none => none
  | some x => some (decide (x > 0) && c.count x == 1)

/-- The call `*boost::max_element(c)`; dereferencing `end()` on an empty
vector is an invalid read. -/
def max_element : connectivity → Option Int
  | [] => none
  | x :: xs => some (xs.foldl max x)

/-- The function `connect(c, i, j)`. -/
def connect (c : connectivity) (i j : Nat) : Option (Option connectivity) :=
  -- don't touch a finished state
  if is_finished c then some none
  else
    match (c)[i]?, (c)[j]? with
    | some li, some lj =>
      -- check we are not hitting bullets
      if li < 0 ∨ lj < 0 then some none
      -- they are both empty strands
      else if li = 0 ∧ lj = 0 then
        match max_element c with
        | none => none
        | some m => some (some ((c.set j (wrap8 (m + 1))).set i (wrap8 (m + 1))))
      -- i is not empty, j is empty
      else if li ≠ 0 ∧ lj = 0 then some (some ((c.set i (-1)).set j li))
      -- i is empty, j is not empty
      else if li = 0 ∧ lj ≠ 0 then some (some ((c.set i lj).set j (-1)))
      -- check we are not closing a loop
      else if li = lj then some none
      -- check other strands
      else if is_endpoint c i == some true && is_endpoint c j == some true then
        if c.countP (fun x => decide (x > 0) && x != li && x != lj) == 0 then
          some (some [])
        else some none
      else
        some (some (((c.map (fun x => if x = lj then li else x)).set j (-1)).set i (-1)))
    | _, _ => none

/-- The function `detach(c, i)`: `c[i] = *boost::max_element(c) + 1`. -/
def detach (c : connectivity) (i : Nat) : Option connectivity :=
  match max_element c with
  | none => none
  | some m => if i < c.length then some (c.set i (wrap8 (m + 1))) else none

/-- The loop of `canonicalize` over the entries of `c`, with the local array
`int8_t table[50]` and the counter `k`.  `k` never exceeds 50 (it grows once
per zero entry of `table` that is filled), so storing it in an `int8_t` does
not wrap. -/
def canonicalize_loop (table : List Int) (k : Int) : connectivity → Option connectivity
  | [] => some []
  | x :: xs =>
    if x ≤ 0 then (canonicalize_loop table k xs).map (x :: ·)
    else
      match table[x.toNat]? with
      | none => none
      | some t =>
        if t ≠ 0 then (canonicalize_loop table k xs).map (t :: ·)
        else (canonicalize_loop (table.set x.toNat k) (k + 1) xs).map (k :: ·)

/-- The function `canonicalize(c)`. -/
def canonicalize (c : connectivity) : Option connectivity :=
  canonicalize_loop (List.replicate 50 0) 1 c

/-- The loop of `how_many_endpoints` from position `j` on, with the local
vector `table` and the `size_t` counter `result`. -/
def how_many_endpoints_loop (table : List Int) (result : Nat) (j : Nat) :
    connectivity → Option Nat
  | [] => some result
  | x :: xs =>
    if x > 0 then
      match table[x.toNat]? with
      | none => none
      | some t =>
        if t < 0 then
          how_many_endpoints_loop (table.set x.toNat j) ((result + 1) % 2 ^ 64) (j + 1) xs
        else
          how_many_endpoints_loop table ((result + 2 ^ 64 - 1) % 2 ^ 64) (j + 1) xs
    else how_many_endpoints_loop table result (j + 1) xs

/-- The function `how_many_endpoints(c)`. -/
def how_many_endpoints (c : connectivity) : Option Nat :=
  how_many_endpoints_loop (List.replicate (c.length + 1) (-1)) 0 0 c

/-- The function `empty_state(size)`:
`table_type{ { connectivity(size), weight_type(1) } }`. -/
def empty_state {W : Type} [One W] (size : Nat) : table_type W :=
  [(List.replicate size 0, 1)]

/-- The body of the loop of `join_operator` for one entry `state` of `table`. -/
def join_step {W : Type} [Zero W] [Add W] (shl : W → Nat → W) (i j : Nat)
    (new_table : table_type W) (state : connectivity × W) : Option (table_type W) :=
  match connect state.1 i j with
  | none => none
  | some none => some new_table
  | some (some newc) =>
    match how_many_endpoints newc with
    | none => none
    | some e =>
      if e ≤ 2 then
        match canonicalize newc with
        | none => none
        | some key => some (accumulate key (shl state.2 1) new_table)
      else some new_table

/-- A loop `for (auto const& state : table) body`, stopping at the first
invalid access. -/
def for_each {α β : Type} (body : β → α → Option β) : List α → β → Option β
  | [], acc => some acc
  | a :: rest, acc =>
    match body acc a with
    | none => none
    | some acc1 => for_each body rest acc1

/-- The operator `join_operator(i, j, table)`; `shl` is `operator<<` of the
weight type. -/
def join_operator {W : Type} [Zero W] [Add W] (shl : W → Nat → W) (i j : Nat)
    (table : table_type W) : Option (table_type W) :=
  for_each (join_step shl i j) table table

/-- The function `delete_node(c, i)`. -/
def delete_node (c : connectivity) (i : Nat) : Option (Option connectivity) :=
  if is_finished c then some (some c)
  else
    match (c)[i]? with
    | none => none
    | some ci =>
      if is_endpoint c i == some true then
        if c.countP (fun x => decide (x > 0) && x != ci) == 0 then some (some [])
        else some none
      else (canonicalize (c.eraseIdx i)).map some

/-- The body of the loop of `delete_operator` for one entry of `table`. -/
def delete_step {W : Type} [Zero W] [Add W] (i : Nat)
    (new_table : table_type W) (state : connectivity × W) : Option (table_type W) :=
  match delete_node state.1 i with
  | none => none
  | some none => some new_table
  | some (some newc) =>
    match how_many_endpoints newc with
    | none => none
    | some e => if e ≤ 2 then some (accumulate newc state.2 new_table) else some new_table

/-- The operator `delete_operator(i, table)`. -/
def delete_operator {W : Type} [Zero W] [Add W] (i : Nat) (table : table_type W) :
    Option (table_type W) :=
  for_each (delete_step i) table []

/-- Lookup in the local `std::map<size_t, size_t> table` of `table_fusion`,
`table.find(key)`; the map is kept as a list sorted by key. -/
def map_find (key : Nat) : List (Nat × Nat) → Option Nat
  | [] => none
  | (k, v) :: rest => if k = key then some v else map_find key rest

/-- Assignment `table[key] = val` in the local `std::map` (sorted by key). -/
def map_insert (key val : Nat) : List (Nat × Nat) → List (Nat × Nat)
  | [] => [(key, val)]
  | (k, v) :: rest =>
    if key < k then (key, val) :: (k, v) :: rest
    else if k = key then (k, val) :: rest
    else (k, v) :: map_insert key val rest

/-- Removal `table.erase(key)` in the local `std::map`. -/
def map_erase (key : Nat) : List (Nat × Nat) → List (Nat × Nat)
  | [] => []
  | (k, v) :: rest => if k = key then rest else (k, v) :: map_erase key rest

/-- The loop `for (i = 0; i < stateA.first.size(); ++i)
newa[A_to_B[i]] = stateA.first[i]`, from index `i` on. -/
def reorder_loop (A_to_B : List Nat) : Nat → connectivity → connectivity → Option connectivity
  | _, [], newa => some newa
  | i, x :: xs, newa =>
    match A_to_B[i]? with
    | none => none
    | some t => if t < newa.length then reorder_loop A_to_B (i + 1) xs (newa.set t x) else none

/-- The loop `for (size_t i = 0; i < n; ++i)` of `table_fusion` over the
entries of `newa` from position `i` on.  The outer `Option` is an invalid
access, the inner one is `valid = false; break`. -/
def walk_loop : Nat → connectivity → connectivity → List (Nat × Nat) →
    Option (Option (connectivity × List (Nat × Nat)))
  | _, [], newc, table => some (some (newc, table))
  | i, a :: rest, newc, table =>
    if a > 0 then
      -- a strand connected or not
      match map_find a.toNat table with
      | some j =>
        -- we have a link, go ahead and connect
        match connect newc i j with
        | none => none
        | some none => some none
        | some (some newc1) => walk_loop (i + 1) rest newc1 (map_erase a.toNat table)
      | none => walk_loop (i + 1) rest newc (map_insert a.toNat i table)
    else if a = -1 then
      -- a bullet
      match newc[i]? with
      | none => none
      | some v => if v ≠ 0 then some none else walk_loop (i + 1) rest (newc.set i (-1)) table
    else walk_loop (i + 1) rest newc table

/-- The loop `for (auto x : table)` of `table_fusion` over the single strands,
carrying `newc` and `valid`. -/
def strands_loop : List (Nat × Nat) → connectivity → Bool → Option (connectivity × Bool)
  | [], newc, valid => some (newc, valid)
  | (_, bi) :: rest, newc, valid =>
    -- discard the state if we have single strands to apply to a finished state
    if is_finished newc then some (newc, false)
    else
      match newc[bi]? with
      | none => none
      | some v =>
        if v = -1 then strands_loop rest newc false
        else if v = 0 then
          match detach newc bi with
          | none => none
          | some newc1 => strands_loop rest newc1 valid
        -- part of a pair
        else if newc.count v == 2 then strands_loop rest (newc.set bi (-1)) valid
        -- single strand: mark as finished
        else if newc.countP (fun x => decide (x > 0)) == 1 then strands_loop rest [] valid
        -- there is other stuff
        else strands_loop rest newc false

/-- The body of the double loop of `table_fusion` for one pair of states:
the key at which the product of the weights is accumulated, if any. -/
def fuse (A_to_B : List Nat) (stateA stateB : connectivity) : Option (Option connectivity) :=
  -- if state A is finished
  if is_finished stateA then
    if is_empty stateB then some (some []) else some none
  -- if state B is finished
  else if is_finished stateB then
    if is_empty stateA then some (some []) else some none
  else
    -- convert to the new order
    match reorder_loop A_to_B 0 stateA (List.replicate stateB.length 0) with
    | none => none
    | some newa =>
      match walk_loop 0 newa stateB [] with
      | none => none
      | some none => some none
      | some (some (newc, table)) =>
        -- now the single strands
        match strands_loop table newc true with
        | none => none
        | some (newc1, valid) =>
          if valid then
            match how_many_endpoints newc1 with
            | none => none
            | some e =>
              if e ≤ 2 then (canonicalize newc1).map some else some none
          else some none

/-- The body of the inner loop of `table_fusion`. -/
def fusion_step {W : Type} [Zero W] [Add W] [Mul W] (A_to_B : List Nat)
    (stateA : connectivity × W) (new_table : table_type W) (stateB : connectivity × W) :
    Option (table_type W) :=
  match fuse A_to_B stateA.1 stateB.1 with
  | none => none
  | some none => some new_table
  | some (some key) => some (accumulate key (stateA.2 * stateB.2) new_table)

/-- The operator `table_fusion(A_to_B, A_table, B_table)`. -/
def table_fusion {W : Type} [Zero W] [Add W] [Mul W] (A_to_B : List Nat)
    (A_table B_table : table_type W) : Option (table_type W) :=
  for_each (fun new_table stateA => for_each (fusion_step A_to_B stateA) B_table new_table)
    A_table []

end longest_path

/-! ## `utility/smallset.hpp` -/

namespace smallset

/-- The method `index(x)`: `std::distance(begin(), std::find(begin(), end(), x))`. -/
def index (x : Nat) : List Nat → Nat
  | [] => 0
  | y :: ys => if y = x then 0 else index x ys + 1

/-- The method `remove(x)`: erase the first element found equal to `x`. -/
def remove (x : Nat) : List Nat → List Nat
  | [] => []
  | y :: ys => if y = x then ys else y :: remove x ys

/-- The method `at(i)`: `impl_[i]`. -/
def at_ (l : List Nat) (i : Nat) : Option Nat := l[i]?

end smallset

set_option linter.dupNamespace false

/-! ## `transfer.hpp` -/

namespace transfer

open longest_path

/-- A bag of the rooted tree decomposition (`tree_decomposition::bag`): its
vertex list, the edges it owns and its children. -/
inductive bag where
  | mk (vertices : List Nat) (edges : List (Nat × Nat)) (children : List bag)

/-- The field `b->vertices`. -/
def bag.vertices : bag → List Nat
  | .mk vs _ _ => vs

/-- The inner part of `set_difference` for a fixed head `a` of the first
range: advance in the second range while its head is smaller than `a`; `k` is
the run on the tail of the first range. -/
def set_difference_head (a : Nat) (as : List Nat) (k : List Nat → List Nat) :
    List Nat → List Nat
  | [] => a :: as
  | b :: bs =>
    if a < b then a :: k (b :: bs)
    else if b < a then set_difference_head a as k bs
    else k bs

/-- The call `boost::set_difference(a, b, out)` on two sorted ranges: while
both ranges are non-empty, emit and advance the first when its head is smaller,
advance the second when its head is smaller, advance both otherwise; then copy
what is left of the first range. -/
def set_difference : List Nat → List Nat → List Nat
  | [] => fun _ => []
  | a :: as => set_difference_head a as (set_difference as)

/-- The loop `for (auto v : diffe)` of `recurse`, and the loop
`for (auto v : b->vertices)` of `transfer`: delete each vertex at its current
position, then remove it from the working copy of the vertex list. -/
def delete_loop {W : Type} [Zero W] [Add W] :
    List Nat → List Nat → table_type W → Option (table_type W × List Nat)
  | [], left_over, table => some (table, left_over)
  | v :: rest, left_over, table =>
    match delete_operator (smallset.index v left_over) table with
    | none => none
    | some table1 => delete_loop rest (smallset.remove v left_over) table1

/-- The loop building `A_to_B`:
`A_to_B[i] = b->vertices.index(b_sib_left_over.at(i))`. -/
def build_mapping (b_vertices b_sib_left_over : List Nat) : List Nat :=
  b_sib_left_over.map (fun v => smallset.index v b_vertices)

/-- The loop `for (auto e : b->edges)` of `recurse`. -/
def join_loop {W : Type} [Zero W] [Add W] (shl : W → Nat → W) (b_vertices : List Nat) :
    List (Nat × Nat) → table_type W → Option (table_type W)
  | [], table => some table
  | e :: rest, table =>
    match join_operator shl (smallset.index e.1 b_vertices) (smallset.index e.2 b_vertices)
        table with
    | none => none
    | some table1 => join_loop shl b_vertices rest table1

mutual
/-- The function `recurse(op, b)`. -/
def recurse {W : Type} [Zero W] [One W] [Add W] [Mul W] (shl : W → Nat → W) :
    bag → Option (table_type W)
  | .mk vertices edges children =>
    match recurse_children shl vertices children (empty_state vertices.length) with
    | none => none
    | some table => join_loop shl vertices edges table
/-- The loop `for (auto b_sib : b->children)` of `recurse`. -/
def recurse_children {W : Type} [Zero W] [One W] [Add W] [Mul W] (shl : W → Nat → W)
    (b_vertices : List Nat) : List bag → table_type W → Option (table_type W)
  | [], table => some table
  | b_sib :: rest, table =>
    match recurse shl b_sib with
    | none => none
    | some table_sib =>
      let diffe := set_difference b_sib.vertices b_vertices
      match delete_loop diffe b_sib.vertices table_sib with
      | none => none
      | some (table_sib1, b_sib_left_over) =>
        match table_fusion (build_mapping b_vertices b_sib_left_over) table_sib1 table with
        | none => none
        | some table1 => recurse_children shl b_vertices rest table1
end

/-- The function `transfer(op, b)`; the assertion `table.size() == 1` failing
is the `none` of the inner `Option`. -/
def transfer {W : Type} [Zero W] [One W] [Add W] [Mul W] (shl : W → Nat → W) (b : bag) :
    Option (Option W) :=
  match recurse shl b with
  | none => none
  | some table =>
    match delete_loop b.vertices b.vertices table with
    | none => none
    | some (table1, _) =>
      match table1 with
      | [(_, w)] => some (some w)
      | _ => some none

end transfer

/-! ## Brute-force path counting, for cross-checking `transfer` -/

namespace brute_force

/-- Modelled from the spec: the brute-force enumeration of simple paths that
the spec asks to cross-check the pipeline with (no such routine is in the
sources).  `walks_from vs es k v` lists the vertex sequences of `k` further
steps that start at `v`, follow an edge of `es` (in either direction) at each
step and never repeat a vertex. -/
def walks_from (vs : List Nat) (es : List (Nat × Nat)) : Nat → List Nat → List (List Nat)
  | 0, path => [path]
  | k + 1, path =>
    match path with
    | [] => []
    | v :: _ =>
      (vs.filter (fun u => (es.contains (v, u) || es.contains (u, v)) && !path.contains u)).flatMap
        (fun u => walks_from vs es k (u :: path))

/-- Modelled from the spec: the number of simple paths with `k` edges, each
counted once per direction of traversal. -/
def directed_paths (vs : List Nat) (es : List (Nat × Nat)) (k : Nat) : Nat :=
  (vs.flatMap (fun v => walks_from vs es k [v])).length

/-- Modelled from the spec: the number of simple paths with `k >= 1` edges,
a path and its reverse counted once. -/
def undirected_paths (vs : List Nat) (es : List (Nat × Nat)) (k : Nat) : Nat :=
  directed_paths vs es k / 2

end brute_force

/-! ## Tree-decomposition invariants -/

namespace tree_decomposition

open transfer

/-- One bag of a flattened decomposition: its vertices, its edges and the
vertices of its parent (none for the root). -/
abbrev flat_bag := List Nat × List (Nat × Nat) × Option (List Nat)

mutual
/-- The bags of the subtree rooted at a bag, each with its parent's vertices. -/
def flatten (parent : Option (List Nat)) : bag → List flat_bag
  | .mk vs es cs => (vs, es, parent) :: flatten_children vs cs
/-- The bags of the subtrees rooted at the children of a bag. -/
def flatten_children (parent : List Nat) : List bag → List flat_bag
  | [] => []
  | b :: rest => flatten (some parent) b ++ flatten_children parent rest
end

/-- Whether the edge `e` is the edge `f`, in either orientation. -/
def same_edge (e f : Nat × Nat) : Bool :=
  (e.1 == f.1 && e.2 == f.2) || (e.1 == f.2 && e.2 == f.1)

/-- Modelled from the spec: the three tree-decomposition invariants of the
data model (the header `tree_decomposition/tree_decomposition.hpp` is not in
the sources), for the graph with vertices `gvs` and edges `ges`, together
with the representation invariants of a bag: `vertices` is sorted and unique
and is not empty, and a bag owns only edges of the graph.
1. every graph vertex appears in at least one bag;
2. every graph edge belongs to exactly one bag, which holds both endpoints;
3. the bags holding a vertex are connected in the tree: at most one of them
   has no parent holding the vertex. -/
def valid (gvs : List Nat) (ges : List (Nat × Nat)) (root : bag) : Bool :=
  let bags := flatten none root
  bags.all (fun b => decide (b.1.Pairwise (· < ·)) && !b.1.isEmpty
    && b.2.1.all (fun e => ges.any (same_edge e)))
  && gvs.all (fun v => bags.any (fun b => b.1.contains v))
  && ges.all (fun e =>
      ((bags.map (fun b => b.2.1.countP (same_edge e))).sum == 1)
      && bags.all (fun b => !b.2.1.any (same_edge e) || (b.1.contains e.1 && b.1.contains e.2)))
  && gvs.all (fun v =>
      bags.countP (fun b => b.1.contains v &&
        (match b.2.2 with | none => true | some p => !p.contains v)) ≤ 1)

end tree_decomposition

/-! ## `chinese_remainder.hpp` -/

namespace chinese_remainder

/-- The table `primes[]` of 32-bit primes. -/
def primes : List Nat :=
  [4294967291, 4294967279, 4294967231, 4294967197,
   4294967189, 4294967161, 4294967143, 4294967111,
   4294967087, 4294967029, 4294966997, 4294966981,
   4294966943, 4294966927, 4294966909, 4294966877,
   4294966829, 4294966813]

/-- Modelled from the spec: `modinv(a, p)`, the inverse of `a` modulo `p` as a
residue in `[0, p)` (the wrapper `utility/gmp.hpp` is not in the sources; the
spec writes `(P_k / p_i)^(-1) mod p_i`, computed by the extended gcd).  The
functions below take `modinv` as a parameter; this is one instance of it. -/
def modinv (a : Int) (p : Nat) : Int := Int.gcdA a p % p

/-- The contract of `modinv` used by the reconstruction: for `a` coprime to
`p` the result is an inverse of `a` modulo `p`, and it is not negative. -/
def modinv_contract (modinv : Int → Nat → Int) : Prop :=
  (∀ (a : Int) (p : Nat), Int.gcd a p = 1 → (p : Int) ∣ a * modinv a p - 1)
  ∧ ∀ (a : Int) (p : Nat), 0 < p → 0 ≤ modinv a p

/-- The running product `pp` after `pp *= primes[k]` for each prime used so
far, starting from 1. -/
def running_product (ps : List Nat) : Int := ps.foldl (fun (pp : Int) (p : Nat) => pp * (p : Int)) 1

/-- The loop `for (i = 0; i < k + 1; ++i)
qs[i] = pp / primes[i] * modinv(pp / primes[i], primes[i])`; the division of
big integers truncates. -/
def compute_qs (modinv : Int → Nat → Int) (pp : Int) (ps : List Nat) : List Int :=
  ps.map (fun (p : Nat) => pp.tdiv (p : Int) * modinv (pp.tdiv (p : Int)) p)

/-- The call `std::inner_product(partial_results, partial_results + k + 1, qs,
big_t(0))`: `init = init + partial_results[i] * qs[i]` from left to right. -/
def inner_product (partial_results : List (polynomial Int)) (qs : List Int) : polynomial Int :=
  (List.zip partial_results qs).foldl (fun init pq => init + pq.1.scale pq.2) (polynomial.const 0)

/-- The body of the reduction loop for one coefficient `c`:
`c %= pp; if (c > limit) c -= pp;` with `limit = pp >> 1`; the remainder of
big integers truncates. -/
def reduce (pp c : Int) : Int :=
  let c1 := c.tmod pp
  if c1 > pp >>> (1 : Nat) then c1 - pp else c1

/-- The reduction loop `for (auto& c : result)`. -/
def reduce_all (pp : Int) (result : polynomial Int) : polynomial Int :=
  ⟨result.impl_.map (reduce pp)⟩

/-- One round of the `do` loop of `chinese_remainder` once the partial results
for the primes `ps` are known: the value of `result` at the end of the round. -/
def reconstruct (modinv : Int → Nat → Int) (ps : List Nat)
    (partial_results : List (polynomial Int)) : polynomial Int :=
  reduce_all (running_product ps)
    (inner_product partial_results (compute_qs modinv (running_product ps) ps))

end chinese_remainder

namespace smallset

/-- The loop of `std::lower_bound(first, last, x)` on the range starting at
index `first` with `count` elements: halve `count`, look at the middle
element, keep the half that can hold the first element not smaller than `x`.
The first argument bounds the number of rounds (`count` shrinks each round,
so `count` rounds are enough); the middle index is inside the range. -/
def lower_bound_loop (l : List Nat) (x : Nat) : Nat → Nat → Nat → Nat
  | 0, first, _ => first
  | fuel + 1, first, count =>
    if 0 < count then
      if l.getD (first + count / 2) 0 < x then
        lower_bound_loop l x fuel (first + count / 2 + 1) (count - (count / 2 + 1))
      else lower_bound_loop l x fuel first (count / 2)
    else first

/-- The call `std::lower_bound(begin(), end(), x)`, as an index. -/
def lower_bound (x : Nat) (l : List Nat) : Nat :=
  lower_bound_loop l x l.length 0 l.length

/-- The method `insert(x)`: find the lower bound `i`; when `i == end()` or
`x < *i`, insert `x` before `i`. -/
def insert (x : Nat) (l : List Nat) : List Nat :=
  if lower_bound x l = l.length ∨ x < l.getD (lower_bound x l) 0 then
    l.take (lower_bound x l) ++ x :: l.drop (lower_bound x l)
  else l

/-- The method `has(x)`: `std::binary_search(begin(), end(), x)`, that is the
lower bound `i` is not `end()` and `x < *i` does not hold. -/
def has (x : Nat) (l : List Nat) : Bool :=
  decide (lower_bound x l ≠ l.length) && !(decide (x < l.getD (lower_bound x l) 0))

/-- A call of one of the two mutators of `smallset`. -/
inductive call where
  | insert (x : Nat)
  | remove (x : Nat)

/-- The sequence held after a list of calls, starting from `impl_ = l`. -/
def run : List call → List Nat → List Nat
  | [], l => l
  | call.insert x :: rest, l => run rest (insert x l)
  | call.remove x :: rest, l => run rest (remove x l)

/-- Whether `x` was inserted and not removed since, `start` telling whether it
was a member before the calls. -/
def inserted_since (x : Nat) : List call → Bool → Bool
  | [], start => start
  | call.insert y :: rest, start => inserted_since x rest (if y = x then true else start)
  | call.remove y :: rest, start => inserted_since x rest (if y = x then false else start)

end smallset

/-! ## `tree_decomposition/heuristics.hpp` -/

namespace heuristics

/-- Modelled from the spec: the graph type (`graph_type.hpp` is not in the
sources): a simple undirected graph on the vertices `0 .. n-1`, held as
adjacency lists, `g[v]` listing the neighbours of `v`. -/
abbrev graph := List (List Nat)

/-- The range `adjacent_vertices(v, g)`. -/
def adjacent_vertices (v : Nat) (g : graph) : List Nat := g.getD v []

/-- The range `vertices(g)`. -/
def vertices (g : graph) : List Nat := List.range g.length

/-- The function `num_non_adjacent_neighbors(v, g)`: for every `u` and `z`
adjacent to `v`, the `unsigned int` counter grows when `z` is found among the
vertices adjacent to `u`. -/
def num_non_adjacent_neighbors (v : Nat) (g : graph) : Nat :=
  (adjacent_vertices v g).foldl (fun n u =>
    (adjacent_vertices v g).foldl (fun n z =>
      if (adjacent_vertices u g).contains z then (n + 1) % 2 ^ 32 else n) n) 0

/-- The call `*min_element(range, less)`: the first element that no other
element is less than; dereferencing the end of an empty range is invalid. -/
def min_element (less : Nat → Nat → Bool) : List Nat → Option Nat
  | [] => none
  | x :: xs => some (xs.foldl (fun smallest y => if less y smallest then y else smallest) x)

/-- The vertex that one round of the loop of `greedy_fillin_order` picks on
the graph `g`. -/
def greedy_fillin_pick (g : graph) : Option Nat :=
  min_element (fun v u => decide (num_non_adjacent_neighbors v g < num_non_adjacent_neighbors u g))
    (vertices g)

/-- The number of (ordered) pairs of distinct neighbours of `v` that are not
adjacent in `g`: the pairs between which `eliminate_vertex(v, g)` finds no
edge. -/
def missing_pairs (v : Nat) (g : graph) : Nat :=
  ((adjacent_vertices v g).flatMap (fun a =>
    (adjacent_vertices v g).filter (fun b => a != b && !(adjacent_vertices a g).contains b))).length

/-- The number of (ordered) pairs of neighbours of `v` that are adjacent in
`g`. -/
def adjacent_pairs (v : Nat) (g : graph) : Nat :=
  ((adjacent_vertices v g).flatMap (fun u =>
    (adjacent_vertices v g).filter (fun z => (adjacent_vertices u g).contains z))).length

end heuristics

namespace longest_path

/-- The column-drop rules in the spec's words, to be compared with
`delete_node`: the finished state survives; when position `i` holds a free
endpoint (a positive label occurring once) the result is the finished state
if no other positive label occurs and no result otherwise; in every other
case position `i` is dropped and the rest canonicalized. -/
def delete_node_rules (c : connectivity) (i : Nat) : Option (Option connectivity) :=
  if c = [] then some (some [])
  else if 0 < c.getD i 0 ∧ c.count (c.getD i 0) = 1 then
    if ∀ x ∈ c, 0 < x → x = c.getD i 0 then some (some []) else some none
  else (canonicalize (c.eraseIdx i)).map some

end longest_path

namespace polynomial

/-- A coefficient vector as `normalize` leaves it: not empty, and with a
non-zero last entry when it has more than two entries. -/
def normal {T : Type} [Zero T] (l : List T) : Prop :=
  1 ≤ l.length ∧ (2 < l.length → l.getD (l.length - 1) 0 ≠ 0)

end polynomial

namespace chinese_remainder

/-- The partial result for the prime `p` when the true answer is the integer
polynomial with coefficients `A`: its coefficients reduced into `[0, p)`, as
the conversion `big_t(polynomial<Zp>)` delivers them. -/
def residues (A : List Int) (p : Nat) : polynomial Int :=
  ⟨A.map (fun a => a % (p : Int))⟩

end chinese_remainder

/-! ## Auxiliary notions for the proofs -/

namespace longest_path

/-- A state is in canonical form from the counter value `k` on: reading left
to right, every positive entry is either smaller than the next fresh label or
is that fresh label, which then grows by one. -/
def canon_from (k : Int) : connectivity → Prop
  | [] => True
  | x :: xs =>
    if x ≤ 0 then canon_from k xs
    else if x < k then canon_from k xs
    else x = k ∧ canon_from (k + 1) xs

/-- The relabelling that a filled `table` of `canonicalize` applies to an
entry: non-positive entries are kept, a positive entry is looked up. -/
def relabel (table : List Int) (x : Int) : Int :=
  if x ≤ 0 then x else table.getD x.toNat 0

/-- The loop invariant of `canonicalize` on its local `table` and counter `k`:
50 slots, slot 0 unused, `k - 1` slots filled, with the distinct values
`1 .. k - 1`. -/
structure table_inv (table : List Int) (k : Int) : Prop where
  len : table.length = 50
  head : table[0]? = some 0
  card : ((table.countP (fun t => decide (t ≠ 0)) : Nat) : Int) + 1 = k
  lt : ∀ (i : Nat) (t : Int), table[i]? = some t → 0 ≤ t ∧ t < k
  inj : ∀ (i j : Nat) (t : Int), table[i]? = some t → table[j]? = some t → t ≠ 0 → i = j

/-- Every key of a table has at most two endpoints (and the count is taken
without an access outside the local table of `how_many_endpoints`). -/
def keys_bounded {W : Type} (T : table_type W) : Prop :=
  ∀ s ∈ T, ∃ e, how_many_endpoints s.1 = some e ∧ e ≤ 2

/-- The weight stored at a key, the default-constructed weight when the key
is absent. -/
def weight_at {W : Type} [Zero W] (key : connectivity) (T : table_type W) : W :=
  (lookup key T).getD 0

/-- The key at which `join_operator` accumulates for the state `s`, if any:
`canonicalize(connect(s, i, j))` when `connect` succeeds with at most two
endpoints. -/
def join_key (i j : Nat) (s : connectivity) : Option connectivity :=
  match connect s i j with
  | some (some newc) =>
    match how_many_endpoints newc with
    | some e => if e ≤ 2 then canonicalize newc else none
    | none => none
  | _ => none

/-- The invariant of a key on its labels: every entry fits an `int8_t`, and no
positive label occurs more than twice. -/
def label_inv (s : connectivity) : Prop :=
  (∀ x ∈ s, -128 ≤ x ∧ x ≤ 127) ∧ ∀ l : Int, 0 < l → s.count l ≤ 2

/-- The tables that can be reached from `empty_state(n)` by the three
operators, with in-range positions and injective in-range mappings; the index
is the length of the non-finished keys (the number of columns). -/
inductive reachable {W : Type} [Zero W] [One W] [Add W] [Mul W] (shl : W → Nat → W) :
    Nat → table_type W → Prop
  | empty (n : Nat) : reachable shl n (empty_state n)
  | join {n i j : Nat} {T T1 : table_type W} : reachable shl n T → i < n → j < n →
      join_operator shl i j T = some T1 → reachable shl n T1
  | delete {n i : Nat} {T T1 : table_type W} : reachable shl (n + 1) T → i < n + 1 →
      delete_operator i T = some T1 → reachable shl n T1
  | fusion {a b : Nat} {m : List Nat} {A B T1 : table_type W} : reachable shl a A →
      reachable shl b B → m.length = a → (∀ x ∈ m, x < b) → m.Nodup →
      table_fusion m A B = some T1 → reachable shl b T1

/-- All sequences of length `n` over an alphabet. -/
def all_states (alphabet : List Int) : Nat → List connectivity
  | 0 => [[]]
  | n + 1 => (all_states alphabet n).flatMap (fun l => alphabet.map (fun a => a :: l))

/-- A valid state: canonical, every positive label at most twice, at most two
endpoints. -/
def valid_state (c : connectivity) : Bool :=
  canonicalize c == some c && c.all (fun x => decide (x ≤ 0) || decide (c.count x ≤ 2))
    && (match how_many_endpoints c with
        | some e => decide (e ≤ 2)
        | none => false)

/-- The finished state and the valid states of length `n` (their entries lie
between -1 and `n`). -/
def valid_states (n : Nat) : List connectivity :=
  [] :: (all_states ((List.range (n + 2)).map (fun k => (k : Int) - 1)) n).filter valid_state

/-- Whether, on all pairs of valid or finished states of length `n` and with
the identity mapping, the two orders of `fuse` give the same key unless one of
them makes an invalid access. -/
def fuse_symmetric_on (n : Nat) : Bool :=
  (valid_states n).all (fun sA => (valid_states n).all (fun sB =>
    fuse (List.range n) sA sB == none || fuse (List.range n) sB sA == none
      || fuse (List.range n) sA sB == fuse (List.range n) sB sA))

end longest_path

/-! ## Further notions for the statements -/

namespace longest_path

/-- The distinct positive labels of a state, read left to right by first
occurrence. -/
def distinct_labels : connectivity → List Int
  | [] => []
  | x :: xs =>
    if 0 < x then x :: (distinct_labels xs).filter (fun y => decide (y ≠ x))
    else distinct_labels xs


/-- The number of positive labels that occur exactly once in `c`. -/
def single_labels (c : connectivity) : Nat :=
  (c.dedup.filter (fun l => decide (0 < l) && c.count l == 1)).length

/-- The number of positions `i` of `c` with `is_endpoint(c, i)`. -/
def endpoint_positions (c : connectivity) : Nat :=
  (List.range c.length).countP (fun i => is_endpoint c i == some true)

end longest_path

namespace transfer

open longest_path

end transfer

/-! ## A label-free reading of the states, for the symmetry of `table_fusion` -/

namespace longest_path

/-- A port of a column: every column has two (a vertex of a simple path has
at most two path edges), used in the order `false`, `true`. -/
abbrev port := Nat × Bool

/-- What a port is wired to: nothing (the port is used up), the end of the
path (the rest of the strand lies in deleted columns and stops there), or
another free port. -/
inductive wire where
  | absent
  | fin
  | to (p : port)
  deriving DecidableEq

/-- A state read without labels.  An unused column has both ports free and
wired to each other; an endpoint of a strand has its first port used up and
its second port wired to the free port of the other endpoint, or to the end
of the path; a bullet has no free port.  The counter holds the number of
paths both of whose ends are ends of the path. -/
structure wiring where
  ends : port → wire
  complete : Nat

/-- One piece of a state: a strand from the column `i` to another column or,
with `none`, to the end of the path; or a bullet. -/
inductive strand_item where
  | link (i : Nat) (j : Option Nat)
  | bullet (i : Nat)
  deriving DecidableEq

/-- The free port of column `i` that is used next: the first one while it is
free, the second one otherwise. -/
def next_port (M : port → wire) (i : Nat) : port :=
  if M (i, false) = wire.absent then (i, true) else (i, false)

/-- What the second end of a new piece is wired to: the wire of the port it
uses, or the end of the path when it uses none. -/
def end_of (M : port → wire) : Option port → wire
  | some p => M p
  | none => wire.fin

/-- Whether a wire leads to the port `y`; nothing leads to the end of the
path. -/
def points_to (v : wire) : Option port → Prop
  | some p => v = wire.to p
  | none => False

instance (v : wire) (y : Option port) : Decidable (points_to v y) := by
  cases y <;> unfold points_to <;> infer_instance

/-- What a wire becomes when the ports `x` and `y` are used up by a new piece:
a wire to `x` is continued by what `y` was wired to (`b`), a wire to `y` by
what `x` was wired to (`a`). -/
def redirect (x : port) (y : Option port) (a b : wire) (v : wire) : wire :=
  if v = wire.to x then b else if points_to v y then a else v

/-- The wires after a new piece from the port `x` to `y` (a port, or the end
of the path): the ports used are used up, and what they were wired to gets
wired to each other. -/
def glue_ends (M : port → wire) (x : port) (y : Option port) : port → wire :=
  fun q =>
    if q = x ∨ some q = y then wire.absent
    else redirect x y (M x) (end_of M y) (M q)

/-- Add a piece of path from the free port `x` to `y` (a free port, or the
end of the path).  There is no result when a port is not free, when both are
the same port, or when the piece would close a loop. -/
def glue (S : wiring) (x : port) (y : Option port) : Option wiring :=
  if some x = y ∨ S.ends x = wire.absent ∨ end_of S.ends y = wire.absent
      ∨ points_to (S.ends x) y then none
  else
    some ⟨glue_ends S.ends x y,
      S.complete + (if S.ends x = wire.fin ∧ end_of S.ends y = wire.fin then 1 else 0)⟩

/-- Add one piece to a label-free state. -/
def strand_item.apply (S : wiring) : strand_item → Option wiring
  | strand_item.link i j =>
    if some i = j then none else glue S (next_port S.ends i) (j.map (next_port S.ends))
  | strand_item.bullet i =>
    if S.ends (i, false) = wire.to (i, true) then
      some ⟨fun q => if q.1 = i then wire.absent else S.ends q, S.complete⟩
    else none

/-- Symmetric wires: partners point at each other, and no port is its own
partner. -/
def sym (M : port → wire) : Prop := ∀ x y, M x = wire.to y → y ≠ x ∧ M y = wire.to x

/-- Well-formed wires: symmetric, and the first port of a column is free only
while the column is unused (wired to its second port). -/
def wf (M : port → wire) : Prop :=
  sym M ∧ ∀ i, M (i, false) = wire.absent ∨ M (i, false) = wire.to (i, true)

end longest_path

namespace longest_path

end longest_path

namespace longest_path

/-- The label-free reading of a state that is not finished: a column with 0 is
unused, a column with -1 has no free port, and a column with a positive label
has its second port free, wired to the second port of the other column with
that label, or to the end of the path when there is no other. -/
structure Abs (c : connectivity) (M : port → wire) : Prop where
  ge : ∀ i, -1 ≤ c.getD i 0
  zero : ∀ i, c.getD i 0 = 0 →
    M (i, false) = wire.to (i, true) ∧ M (i, true) = wire.to (i, false)
  neg : ∀ i, c.getD i 0 = -1 → M (i, false) = wire.absent ∧ M (i, true) = wire.absent
  pos : ∀ i, 0 < c.getD i 0 → M (i, false) = wire.absent
    ∧ (M (i, true) = wire.fin
      ∨ ∃ j, j ≠ i ∧ M (i, true) = wire.to (j, true) ∧ c.getD j 0 = c.getD i 0)
  uniq : ∀ i j, 0 < c.getD i 0 → c.getD j 0 = c.getD i 0 →
    j = i ∨ M (i, true) = wire.to (j, true)

/-- No strand is left: every port is used up or belongs to an unused column. -/
def clean (M : port → wire) : Prop := ∀ p : port, M p = wire.absent ∨ M p = wire.to (p.1, !p.2)

end longest_path

namespace longest_path

end longest_path

namespace longest_path

/-- The state `c` of `n` columns in `table_fusion` and the label-free state
`S` go together: `S` is the reading of `c` and no path is complete, or `c` is
the finished state, one path is complete and no strand is left. -/
def sim (n : Nat) (c : connectivity) (S : wiring) : Prop :=
  (c.length = n ∧ 0 < n ∧ Abs c S.ends ∧ S.complete = 0)
    ∨ (c = [] ∧ S.complete = 1 ∧ clean S.ends ∧ wf S.ends)

end longest_path

namespace longest_path

end longest_path

namespace longest_path

end longest_path

/-! ## `canonicalize` -/

namespace longest_path

theorem canonicalize_loop_fixed (c : connectivity) :
    ∀ (table : List Int) (k : Int), table.length = 50 →
      (∀ i : Nat, 0 < i → i < 50 → table[i]? = some (if (i : Int) < k then (i : Int) else 0)) →
      (∀ x ∈ c, x < 50) → canon_from k c → canonicalize_loop table k c = some c := by
  induction c with
  | nil => intro table k _ _ _ _; rfl
  | cons x xs ih =>
    intro table k hlen htab hlt hcan
    have hxs : ∀ y ∈ xs, y < 50 := fun y hy => hlt y (List.mem_cons_of_mem _ hy)
    by_cases hx : x ≤ 0
    · simp only [canon_from, hx, if_true] at hcan
      simp [canonicalize_loop, hx, ih table k hlen htab hxs hcan]
    · have hx50 : x < 50 := hlt x (List.mem_cons_self _ _)
      have hpos : 0 < x := by omega
      have hnat : ((x.toNat : Nat) : Int) = x := Int.toNat_of_nonneg (by omega)
      have hi0 : 0 < x.toNat := by omega
      have hi50 : x.toNat < 50 := by omega
      have hget := htab x.toNat hi0 hi50
      rw [hnat] at hget
      simp only [canon_from, hx, if_false] at hcan
      by_cases hk : x < k
      · simp only [hk, if_true] at hcan hget
        have hne : x ≠ 0 := by omega
        simp [canonicalize_loop, hx, hget, hne, ih table k hlen htab hxs hcan]
      · simp only [hk, if_false] at hcan hget
        obtain ⟨hxk, hcan⟩ := hcan
        subst hxk
        have hstep : canonicalize_loop (table.set x.toNat x) (x + 1) xs = some xs := by
          apply ih _ _ (by simp [hlen]) _ hxs hcan
          intro i h0 h50
          by_cases hix : x.toNat = i
          · subst hix
            rw [List.getElem?_set_self (by omega)]
            rw [hnat]; simp
          · rw [List.getElem?_set_ne hix, htab i h0 h50]
            have : (i : Int) ≠ x := by omega
            by_cases h1 : (i : Int) < x
            · simp [h1, show (i : Int) < x + 1 by omega]
            · simp [h1, show ¬ (i : Int) < x + 1 by omega]
        simp [canonicalize_loop, hx, hget, hstep]


theorem countP_set_of_not {α : Type} (p : α → Bool) (a b : α) (hb : p b = false) (ha : p a = true) :
    ∀ (l : List α) (i : Nat), l[i]? = some b → (l.set i a).countP p = l.countP p + 1 := by
  intro l
  induction l with
  | nil => intro i h; simp at h
  | cons y ys ih =>
    intro i h
    cases i with
    | zero =>
      simp at h
      subst h
      simp [List.countP_cons, hb, ha]
    | succ i =>
      simp at h
      simp [List.countP_cons, ih i h]
      omega

theorem countP_le_of_head {α : Type} (p : α → Bool) (l : List α) (a : α)
    (h : l[0]? = some a) (ha : p a = false) : l.countP p + 1 ≤ l.length := by
  cases l with
  | nil => simp at h
  | cons y ys =>
    simp at h
    subst h
    simp [List.countP_cons, ha]
    exact List.countP_le_length p

theorem table_inv_le {table : List Int} {k : Int} (h : table_inv table k) : 1 ≤ k ∧ k ≤ 50 := by
  have h1 := countP_le_of_head (fun t => decide (t ≠ 0)) table 0 h.head (by simp)
  have h2 := h.card
  have h3 := h.len
  omega

theorem table_inv_set {table : List Int} {k : Int} (h : table_inv table k) (i : Nat)
    (hi0 : 0 < i) (hget : table[i]? = some 0) :
    table_inv (table.set i k) (k + 1) ∧ k ≤ 49 := by
  have hk := table_inv_le h
  have hcard : (table.set i k).countP (fun t => decide (t ≠ 0))
      = table.countP (fun t => decide (t ≠ 0)) + 1 :=
    countP_set_of_not _ k 0 (by simp) (by simp; omega) table i hget
  have hinv : table_inv (table.set i k) (k + 1) := by
    refine ⟨by simp [h.len], ?_, ?_, ?_, ?_⟩
    · rw [List.getElem?_set_ne (by omega)]; exact h.head
    · rw [hcard]; have := h.card; push_cast; omega
    · intro j t hj
      by_cases hij : i = j
      · subst hij
        rw [List.getElem?_set_self (by have := h.len; have := (List.getElem?_eq_some_iff.mp hget).1; omega)] at hj
        cases hj; omega
      · rw [List.getElem?_set_ne hij] at hj
        have := h.lt j t hj; omega
    · intro a b t ha hb ht
      have hilt : i < table.length := (List.getElem?_eq_some_iff.mp hget).1
      by_cases hia : i = a
      · subst hia
        rw [List.getElem?_set_self hilt] at ha
        cases ha
        by_cases hib : i = b
        · exact hib
        · rw [List.getElem?_set_ne hib] at hb
          have := h.lt b _ hb; omega
      · rw [List.getElem?_set_ne hia] at ha
        by_cases hib : i = b
        · subst hib
          rw [List.getElem?_set_self hilt] at hb
          cases hb
          have := h.lt a _ ha; omega
        · rw [List.getElem?_set_ne hib] at hb
          exact h.inj a b t ha hb ht
  refine ⟨hinv, ?_⟩
  have := (table_inv_le hinv).2
  omega


theorem canonicalize_loop_spec (c : connectivity) :
    ∀ (table : List Int) (k : Int), table_inv table k → (∀ x ∈ c, x < 50) →
      ∃ (table1 : List Int) (k1 : Int),
        canonicalize_loop table k c = some (c.map (relabel table1))
        ∧ table_inv table1 k1 ∧ k ≤ k1 ∧ k1 ≤ k + c.length
        ∧ (∀ (i : Nat) (t : Int), table[i]? = some t → t ≠ 0 → table1[i]? = some t)
        ∧ (∀ x ∈ c, 0 < x → relabel table1 x ≠ 0)
        ∧ canon_from k (c.map (relabel table1)) := by
  induction c with
  | nil =>
    intro table k hinv _
    exact ⟨table, k, rfl, hinv, le_refl _, by simp, fun _ _ h _ => h, by simp, trivial⟩
  | cons x xs ih =>
    intro table k hinv hlt
    have hxs : ∀ y ∈ xs, y < 50 := fun y hy => hlt y (List.mem_cons_of_mem _ hy)
    have hk := table_inv_le hinv
    by_cases hx : x ≤ 0
    · obtain ⟨table1, k1, hrun, hinv1, hle, hle2, hext, hnz, hcan⟩ := ih table k hinv hxs
      refine ⟨table1, k1, ?_, hinv1, hle, ?_, hext, ?_, ?_⟩
      · simp [canonicalize_loop, hx, hrun, relabel]
      · simp; omega
      · intro y hy hpos
        rcases List.mem_cons.mp hy with rfl | hy
        · omega
        · exact hnz y hy hpos
      · simp only [List.map_cons, canon_from]
        have : relabel table1 x = x := by simp [relabel, hx]
        rw [this]; simp [hx, hcan]
    · have hx50 : x < 50 := hlt x (List.mem_cons_self _ _)
      have hi0 : 0 < x.toNat := by omega
      have hi50 : x.toNat < table.length := by have := hinv.len; omega
      obtain ⟨t, ht⟩ : ∃ t, table[x.toNat]? = some t :=
        ⟨table[x.toNat], List.getElem?_eq_getElem hi50⟩
      by_cases ht0 : t = 0
      · subst ht0
        obtain ⟨hinv2, hk49⟩ := table_inv_set hinv x.toNat hi0 ht
        obtain ⟨table1, k1, hrun, hinv1, hle, hle2, hext, hnz, hcan⟩ :=
          ih (table.set x.toNat k) (k + 1) hinv2 hxs
        have hx1 : table1[x.toNat]? = some k :=
          hext x.toNat k (List.getElem?_set_self hi50) (by omega)
        have hrel : relabel table1 x = k := by
          simp [relabel, hx, List.getD_eq_getElem?_getD, hx1]
        refine ⟨table1, k1, ?_, hinv1, by omega, ?_, ?_, ?_, ?_⟩
        · simp [canonicalize_loop, hx, ht, hrun, hrel]
        · simp; omega
        · intro i t hi hne
          have hix : x.toNat ≠ i := by
            intro h; subst h; rw [ht] at hi; cases hi; exact hne rfl
          exact hext i t (by rw [List.getElem?_set_ne hix]; exact hi) hne
        · intro y hy hpos
          rcases List.mem_cons.mp hy with rfl | hy
          · rw [hrel]; omega
          · exact hnz y hy hpos
        · simp only [List.map_cons, canon_from, hrel]
          simp [show ¬ k ≤ 0 by omega, hcan]
      · obtain ⟨table1, k1, hrun, hinv1, hle, hle2, hext, hnz, hcan⟩ := ih table k hinv hxs
        have hx1 : table1[x.toNat]? = some t := hext x.toNat t ht ht0
        have hrel : relabel table1 x = t := by
          simp [relabel, hx, List.getD_eq_getElem?_getD, hx1]
        have htlt := hinv.lt x.toNat t ht
        refine ⟨table1, k1, ?_, hinv1, hle, ?_, hext, ?_, ?_⟩
        · simp [canonicalize_loop, hx, ht, ht0, hrun, hrel]
        · simp; omega
        · intro y hy hpos
          rcases List.mem_cons.mp hy with rfl | hy
          · rw [hrel]; exact ht0
          · exact hnz y hy hpos
        · simp only [List.map_cons, canon_from, hrel]
          simp [show ¬ t ≤ 0 by omega, htlt.2, hcan]

theorem table_inv_init : table_inv (List.replicate 50 0) 1 := by
  have key : ∀ (i : Nat) (t : Int), (List.replicate 50 (0 : Int))[i]? = some t → t = 0 := by
    intro i t h
    rw [List.getElem?_replicate] at h
    split at h
    · cases h; rfl
    · cases h
  refine ⟨by simp, by decide, by decide, ?_, ?_⟩
  · intro i t h
    have := key i t h; omega
  · intro i j t h _ hne
    exact absurd (key i t h) hne

theorem relabel_lt {table : List Int} {k : Int} (h : table_inv table k) (x : Int) :
    relabel table x < 50 := by
  unfold relabel
  by_cases hx0 : x ≤ 0
  · simp [hx0]; omega
  · simp only [hx0, if_false]
    have hk := table_inv_le h
    rw [List.getD_eq_getElem?_getD]
    cases hg : table[x.toNat]? with
    | none => simp
    | some t => have := h.lt _ _ hg; simp; omega

theorem canonicalize_loop_some_lt (c : connectivity) :
    ∀ (table : List Int) (k : Int) (c1 : connectivity), table.length = 50 →
      canonicalize_loop table k c = some c1 → ∀ x ∈ c, x < 50 := by
  induction c with
  | nil => intro _ _ _ _ _ x hx; simp at hx
  | cons y ys ih =>
    intro table k c1 hlen hrun x hx
    by_cases hy : y ≤ 0
    · simp only [canonicalize_loop, hy, if_true] at hrun
      rcases List.mem_cons.mp hx with rfl | hx
      · omega
      · cases hr : canonicalize_loop table k ys with
        | none => simp [hr] at hrun
        | some c2 => exact ih table k c2 hlen hr x hx
    · simp only [canonicalize_loop, hy, if_false] at hrun
      cases hg : table[y.toNat]? with
      | none => simp [hg] at hrun
      | some t =>
        have hlt : y.toNat < table.length := (List.getElem?_eq_some_iff.mp hg).1
        simp only [hg] at hrun
        rcases List.mem_cons.mp hx with rfl | hx
        · omega
        · by_cases ht : t = 0
          · subst ht
            simp only [ne_eq, not_true_eq_false, if_false] at hrun
            cases hr : canonicalize_loop (table.set y.toNat k) (k + 1) ys with
            | none => simp [hr] at hrun
            | some c2 => exact ih _ _ c2 (by simp [hlen]) hr x hx
          · simp only [ne_eq, ht, not_false_eq_true, if_true] at hrun
            cases hr : canonicalize_loop table k ys with
            | none => simp [hr] at hrun
            | some c2 => exact ih table k c2 hlen hr x hx

/-- C7: `canonicalize` is idempotent.  For every state whose labels are below
the bound 50 of the local table, `canonicalize` returns a state, and
canonicalizing that state again returns it unchanged. -/
theorem canonicalize_idempotent (c : connectivity) (h : ∀ x ∈ c, x < 50) :
    ∃ c1, canonicalize c = some c1 ∧ canonicalize c1 = some c1 := by
  obtain ⟨table1, k1, hrun, hinv1, _, _, _, _, hcan⟩ :=
    canonicalize_loop_spec c (List.replicate 50 0) 1 table_inv_init h
  refine ⟨c.map (relabel table1), hrun, ?_⟩
  apply canonicalize_loop_fixed _ _ _ (by simp) _ _ hcan
  · intro i h0 h50
    rw [List.getElem?_replicate]
    simp [h50]
    omega
  · intro y hy
    obtain ⟨x, _, rfl⟩ := List.mem_map.mp hy
    exact relabel_lt hinv1 x

/-- Witness of C7 at the state `[3, 0, 3, -1, 7]`. -/
theorem canonicalize_idempotent_witness :
    (∀ x ∈ ([3, 0, 3, -1, 7] : connectivity), x < 50)
    ∧ ∃ c1, canonicalize [3, 0, 3, -1, 7] = some c1 ∧ canonicalize c1 = some c1 :=
  ⟨by decide, canonicalize_idempotent _ (by decide)⟩

end longest_path


/-! ## Coefficients of polynomial sums and shifts -/

namespace polynomial

variable {T : Type}

theorem getD_resize [Zero T] (l : List T) (m n : Nat) :
    (resize l m).getD n 0 = if n < m then l.getD n 0 else 0 := by
  unfold resize
  simp only [List.getD_eq_getElem?_getD, List.getElem?_append, List.length_take,
    List.getElem?_take, List.getElem?_replicate]
  by_cases h1 : n < m
  · by_cases h2 : n < l.length
    · simp [h1, h2]
    · have h3 : l[n]? = none := List.getElem?_eq_none (by omega)
      simp [h1, h2, h3]
      split_ifs <;> simp
  · simp [h1]
    split_ifs <;> simp

theorem getD_zip_into [Zero T] [Add T] :
    ∀ (a b : List T) (n : Nat), b.length ≤ a.length →
      (zip_into (· + ·) a b).getD n 0 = a.getD n 0 + b.getD n 0
        ∨ (b.length ≤ n ∧ (zip_into (· + ·) a b).getD n 0 = a.getD n 0) := by
  intro a
  induction a with
  | nil =>
    intro b n h
    cases b with
    | nil => right; simp [zip_into]
    | cons y ys => simp at h
  | cons x xs ih =>
    intro b n h
    cases b with
    | nil => right; simp [zip_into]
    | cons y ys =>
      cases n with
      | zero => left; simp [zip_into]
      | succ n =>
        simp only [List.length_cons, Nat.add_le_add_iff_right] at h
        rcases ih ys n h with h1 | ⟨h1, h2⟩
        · left; simpa [zip_into] using h1
        · right; exact ⟨by simp; omega, by simpa [zip_into] using h2⟩

theorem normalize_index_spec [Zero T] [DecidableEq T] (l : List T) :
    ∀ i : Nat, normalize_index l i ≤ i
      ∧ ∀ n, normalize_index l i < n → n ≤ i → l.getD n 0 = 0 := by
  intro i
  induction i with
  | zero => exact ⟨le_refl _, fun n h1 h2 => by simp [normalize_index] at h1; omega⟩
  | succ i ih =>
    by_cases h : l.getD (i + 1) 0 = 0 ∧ i + 1 > 1
    · simp only [normalize_index, h, and_self, if_true]
      refine ⟨by omega, fun n h1 h2 => ?_⟩
      by_cases hn : n = i + 1
      · subst hn; exact h.1
      · exact ih.2 n h1 (by omega)
    · simp only [normalize_index, h, if_false]
      exact ⟨le_refl _, fun n h1 h2 => by omega⟩

theorem coeff_normalize [Zero T] [DecidableEq T] (p : polynomial T) (n : Nat) :
    (normalize p).coeff n = p.coeff n := by
  unfold normalize set_order coeff
  rw [getD_resize]
  obtain ⟨h1, h2⟩ := normalize_index_spec p.impl_ p.order
  split_ifs with h
  · rfl
  · symm
    by_cases hn : n ≤ p.order
    · exact h2 n (by omega) hn
    · unfold order at hn
      rw [List.getD_eq_getElem?_getD, List.getElem?_eq_none (by omega)]
      rfl

theorem coeff_add [AddMonoid T] [DecidableEq T] (p q : polynomial T) (n : Nat) :
    (p + q).coeff n = p.coeff n + q.coeff n := by
  show (add_assign p q).coeff n = _
  unfold add_assign
  rw [coeff_normalize]
  unfold coeff set_order
  have hlen : q.impl_.length ≤ (resize p.impl_ (max p.order q.order + 1)).length := by
    unfold resize order
    simp
    omega
  have hres : (resize p.impl_ (max p.order q.order + 1)).getD n 0 = p.impl_.getD n 0 := by
    rw [getD_resize]
    split_ifs with h
    · rfl
    · unfold order at h
      rw [List.getD_eq_getElem?_getD, List.getElem?_eq_none (by omega)]
      rfl
  rcases getD_zip_into _ _ n hlen with h | ⟨h1, h2⟩
  · rw [h, hres]
  · rw [h2, hres]
    rw [List.getD_eq_getElem?_getD q.impl_, List.getElem?_eq_none h1]
    simp

theorem coeff_zero [Zero T] (n : Nat) : (0 : polynomial T).coeff n = 0 := by
  show (const (0 : T)).coeff n = 0
  unfold const coeff
  cases n <;> simp

theorem coeff_shl_zero [Zero T] (p : polynomial T) : (p.shl 1).coeff 0 = 0 := by
  simp [shl, coeff]

theorem coeff_shl_succ [Zero T] (p : polynomial T) (n : Nat) :
    (p.shl 1).coeff (n + 1) = p.coeff n := by
  simp [shl, coeff]

end polynomial

/-! ## Endpoint bound and weights of the table operators -/

namespace longest_path

theorem how_many_endpoints_loop_map (f : Int → Int) (c0 : connectivity)
    (hpos : ∀ x ∈ c0, 0 < x → 0 < f x) (hnonpos : ∀ x, x ≤ 0 → f x ≤ 0)
    (hinj : ∀ x ∈ c0, ∀ y ∈ c0, 0 < x → 0 < y → f x = f y → x = y) (c : connectivity) :
    ∀ (T T1 : List Int) (r j e : Nat), (∀ x ∈ c, x ∈ c0) →
      (∀ x ∈ c0, 0 < x → ∀ t, T[x.toNat]? = some t →
        ∃ t1, T1[(f x).toNat]? = some t1 ∧ (t < 0 ↔ t1 < 0)) →
      how_many_endpoints_loop T r j c = some e →
      how_many_endpoints_loop T1 r j (c.map f) = some e := by
  induction c with
  | nil => intro T T1 r j e _ _ h; simpa [how_many_endpoints_loop] using h
  | cons x xs ih =>
    intro T T1 r j e hsub hrel hrun
    have hx0 : x ∈ c0 := hsub x (List.mem_cons_self _ _)
    have hxs : ∀ y ∈ xs, y ∈ c0 := fun y hy => hsub y (List.mem_cons_of_mem _ hy)
    by_cases hx : x > 0
    · have hfx : f x > 0 := hpos x hx0 hx
      simp only [how_many_endpoints_loop, hx, if_true] at hrun
      simp only [List.map_cons, how_many_endpoints_loop, hfx, if_true]
      cases hg : T[x.toNat]? with
      | none => simp [hg] at hrun
      | some t =>
        simp only [hg] at hrun
        obtain ⟨t1, hg1, hsign⟩ := hrel x hx0 hx t hg
        simp only [hg1]
        by_cases ht : t < 0
        · have ht1 : t1 < 0 := hsign.mp ht
          simp only [ht, if_true] at hrun
          simp only [ht1, if_true]
          apply ih _ _ _ _ _ hxs _ hrun
          intro y hy hy0 u hu
          have hxlt : x.toNat < T.length := (List.getElem?_eq_some_iff.mp hg).1
          have hfxlt : (f x).toNat < T1.length := (List.getElem?_eq_some_iff.mp hg1).1
          by_cases hyx : y = x
          · subst hyx
            rw [List.getElem?_set_self hxlt] at hu
            cases hu
            exact ⟨j, List.getElem?_set_self hfxlt, Iff.rfl⟩
          · have hne : x.toNat ≠ y.toNat := by omega
            rw [List.getElem?_set_ne hne] at hu
            obtain ⟨u1, hu1, hs⟩ := hrel y hy hy0 u hu
            have hfy : f y > 0 := hpos y hy hy0
            have hfne : f x ≠ f y := fun h => hyx (hinj x hx0 y hy hx hy0 h).symm
            have hne1 : (f x).toNat ≠ (f y).toNat := by omega
            exact ⟨u1, by rw [List.getElem?_set_ne hne1]; exact hu1, hs⟩
        · have ht1 : ¬ t1 < 0 := fun h => ht (hsign.mpr h)
          simp only [ht, if_false] at hrun
          simp only [ht1, if_false]
          exact ih _ _ _ _ _ hxs hrel hrun
    · have hfx : ¬ f x > 0 := by have := hnonpos x (by omega); omega
      simp only [how_many_endpoints_loop, hx, if_false] at hrun
      simp only [List.map_cons, how_many_endpoints_loop, hfx, if_false]
      exact ih _ _ _ _ _ hxs hrel hrun

theorem relabel_inj {table : List Int} {k : Int} (hinv : table_inv table k) (x y : Int)
    (hx : 0 < x) (hy : 0 < y) (hnz : relabel table x ≠ 0) (h : relabel table x = relabel table y) :
    x = y := by
  unfold relabel at h hnz
  simp only [show ¬ x ≤ 0 by omega, show ¬ y ≤ 0 by omega, if_false] at h hnz
  rw [List.getD_eq_getElem?_getD] at h hnz
  rw [List.getD_eq_getElem?_getD] at h
  cases hgx : table[x.toNat]? with
  | none => simp [hgx] at hnz
  | some t =>
    cases hgy : table[y.toNat]? with
    | none => simp [hgx, hgy] at h hnz; exact absurd h hnz
    | some u =>
      simp [hgx, hgy] at h hnz
      subst h
      have := hinv.inj _ _ _ hgx hgy hnz
      omega

theorem relabel_pos {table : List Int} {k : Int} (hinv : table_inv table k) (x : Int)
    (hx : 0 < x) (hnz : relabel table x ≠ 0) : 0 < relabel table x ∧ relabel table x < k := by
  unfold relabel at hnz ⊢
  simp only [show ¬ x ≤ 0 by omega, if_false] at hnz ⊢
  rw [List.getD_eq_getElem?_getD] at hnz ⊢
  cases hgx : table[x.toNat]? with
  | none => simp [hgx] at hnz
  | some t =>
    simp [hgx] at hnz ⊢
    have := hinv.lt _ _ hgx
    omega

theorem how_many_endpoints_canonicalize (c c1 : connectivity) (e : Nat)
    (hc : canonicalize c = some c1) (he : how_many_endpoints c = some e) :
    how_many_endpoints c1 = some e := by
  have hlt : ∀ x ∈ c, x < 50 := canonicalize_loop_some_lt c _ _ c1 (by simp) hc
  obtain ⟨table1, k1, hrun, hinv1, _, hk1, _, hnz, _⟩ :=
    canonicalize_loop_spec c (List.replicate 50 0) 1 table_inv_init hlt
  have hc1 : c1 = c.map (relabel table1) := by
    unfold canonicalize at hc
    rw [hrun] at hc
    exact (Option.some.inj hc).symm
  subst hc1
  unfold how_many_endpoints at he ⊢
  rw [List.length_map]
  apply how_many_endpoints_loop_map (relabel table1) c
    (fun x hx h0 => (relabel_pos hinv1 x h0 (hnz x hx h0)).1)
    (fun x hx => by simp [relabel, hx])
    (fun x hx y _ h0 h1 h => relabel_inj hinv1 x y h0 h1 (hnz x hx h0) h)
    c _ _ _ _ _ (fun _ h => h) _ he
  intro x hx h0 t ht
  rw [List.getElem?_replicate] at ht
  split at ht
  · cases ht
    have hb := relabel_pos hinv1 x h0 (hnz x hx h0)
    refine ⟨-1, ?_, Iff.rfl⟩
    rw [List.getElem?_replicate]
    have : (relabel table1 x).toNat < c.length + 1 := by omega
    simp [this]
  · cases ht

end longest_path

namespace longest_path

theorem mem_accumulate {W : Type} [Zero W] [Add W] (key : connectivity) (w : W) :
    ∀ (T : table_type W) (s : connectivity × W), s ∈ accumulate key w T →
      s.1 = key ∨ ∃ s1 ∈ T, s1.1 = s.1 := by
  intro T
  induction T with
  | nil =>
    intro s hs
    simp [accumulate] at hs
    left; rw [hs]
  | cons a rest ih =>
    intro s hs
    obtain ⟨k, v⟩ := a
    by_cases hk : k = key
    · simp only [accumulate, hk, if_true] at hs
      rcases List.mem_cons.mp hs with h | h
      · left; rw [h]
      · right; exact ⟨s, List.mem_cons_of_mem _ h, rfl⟩
    · simp only [accumulate, hk, if_false] at hs
      rcases List.mem_cons.mp hs with h | h
      · right; exact ⟨(k, v), List.mem_cons_self _ _, by rw [h]⟩
      · rcases ih s h with h1 | ⟨s1, hs1, h1⟩
        · left; exact h1
        · right; exact ⟨s1, List.mem_cons_of_mem _ hs1, h1⟩

theorem for_each_invariant {α β : Type} (P : β → Prop) (body : β → α → Option β) :
    ∀ (l : List α) (acc r : β), P acc →
      (∀ acc a acc1, a ∈ l → P acc → body acc a = some acc1 → P acc1) →
      for_each body l acc = some r → P r := by
  intro l
  induction l with
  | nil => intro acc r hP _ h; simp [for_each] at h; subst h; exact hP
  | cons a rest ih =>
    intro acc r hP hstep h
    simp only [for_each] at h
    cases hb : body acc a with
    | none => simp [hb] at h
    | some acc1 =>
      simp only [hb] at h
      exact ih acc1 r (hstep acc a acc1 (List.mem_cons_self _ _) hP hb)
        (fun acc a acc1 ha => hstep acc a acc1 (List.mem_cons_of_mem _ ha)) h

theorem keys_bounded_accumulate {W : Type} [Zero W] [Add W] (key : connectivity) (w : W)
    (T : table_type W) (hT : keys_bounded T) (e : Nat) (he : how_many_endpoints key = some e)
    (h2 : e ≤ 2) : keys_bounded (accumulate key w T) := by
  intro s hs
  rcases mem_accumulate key w T s hs with h | ⟨s1, hs1, h⟩
  · rw [h]; exact ⟨e, he, h2⟩
  · rw [← h]; exact hT s1 hs1

theorem join_step_bounded {W : Type} [Zero W] [Add W] (shl : W → Nat → W) (i j : Nat)
    (acc acc1 : table_type W) (state : connectivity × W) (hacc : keys_bounded acc)
    (h : join_step shl i j acc state = some acc1) : keys_bounded acc1 := by
  unfold join_step at h
  split at h
  · cases h
  · cases h; exact hacc
  · rename_i newc _
    split at h
    · cases h
    · rename_i e he
      split at h
      · rename_i h2
        split at h
        · cases h
        · rename_i key hkey
          cases h
          exact keys_bounded_accumulate _ _ _ hacc e
            (how_many_endpoints_canonicalize newc key e hkey he) h2
      · cases h; exact hacc

theorem delete_step_bounded {W : Type} [Zero W] [Add W] (i : Nat)
    (acc acc1 : table_type W) (state : connectivity × W) (hacc : keys_bounded acc)
    (h : delete_step i acc state = some acc1) : keys_bounded acc1 := by
  unfold delete_step at h
  split at h
  · cases h
  · cases h; exact hacc
  · rename_i newc _
    split at h
    · cases h
    · rename_i e he
      split at h
      · rename_i h2
        cases h
        exact keys_bounded_accumulate _ _ _ hacc e he h2
      · cases h; exact hacc

theorem how_many_endpoints_nil : how_many_endpoints [] = some 0 := rfl

theorem fuse_bounded (m : List Nat) (sA sB key : connectivity)
    (h : fuse m sA sB = some (some key)) :
    ∃ e, how_many_endpoints key = some e ∧ e ≤ 2 := by
  unfold fuse at h
  split at h
  · split at h
    · cases h; exact ⟨0, rfl, by omega⟩
    · cases h
  · split at h
    · split at h
      · cases h; exact ⟨0, rfl, by omega⟩
      · cases h
    · split at h
      · cases h
      · split at h
        · cases h
        · cases h
        · split at h
          · cases h
          · split at h
            · split at h
              · cases h
              · rename_i newc1 _ _ _ _ e he
                split at h
                · rename_i h2
                  cases hc : canonicalize newc1 with
                  | none => rw [hc] at h; simp at h
                  | some k =>
                    rw [hc] at h
                    simp at h
                    subst h
                    exact ⟨e, how_many_endpoints_canonicalize newc1 k e hc he, h2⟩
                · cases h
            · cases h

theorem fusion_step_bounded {W : Type} [Zero W] [Add W] [Mul W] (m : List Nat)
    (stateA : connectivity × W) (acc acc1 : table_type W) (stateB : connectivity × W)
    (hacc : keys_bounded acc) (h : fusion_step m stateA acc stateB = some acc1) :
    keys_bounded acc1 := by
  unfold fusion_step at h
  split at h
  · cases h
  · cases h; exact hacc
  · rename_i key hkey
    cases h
    obtain ⟨e, he, h2⟩ := fuse_bounded m _ _ key hkey
    exact keys_bounded_accumulate _ _ _ hacc e he h2

/-- C5: the endpoint bound is an invariant of the three table operators.  If
every key of `T` has at most two endpoints, so has every key of
`join_operator(i, j, T)`; every key of `delete_operator(i, T)` and of
`table_fusion(m, A, B)` has at most two endpoints (whatever the positions and
the mapping, as long as the operator runs without an invalid access). -/
theorem endpoint_bound_invariant {W : Type} [Zero W] [Add W] [Mul W] (shl : W → Nat → W)
    (i j : Nat) (m : List Nat) (T A B : table_type W)
    (hT : keys_bounded T) :
    (∀ T1, join_operator shl i j T = some T1 → keys_bounded T1)
    ∧ (∀ T1, delete_operator i T = some T1 → keys_bounded T1)
    ∧ (∀ T1, table_fusion m A B = some T1 → keys_bounded T1) := by
  refine ⟨?_, ?_, ?_⟩
  · intro T1 h
    exact for_each_invariant keys_bounded _ T T T1 hT
      (fun acc a acc1 _ hacc hb => join_step_bounded shl i j acc acc1 a hacc hb) h
  · intro T1 h
    exact for_each_invariant keys_bounded _ T [] T1 (by intro s hs; simp at hs)
      (fun acc a acc1 _ hacc hb => delete_step_bounded i acc acc1 a hacc hb) h
  · intro T1 h
    exact for_each_invariant keys_bounded _ A [] T1 (by intro s hs; simp at hs)
      (fun acc a acc1 _ hacc hb => for_each_invariant keys_bounded _ B acc acc1 hacc
        (fun acc b acc2 _ hacc hb => fusion_step_bounded m a acc acc2 b hacc hb) hb) h

/-- Witness of C5: the three operators on the table `{[0,0] : 1}` with
positions 0, 1 and the identity mapping. -/
theorem endpoint_bound_invariant_witness :
    keys_bounded ([([0, 0], 1)] : table_type (polynomial Int))
    ∧ join_operator polynomial.shl 0 1 ([([0, 0], 1)] : table_type (polynomial Int))
        = some [([0, 0], ⟨[1]⟩), ([1, 1], ⟨[0, 1]⟩)]
    ∧ ((∀ T1, join_operator polynomial.shl 0 1 ([([0, 0], 1)] : table_type (polynomial Int))
          = some T1 → keys_bounded T1)
      ∧ (∀ T1, delete_operator 0 ([([0, 0], 1)] : table_type (polynomial Int)) = some T1 →
          keys_bounded T1)
      ∧ (∀ T1, table_fusion [0, 1] ([([0, 0], 1)] : table_type (polynomial Int))
          [([0, 0], 1)] = some T1 → keys_bounded T1)) :=
  have h0 : keys_bounded ([([0, 0], 1)] : table_type (polynomial Int)) := by
    intro s hs
    simp at hs
    subst hs
    exact ⟨0, by decide, by omega⟩
  ⟨h0, by decide, endpoint_bound_invariant polynomial.shl 0 1 [0, 1] _ _ _ h0⟩

end longest_path

namespace longest_path

theorem weight_at_accumulate {W : Type} [Zero W] [Add W] (key key1 : connectivity) (w : W) :
    ∀ T : table_type W, weight_at key1 (accumulate key w T)
      = if key1 = key then weight_at key T + w else weight_at key1 T := by
  intro T
  induction T with
  | nil =>
    by_cases h : key1 = key
    · subst h; simp [accumulate, weight_at, lookup]
    · simp [accumulate, weight_at, lookup, h, Ne.symm h]
  | cons a rest ih =>
    obtain ⟨k, v⟩ := a
    by_cases hk : k = key
    · subst hk
      by_cases h : key1 = k
      · subst h; simp [accumulate, weight_at, lookup]
      · simp [accumulate, weight_at, lookup, h, Ne.symm h]
    · by_cases h : key1 = key
      · subst h
        have := ih
        simp only [weight_at, if_true] at this
        simp [accumulate, weight_at, lookup, hk, this]
      · have := ih
        simp only [weight_at, h, if_false] at this
        by_cases hk1 : k = key1
        · simp [accumulate, weight_at, lookup, hk, hk1, h]
        · simp [accumulate, weight_at, lookup, hk, hk1, h, this]

theorem join_step_weight {W : Type} [Zero W] [Add W] (shl : W → Nat → W) (i j : Nat)
    (acc acc1 : table_type W) (s : connectivity × W)
    (h : join_step shl i j acc s = some acc1) (key : connectivity) :
    weight_at key acc1
      = if join_key i j s.1 = some key then weight_at key acc + shl s.2 1
        else weight_at key acc := by
  unfold join_step at h
  unfold join_key
  split at h
  · cases h
  · rename_i hc
    cases h
    simp [hc]
  · rename_i newc hc
    simp only [hc]
    split at h
    · cases h
    · rename_i e he
      simp only [he]
      split at h
      · rename_i h2
        simp only [h2, if_true]
        split at h
        · cases h
        · rename_i k hk
          cases h
          rw [weight_at_accumulate, hk]
          by_cases hkk : key = k
          · subst hkk; simp
          · simp [hkk, Ne.symm hkk]
      · rename_i h2
        cases h
        simp [h2]

theorem for_each_join_weight {W : Type} [Zero W] [Add W] (shl : W → Nat → W) (i j : Nat)
    (key : connectivity) :
    ∀ (l : List (connectivity × W)) (acc r : table_type W),
      for_each (join_step shl i j) l acc = some r →
      weight_at key r
        = ((l.filter (fun s => decide (join_key i j s.1 = some key))).map
            (fun s => shl s.2 1)).foldl (· + ·) (weight_at key acc) := by
  intro l
  induction l with
  | nil => intro acc r h; simp [for_each] at h; subst h; simp
  | cons a rest ih =>
    intro acc r h
    simp only [for_each] at h
    cases hb : join_step shl i j acc a with
    | none => simp [hb] at h
    | some acc1 =>
      simp only [hb] at h
      rw [ih acc1 r h, join_step_weight shl i j acc acc1 a hb key]
      by_cases hk : join_key i j a.1 = some key
      · simp [List.filter_cons, hk]
      · simp [List.filter_cons, hk]

theorem coeff_foldl_add {R : Type} [AddCommMonoid R] [DecidableEq R] (n : Nat) :
    ∀ (l : List (polynomial R)) (p : polynomial R),
      (l.foldl (· + ·) p).coeff n = p.coeff n + (l.map (fun q => q.coeff n)).sum := by
  intro l
  induction l with
  | nil => intro p; simp
  | cons q rest ih =>
    intro p
    simp only [List.foldl_cons, List.map_cons, List.sum_cons]
    rw [ih, polynomial.coeff_add, add_assoc]

/-- C4 (amended): in `join_operator` with polynomial weights, what is added
at a key is, for every state `s` of the input table on which `connect(s,i,j)`
succeeds with at most two endpoints and canonicalizes to that key, the weight
of `s` multiplied by `x`: the constant coefficient at the key is unchanged and
the coefficient of `x^(n+1)` grows by the sum of the coefficients of `x^n` of
the weights of those states. -/
theorem join_operator_adds_shifted_weight {R : Type} [CommRing R] [DecidableEq R] (i j : Nat)
    (T T1 : table_type (polynomial R)) (h : join_operator polynomial.shl i j T = some T1)
    (key : connectivity) (n : Nat) :
    (weight_at key T1).coeff 0 = (weight_at key T).coeff 0
    ∧ (weight_at key T1).coeff (n + 1) = (weight_at key T).coeff (n + 1)
        + ((T.filter (fun s => decide (join_key i j s.1 = some key))).map
            (fun s => s.2.coeff n)).sum := by
  have hw := for_each_join_weight polynomial.shl i j key T T T1 h
  constructor
  · rw [hw, coeff_foldl_add]
    have : ∀ l : List (connectivity × polynomial R),
        ((l.map (fun s => polynomial.shl s.2 1)).map (fun q => q.coeff 0)).sum = 0 := by
      intro l
      induction l with
      | nil => simp
      | cons a rest ih => simp [polynomial.coeff_shl_zero] at ih ⊢; exact ih
    rw [this, add_zero]
  · rw [hw, coeff_foldl_add]
    congr 1
    rw [List.map_map]
    congr 1

/-- Witness of C4 (amended) at the table `{[0,0] : 1}`, positions 0 and 1,
the key `[1,1]` and the coefficient of `x`. -/
theorem join_operator_adds_shifted_weight_witness :
    join_operator polynomial.shl 0 1 ([([0, 0], ⟨[1]⟩)] : table_type (polynomial Int))
      = some [([0, 0], ⟨[1]⟩), ([1, 1], ⟨[0, 1]⟩)]
    ∧ ((weight_at [1, 1] ([([0, 0], ⟨[1]⟩), ([1, 1], ⟨[0, 1]⟩)] :
          table_type (polynomial Int))).coeff 0
        = (weight_at [1, 1] ([([0, 0], ⟨[1]⟩)] : table_type (polynomial Int))).coeff 0
      ∧ (weight_at [1, 1] ([([0, 0], ⟨[1]⟩), ([1, 1], ⟨[0, 1]⟩)] :
          table_type (polynomial Int))).coeff (0 + 1)
        = (weight_at [1, 1] ([([0, 0], ⟨[1]⟩)] : table_type (polynomial Int))).coeff (0 + 1)
          + ((([([0, 0], ⟨[1]⟩)] : table_type (polynomial Int)).filter
              (fun s => decide (join_key 0 1 s.1 = some [1, 1]))).map
              (fun s => s.2.coeff 0)).sum) :=
  ⟨by decide, join_operator_adds_shifted_weight 0 1 _ _ (by decide) [1, 1] 0⟩

/-- C4 (as stated, refuted): on the table `{[0,0] : 1}` with positions 0 and 1,
`connect` succeeds with no endpoint and canonicalizes to `[1,1]`, and the
weight found at `[1,1]` afterwards is `x`, not the weight 1 of the state
multiplied by `2x`. -/
theorem join_operator_not_two_x :
    join_key 0 1 [0, 0] = some [1, 1]
    ∧ (join_operator polynomial.shl 0 1 ([([0, 0], ⟨[1]⟩)] : table_type (polynomial Int))).map
        (weight_at [1, 1]) = some ⟨[0, 1]⟩
    ∧ (⟨[1]⟩ : polynomial Int) * ⟨[0, 2]⟩ = ⟨[0, 2]⟩
    ∧ (join_operator polynomial.shl 0 1 ([([0, 0], ⟨[1]⟩)] : table_type (polynomial Int))).map
        (weight_at [1, 1])
      ≠ some (weight_at [1, 1] ([([0, 0], ⟨[1]⟩)] : table_type (polynomial Int))
          + (⟨[1]⟩ : polynomial Int) * ⟨[0, 2]⟩) := by
  decide

end longest_path

/-! ## Chinese remainder reconstruction -/

namespace chinese_remainder


theorem running_product_eq (ps : List Nat) : running_product ps = ((ps.prod : Nat) : Int) := by
  unfold running_product
  have : ∀ (l : List Nat) (acc : Int),
      l.foldl (fun (pp : Int) (p : Nat) => pp * (p : Int)) acc = acc * ((l.prod : Nat) : Int) := by
    intro l
    induction l with
    | nil => intro acc; simp
    | cons x xs ih => intro acc; simp [ih]; ring
  rw [this]; simp

theorem const_add_scale (s u v : Int) :
    polynomial.const s + (polynomial.const u).scale v = polynomial.const (s + u * v) := by
  show polynomial.add_assign _ _ = _
  simp [polynomial.add_assign, polynomial.scale, polynomial.normalize, polynomial.order,
    polynomial.normalize_index, polynomial.set_order, polynomial.resize, polynomial.zip_into,
    polynomial.const]

theorem inner_product_const (r q : Nat → Int) (ps : List Nat) :
    inner_product (ps.map (fun p => polynomial.const (r p))) (ps.map q)
      = polynomial.const ((ps.map (fun p => r p * q p)).sum) := by
  unfold inner_product
  have : ∀ (l : List Nat) (s : Int),
      (List.zip (l.map (fun p => polynomial.const (r p))) (l.map q)).foldl
        (fun init pq => init + pq.1.scale pq.2) (polynomial.const s)
      = polynomial.const (s + (l.map (fun p => r p * q p)).sum) := by
    intro l
    induction l with
    | nil => intro s; simp
    | cons x xs ih =>
      intro s
      simp only [List.map_cons, List.zip_cons_cons, List.foldl_cons, List.sum_cons]
      rw [const_add_scale, ih, add_assoc]
  rw [this]; simp


theorem modinv_nonneg (a : Int) (p : Nat) (hp : 0 < p) : 0 ≤ modinv a p :=
  Int.emod_nonneg _ (by omega)

theorem modinv_spec (a : Int) (p : Nat) (h : Int.gcd a p = 1) :
    (p : Int) ∣ a * modinv a p - 1 := by
  unfold modinv
  have h1 := Int.gcd_eq_gcd_ab a p
  rw [h] at h1
  have h2 : (p : Int) ∣ Int.gcdA a p - Int.gcdA a p % p :=
    Int.dvd_sub_of_emod_eq rfl
  obtain ⟨t, ht⟩ := h2
  refine ⟨Int.gcdB a p * (-1) - a * t, ?_⟩
  have : Int.gcdA a ↑p % ↑p = Int.gcdA a p - p * t := by omega
  rw [this]
  push_cast at h1
  linear_combination (-1 : Int) * h1

theorem tdiv_prod (ps : List Nat) (p : Nat) (hp : p ∈ ps) (hpos : 0 < p) :
    ((ps.prod : Nat) : Int).tdiv p = (((ps.erase p).prod : Nat) : Int) := by
  have h := List.prod_erase hp
  rw [Int.tdiv_eq_ediv (by positivity) (by positivity)]
  rw [← h]
  push_cast
  rw [Int.mul_ediv_cancel_left _ (by omega)]

theorem primes_pairwise_coprime (ps : List Nat) (hprime : ∀ p ∈ ps, p.Prime) :
    ∀ p ∈ ps, ∀ q ∈ ps, p ≠ q → Nat.Coprime p q :=
  fun p hp q hq hne => (Nat.coprime_primes (hprime p hp) (hprime q hq)).mpr hne

theorem coprime_erase_of_pairwise (ps : List Nat) (hnodup : ps.Nodup)
    (hco : ∀ p ∈ ps, ∀ q ∈ ps, p ≠ q → Nat.Coprime p q)
    (p : Nat) (hp : p ∈ ps) : Nat.Coprime (ps.erase p).prod p := by
  rw [Nat.coprime_comm, Nat.coprime_list_prod_right_iff]
  intro q hq
  have hq1 := (List.Nodup.mem_erase_iff hnodup).mp hq
  exact hco p hp q hq1.2 (Ne.symm hq1.1)

theorem coprime_erase (ps : List Nat) (hprime : ∀ p ∈ ps, p.Prime) (hnodup : ps.Nodup)
    (p : Nat) (hp : p ∈ ps) : Nat.Coprime (ps.erase p).prod p :=
  coprime_erase_of_pairwise ps hnodup (primes_pairwise_coprime ps hprime) p hp

theorem dvd_sum_sub (p : Int) (f : Nat → Int) (x0 : Nat) :
    ∀ l : List Nat, l.Nodup → x0 ∈ l → (∀ x ∈ l, x ≠ x0 → p ∣ f x) →
      p ∣ (l.map f).sum - f x0 := by
  intro l
  induction l with
  | nil => intro _ h; simp at h
  | cons y ys ih =>
    intro hnd hmem hdv
    rw [List.nodup_cons] at hnd
    simp only [List.map_cons, List.sum_cons]
    by_cases hy : y = x0
    · subst hy
      have : p ∣ (ys.map f).sum := by
        apply List.dvd_sum
        intro z hz
        obtain ⟨x, hx, rfl⟩ := List.mem_map.mp hz
        exact hdv x (List.mem_cons_of_mem _ hx) (fun h => hnd.1 (h ▸ hx))
      simpa using this
    · have hmem1 : x0 ∈ ys := by
        rcases List.mem_cons.mp hmem with h | h
        · exact absurd h.symm hy
        · exact h
      have h1 := ih hnd.2 hmem1 (fun x hx => hdv x (List.mem_cons_of_mem _ hx))
      have h2 := hdv y (List.mem_cons_self _ _) hy
      have : f y + (ys.map f).sum - f x0 = f y + ((ys.map f).sum - f x0) := by ring
      rw [this]
      exact dvd_add h2 h1

theorem prod_dvd_of_pairwise_coprime (x : Int) :
    ∀ l : List Nat, l.Nodup → (∀ p ∈ l, ∀ q ∈ l, p ≠ q → Nat.Coprime p q) →
      (∀ p ∈ l, (p : Int) ∣ x) → ((l.prod : Nat) : Int) ∣ x := by
  intro l
  induction l with
  | nil => intro _ _ _; simp
  | cons y ys ih =>
    intro hnd hcop hdv
    rw [List.nodup_cons] at hnd
    have h1 := ih hnd.2
      (fun p hp q hq hne => hcop p (List.mem_cons_of_mem _ hp) q (List.mem_cons_of_mem _ hq) hne)
      (fun p hp => hdv p (List.mem_cons_of_mem _ hp))
    have h2 := hdv y (List.mem_cons_self _ _)
    have hco : IsCoprime (y : Int) ((ys.prod : Nat) : Int) := by
      rw [Nat.isCoprime_iff_coprime, Nat.coprime_list_prod_right_iff]
      intro q hq
      exact hcop y (List.mem_cons_self _ _) q (List.mem_cons_of_mem _ hq)
        (fun h => hnd.1 (h ▸ hq))
    rw [List.prod_cons, Nat.cast_mul]
    exact hco.mul_dvd h2 h1

theorem prod_dvd_of_coprime (x : Int) :
    ∀ l : List Nat, (∀ p ∈ l, p.Prime) → l.Nodup → (∀ p ∈ l, (p : Int) ∣ x) →
      ((l.prod : Nat) : Int) ∣ x :=
  fun l hprime hnd hdv =>
    prod_dvd_of_pairwise_coprime x l hnd (primes_pairwise_coprime l hprime) hdv

theorem reduce_eq (P c a : Int) (hP : 0 < P) (hc : 0 ≤ c) (hdvd : P ∣ c - a)
    (hlo : -P < 2 * a) (hhi : 2 * a ≤ P) : reduce P c = a := by
  unfold reduce
  simp only
  rw [Int.tmod_eq_emod hc (le_of_lt hP), Int.shiftRight_eq_div_pow]
  have h1 : 0 ≤ c % P := Int.emod_nonneg _ (by omega)
  have h2 : c % P < P := Int.emod_lt_of_pos _ hP
  have h3 : P ∣ c % P - a := by
    have : P ∣ c - c % P := Int.dvd_sub_of_emod_eq rfl
    have := dvd_sub hdvd this
    simpa using this
  obtain ⟨t, ht⟩ := h3
  have hhalf : (((2 ^ 1 : Nat) : Nat) : Int) = 2 := by norm_num
  rw [hhalf]
  have h4 : -1 < t := by
    by_contra hcon
    have : P * t ≤ P * (-1) := Int.mul_le_mul_of_nonneg_left (by omega) (le_of_lt hP)
    omega
  have h5 : t < 2 := by
    by_contra hcon
    have : P * 2 ≤ P * t := Int.mul_le_mul_of_nonneg_left (by omega) (le_of_lt hP)
    omega
  have h6 : t = 0 ∨ t = 1 := by omega
  rcases h6 with rfl | rfl
  · have : ¬ c % P > P / 2 := by omega
    simp [this]; omega
  · have : c % P > P / 2 := by omega
    simp [this]; omega


theorem prod_pos_of_primes (ps : List Nat) (hprime : ∀ p ∈ ps, p.Prime) : 0 < ps.prod := by
  apply List.prod_pos
  intro p hp
  exact (hprime p hp).pos

theorem modinv_satisfies_contract : modinv_contract modinv :=
  ⟨modinv_spec, modinv_nonneg⟩

theorem crt_sum_dvd_of_coprime (modinv : Int → Nat → Int) (hinv : modinv_contract modinv)
    (ps : List Nat) (hpos : ∀ p ∈ ps, 0 < p) (hnodup : ps.Nodup)
    (hcop : ∀ p ∈ ps, ∀ q ∈ ps, p ≠ q → Nat.Coprime p q) (a : Int) :
    ((ps.prod : Nat) : Int) ∣
      (ps.map (fun (p : Nat) => a % (p : Int)
        * ((((ps.prod : Nat) : Int).tdiv (p : Int))
            * modinv (((ps.prod : Nat) : Int).tdiv (p : Int)) p))).sum - a := by
  apply prod_dvd_of_pairwise_coprime _ ps hnodup hcop
  intro p hp
  have hppos : 0 < p := hpos p hp
  have h1 := dvd_sum_sub (p : Int) (fun (x : Nat) => a % (x : Int)
        * ((((ps.prod : Nat) : Int).tdiv (x : Int))
            * modinv (((ps.prod : Nat) : Int).tdiv (x : Int)) x)) p ps hnodup hp (by
    intro x hx hne
    have hxpos : 0 < x := hpos x hx
    show (p : Int) ∣ a % (x : Int) * ((((ps.prod : Nat) : Int).tdiv (x : Int))
            * modinv (((ps.prod : Nat) : Int).tdiv (x : Int)) x)
    rw [tdiv_prod ps x hx hxpos]
    have hmem : p ∈ ps.erase x := (List.Nodup.mem_erase_iff hnodup).mpr ⟨Ne.symm hne, hp⟩
    have hd : (p : Int) ∣ (((ps.erase x).prod : Nat) : Int) :=
      Int.natCast_dvd_natCast.mpr (List.dvd_prod hmem)
    exact Dvd.dvd.mul_left (Dvd.dvd.mul_right hd _) _)
  simp only at h1
  rw [tdiv_prod ps p hp hppos] at h1
  have hco := coprime_erase_of_pairwise ps hnodup hcop p hp
  have hinv := hinv.1 (((ps.erase p).prod : Nat) : Int) p (by
    rw [Int.gcd_natCast_natCast]; exact hco)
  have hmod : (p : Int) ∣ a % (p : Int) - a := by
    have : (p : Int) ∣ a - a % (p : Int) := Int.dvd_sub_of_emod_eq rfl
    have := (dvd_neg).mpr this
    simpa using this
  obtain ⟨u, hu⟩ := h1
  obtain ⟨v, hv⟩ := hinv
  obtain ⟨w, hw⟩ := hmod
  refine ⟨u + a % (p : Int) * v + w, ?_⟩
  linear_combination hu + (a % (p : Int)) * hv + hw

theorem crt_sum_dvd (modinv : Int → Nat → Int) (hinv : modinv_contract modinv)
    (ps : List Nat) (hprime : ∀ p ∈ ps, p.Prime) (hnodup : ps.Nodup) (a : Int) :
    ((ps.prod : Nat) : Int) ∣
      (ps.map (fun (p : Nat) => a % (p : Int)
        * ((((ps.prod : Nat) : Int).tdiv (p : Int))
            * modinv (((ps.prod : Nat) : Int).tdiv (p : Int)) p))).sum - a :=
  crt_sum_dvd_of_coprime modinv hinv ps (fun p hp => (hprime p hp).pos) hnodup
    (primes_pairwise_coprime ps hprime) a

theorem reconstruct_const_of_coprime (modinv : Int → Nat → Int) (hinv : modinv_contract modinv)
    (ps : List Nat) (hpos : ∀ p ∈ ps, 0 < p) (hnodup : ps.Nodup)
    (hcop : ∀ p ∈ ps, ∀ q ∈ ps, p ≠ q → Nat.Coprime p q)
    (a : Int) (hlo : -(running_product ps) < 2 * a) (hhi : 2 * a ≤ running_product ps) :
    reconstruct modinv ps (ps.map (fun (p : Nat) => polynomial.const (a % (p : Int))))
      = polynomial.const a := by
  unfold reconstruct compute_qs
  rw [inner_product_const (fun (p : Nat) => a % (p : Int))]
  show polynomial.const (reduce _ _) = _
  congr 1
  rw [running_product_eq] at hlo hhi ⊢
  have hP : 0 < ((ps.prod : Nat) : Int) := by
    have := List.prod_pos hpos
    exact_mod_cast this
  apply reduce_eq _ _ _ hP _ (crt_sum_dvd_of_coprime modinv hinv ps hpos hnodup hcop a) hlo hhi
  apply List.sum_nonneg
  intro z hz
  obtain ⟨p, hp, rfl⟩ := List.mem_map.mp hz
  have hppos : 0 < p := hpos p hp
  apply mul_nonneg (Int.emod_nonneg _ (by omega))
  apply mul_nonneg
  · rw [tdiv_prod ps p hp hppos]; positivity
  · exact hinv.2 _ _ hppos

theorem reconstruct_const_eq (modinv : Int → Nat → Int) (hinv : modinv_contract modinv)
    (ps : List Nat) (hprime : ∀ p ∈ ps, p.Prime) (hnodup : ps.Nodup)
    (a : Int) (hlo : -(running_product ps) < 2 * a) (hhi : 2 * a ≤ running_product ps) :
    reconstruct modinv ps (ps.map (fun (p : Nat) => polynomial.const (a % (p : Int))))
      = polynomial.const a :=
  reconstruct_const_of_coprime modinv hinv ps (fun p hp => (hprime p hp).pos) hnodup
    (primes_pairwise_coprime ps hprime) a hlo hhi

/-- C10: the reconstruction recovers bounded integers.  For pairwise distinct
primes `ps` with product `P`, every `modinv` that returns a non-negative
inverse, and every integer `a` with `-P/2 < a <= P/2`,
one round of the loop run on the residues `a mod p` (as constant polynomials)
returns the constant polynomial `a`: the sum of `r_i * q_i` reduced modulo `P`,
minus `P` when the remainder exceeds `P >> 1`, is exactly `a`. -/
theorem crt_recovers_bounded (modinv : Int → Nat → Int) (hinv : modinv_contract modinv)
    (ps : List Nat) (hprime : ∀ p ∈ ps, p.Prime) (hnodup : ps.Nodup)
    (a : Int) (hlo : -(running_product ps) < 2 * a) (hhi : 2 * a ≤ running_product ps) :
    reconstruct modinv ps (ps.map (fun (p : Nat) => polynomial.const (a % (p : Int))))
      = polynomial.const a :=
  reconstruct_const_eq modinv hinv ps hprime hnodup a hlo hhi

/-- Witness of C10 at the primes 3, 5, 7 (product 105) and `a = -52`. -/
theorem crt_recovers_bounded_witness :
    modinv_contract modinv ∧ (∀ p ∈ [3, 5, 7], Nat.Prime p) ∧ [3, 5, 7].Nodup
    ∧ -(running_product [3, 5, 7]) < 2 * (-52) ∧ 2 * (-52) ≤ running_product [3, 5, 7]
    ∧ reconstruct modinv [3, 5, 7]
        ([3, 5, 7].map (fun (p : Nat) => polynomial.const ((-52) % (p : Int))))
      = polynomial.const (-52) :=
  ⟨modinv_satisfies_contract, by decide, by decide, by decide, by decide,
    crt_recovers_bounded modinv modinv_satisfies_contract [3, 5, 7] (by decide) (by decide)
      (-52) (by decide) (by decide)⟩

end chinese_remainder

/-! ## Label multiplicities in reachable tables -/

namespace longest_path

theorem count_set_eq (l : Int) (v u : Int) :
    ∀ (c : connectivity) (i : Nat), (c)[i]? = some u →
      (c.set i v).count l + (if u = l then 1 else 0) = c.count l + (if v = l then 1 else 0) := by
  intro c
  induction c with
  | nil => intro i h; simp at h
  | cons y ys ih =>
    intro i h
    cases i with
    | zero =>
      simp at h
      subst h
      simp only [List.set_cons_zero, List.count_cons]
      by_cases h1 : y = l <;> by_cases h2 : v = l <;> simp [h1, h2]
    | succ i =>
      simp at h
      have := ih i h
      simp only [List.set_cons_succ, List.count_cons]
      omega

theorem count_set_le (l : Int) (v : Int) (c : connectivity) (i : Nat) :
    (c.set i v).count l ≤ c.count l + (if v = l then 1 else 0) := by
  cases h : (c)[i]? with
  | none =>
    have : c.length ≤ i := by
      by_contra hc
      have := List.getElem?_eq_getElem (l := c) (n := i) (by omega)
      rw [this] at h; cases h
    rw [List.set_eq_of_length_le this]
    omega
  | some u =>
    have := count_set_eq l v u c i h
    split_ifs at this ⊢ <;> omega

theorem mem_set_range (c : connectivity) (i : Nat) (v : Int)
    (hc : ∀ x ∈ c, -128 ≤ x ∧ x ≤ 127) (hv : -128 ≤ v ∧ v ≤ 127) :
    ∀ x ∈ c.set i v, -128 ≤ x ∧ x ≤ 127 := by
  intro x hx
  rcases List.mem_or_eq_of_mem_set hx with h | h
  · exact hc x h
  · rw [h]; exact hv

theorem wrap8_range (x : Int) : -128 ≤ wrap8 x ∧ wrap8 x ≤ 127 := by
  unfold wrap8; omega

theorem wrap8_eq (x : Int) (h1 : -128 ≤ x) (h2 : x ≤ 128) (h3 : 0 < wrap8 x) : wrap8 x = x := by
  unfold wrap8 at h3 ⊢; omega

theorem foldl_max_ge : ∀ (xs : List Int) (a : Int),
    a ≤ xs.foldl max a ∧ ∀ x ∈ xs, x ≤ xs.foldl max a := by
  intro xs
  induction xs with
  | nil => intro a; simp
  | cons y ys ih =>
    intro a
    simp only [List.foldl_cons]
    obtain ⟨h1, h2⟩ := ih (max a y)
    refine ⟨le_trans (le_max_left a y) h1, ?_⟩
    intro x hx
    rcases List.mem_cons.mp hx with rfl | hx
    · exact le_trans (le_max_right a x) h1
    · exact h2 x hx

theorem max_element_ge (c : connectivity) (m : Int) (h : max_element c = some m) :
    ∀ x ∈ c, x ≤ m := by
  cases c with
  | nil => simp [max_element] at h
  | cons y ys =>
    simp only [max_element, Option.some.injEq] at h
    subst h
    obtain ⟨h1, h2⟩ := foldl_max_ge ys y
    intro x hx
    rcases List.mem_cons.mp hx with rfl | hx
    · exact h1
    · exact h2 x hx

theorem count_fresh (c : connectivity) (m : Int) (h : max_element c = some m)
    (hc : ∀ x ∈ c, -128 ≤ x ∧ x ≤ 127) (z : Int) (hz : z ∈ c) (hz0 : 0 ≤ z)
    (hpos : 0 < wrap8 (m + 1)) : c.count (wrap8 (m + 1)) = 0 := by
  have hge := max_element_ge c m h
  have hm0 : 0 ≤ m := le_trans hz0 (hge z hz)
  have hm127 : m ≤ 127 := by
    cases c with
    | nil => simp at hz
    | cons y ys =>
      by_contra hcon
      have : ∀ (xs : List Int) (a : Int), a ≤ 127 → (∀ x ∈ xs, x ≤ 127) → xs.foldl max a ≤ 127 := by
        intro xs
        induction xs with
        | nil => intro a ha _; simpa using ha
        | cons w ws ih =>
          intro a ha hall
          simp only [List.foldl_cons]
          exact ih _ (max_le ha (hall w (List.mem_cons_self _ _)))
            (fun x hx => hall x (List.mem_cons_of_mem _ hx))
      simp only [max_element, Option.some.injEq] at h
      have := this ys y (hc y (List.mem_cons_self _ _)).2
        (fun x hx => (hc x (List.mem_cons_of_mem _ hx)).2)
      omega
  have heq := wrap8_eq (m + 1) (by omega) (by omega) hpos
  rw [heq]
  apply List.count_eq_zero_of_not_mem
  intro hmem
  have := hge _ hmem
  omega

theorem label_inv_nil : label_inv [] := by
  refine ⟨by simp, by simp⟩

theorem label_inv_replicate (n : Nat) : label_inv (List.replicate n 0) := by
  refine ⟨?_, ?_⟩
  · intro x hx
    have := List.eq_of_mem_replicate hx
    omega
  · intro l hl
    rw [List.count_replicate]
    have : ¬ ((0 : Int) == l) = true := by simp; omega
    simp [this]

theorem label_inv_set_neg (c : connectivity) (i : Nat) (h : label_inv c) :
    label_inv (c.set i (-1)) := by
  refine ⟨mem_set_range c i (-1) h.1 (by omega), ?_⟩
  intro l hl
  have := count_set_le l (-1) c i
  have h2 := h.2 l hl
  have : ¬ ((-1 : Int) = l) := by omega
  simp [this] at *
  omega

theorem label_inv_set_fresh (c : connectivity) (i : Nat) (m : Int) (h : label_inv c)
    (hm : max_element c = some m) (z : Int) (hz : z ∈ c) (hz0 : 0 ≤ z) :
    label_inv (c.set i (wrap8 (m + 1)))
    ∧ (0 < wrap8 (m + 1) → (c.set i (wrap8 (m + 1))).count (wrap8 (m + 1)) ≤ 1) := by
  have hcount : ∀ l : Int, 0 < l → (c.set i (wrap8 (m + 1))).count l
      ≤ if wrap8 (m + 1) = l then 1 else c.count l := by
    intro l hl
    have h1 := count_set_le l (wrap8 (m + 1)) c i
    by_cases hv : wrap8 (m + 1) = l
    · have := count_fresh c m hm h.1 z hz hz0 (by omega)
      simp only [hv, if_true] at h1 ⊢
      rw [hv] at this
      omega
    · simp only [hv, if_false] at h1 ⊢
      omega
  refine ⟨⟨mem_set_range c i _ h.1 (wrap8_range _), ?_⟩, ?_⟩
  · intro l hl
    have := hcount l hl
    have := h.2 l hl
    split_ifs at * <;> omega
  · intro hpos
    have := hcount _ hpos
    simpa using this


theorem count_replace (li lj l : Int) (hne : li ≠ lj) :
    ∀ c : connectivity, (c.map (fun x => if x = lj then li else x)).count l
      = if l = li then c.count li + c.count lj else if l = lj then 0 else c.count l := by
  intro c
  induction c with
  | nil => simp
  | cons y ys ih =>
    simp only [List.map_cons, List.count_cons, ih]
    by_cases h1 : l = li
    · subst h1
      by_cases h2 : y = lj
      · subst h2
        have : ¬ (y = l) := fun h => hne h.symm
        simp [this]
        omega
      · by_cases h3 : y = l
        · subst h3; simp [h2]; omega
        · simp [h2, h3]
    · by_cases h2 : l = lj
      · subst h2
        by_cases h3 : y = l
        · subst h3; simp [h1, Ne.symm h1]
        · simp [h1, h3]
      · by_cases h3 : y = lj
        · subst h3
          simp [h1, h2, Ne.symm h1, Ne.symm h2]
        · simp [h1, h2, h3]

theorem getElem?_mem_of {c : connectivity} {i : Nat} {u : Int} (h : (c)[i]? = some u) : u ∈ c :=
  List.getElem?_mem h

theorem connect_label_inv (c c1 : connectivity) (i j : Nat) (hc : label_inv c)
    (h : connect c i j = some (some c1)) : label_inv c1 := by
  unfold connect at h
  by_cases hf : is_finished c = true
  · simp [hf] at h
  · rw [if_neg hf] at h
    cases hi : (c)[i]? with
    | none => simp [hi] at h
    | some li =>
      cases hj : (c)[j]? with
      | none => simp [hi, hj] at h
      | some lj =>
        simp only [hi, hj] at h
        have hli := hc.1 li (getElem?_mem_of hi)
        have hlj := hc.1 lj (getElem?_mem_of hj)
        by_cases hneg : li < 0 ∨ lj < 0
        · simp [hneg] at h
        · simp only [hneg, if_false] at h
          by_cases h00 : li = 0 ∧ lj = 0
          · simp only [h00, and_self, if_true] at h
            obtain ⟨rfl, rfl⟩ := h00
            cases hm : max_element c with
            | none => simp [hm] at h
            | some m =>
              simp only [hm, Option.some.injEq] at h
              subst h
              obtain ⟨hinv1, hone⟩ := label_inv_set_fresh c j m hc hm 0 (getElem?_mem_of hi) (le_refl _)
              refine ⟨mem_set_range _ i _ hinv1.1 (wrap8_range _), ?_⟩
              intro l hl
              have h1 := count_set_le l (wrap8 (m + 1)) (c.set j (wrap8 (m + 1))) i
              by_cases hv : wrap8 (m + 1) = l
              · subst hv
                have := hone hl
                simp only [if_true] at h1
                omega
              · simp only [hv, if_false] at h1
                have := hinv1.2 l hl
                omega
          · simp only [h00, if_false] at h
            by_cases h10 : li ≠ 0 ∧ lj = 0
            · simp only [h10, and_self, if_true, ne_eq, not_false_eq_true, Option.some.injEq] at h
              subst h
              obtain ⟨hli0, rfl⟩ := h10
              have hij : i ≠ j := by
                intro hij; subst hij; rw [hi] at hj; cases hj; exact hli0 rfl
              have hj1 : (c.set i (-1))[j]? = some 0 := by
                rw [List.getElem?_set_ne hij]; exact hj
              refine ⟨mem_set_range _ j _ (mem_set_range _ i _ hc.1 (by omega)) hli, ?_⟩
              intro l hl
              have e1 := count_set_eq l (-1) li c i hi
              have e2 := count_set_eq l li 0 (c.set i (-1)) j hj1
              have := hc.2 l hl
              have hn1 : ¬ ((-1 : Int) = l) := by omega
              have hn0 : ¬ ((0 : Int) = l) := by omega
              simp only [hn1, hn0, if_false] at e1 e2
              split_ifs at e1 e2 <;> omega
            · simp only [h10, if_false] at h
              by_cases h01 : li = 0 ∧ lj ≠ 0
              · simp only [h01, and_self, if_true, ne_eq, not_false_eq_true, Option.some.injEq] at h
                subst h
                obtain ⟨rfl, hlj0⟩ := h01
                have hij : i ≠ j := by
                  intro hij; subst hij; rw [hi] at hj; cases hj; exact hlj0 rfl
                have hj1 : (c.set i lj)[j]? = some lj := by
                  rw [List.getElem?_set_ne hij]; exact hj
                refine ⟨mem_set_range _ j _ (mem_set_range _ i _ hc.1 hlj) (by omega), ?_⟩
                intro l hl
                have e1 := count_set_eq l lj 0 c i hi
                have e2 := count_set_eq l (-1) lj (c.set i lj) j hj1
                have := hc.2 l hl
                have hn1 : ¬ ((-1 : Int) = l) := by omega
                have hn0 : ¬ ((0 : Int) = l) := by omega
                simp only [hn1, hn0, if_false] at e1 e2
                split_ifs at e1 e2 <;> omega
              · simp only [h01, if_false] at h
                by_cases heq : li = lj
                · simp [heq] at h
                · simp only [heq, if_false] at h
                  split at h
                  · split at h
                    · cases h; exact label_inv_nil
                    · cases h
                  · simp only [Option.some.injEq] at h
                    subst h
                    have hij : i ≠ j := by
                      intro hij; subst hij; rw [hi] at hj; cases hj; exact heq rfl
                    have hlipos : 0 < li := by omega
                    have hljpos : 0 < lj := by omega
                    have hmi : (c.map (fun x => if x = lj then li else x))[i]? = some li := by
                      rw [List.getElem?_map, hi]; simp [heq]
                    have hmj : (c.map (fun x => if x = lj then li else x))[j]? = some li := by
                      rw [List.getElem?_map, hj]; simp
                    have hmi2 : ((c.map (fun x => if x = lj then li else x)).set j (-1))[i]?
                        = some li := by
                      rw [List.getElem?_set_ne (Ne.symm hij)]; exact hmi
                    refine ⟨mem_set_range _ i _ (mem_set_range _ j _ ?_ (by omega)) (by omega), ?_⟩
                    · intro x hx
                      obtain ⟨y, hy, rfl⟩ := List.mem_map.mp hx
                      by_cases hyl : y = lj
                      · simp [hyl]; exact hli
                      · simp [hyl]; exact hc.1 y hy
                    · intro l hl
                      have e0 := count_replace li lj l heq c
                      have e1 := count_set_eq l (-1) li _ j hmj
                      have e2 := count_set_eq l (-1) li _ i hmi2
                      have b1 := hc.2 li hlipos
                      have b2 := hc.2 lj hljpos
                      have b3 := hc.2 l hl
                      have hn1 : ¬ ((-1 : Int) = l) := by omega
                      simp only [hn1, if_false] at e1 e2
                      split_ifs at e0 e1 e2 <;> omega


theorem detach_label_inv (c c1 : connectivity) (i : Nat) (hc : label_inv c)
    (hi : (c)[i]? = some 0) (h : detach c i = some c1) : label_inv c1 := by
  unfold detach at h
  cases hm : max_element c with
  | none => simp [hm] at h
  | some m =>
    simp only [hm] at h
    split at h
    · cases h
      exact (label_inv_set_fresh c i m hc hm 0 (getElem?_mem_of hi) (le_refl _)).1
    · cases h

theorem canonicalize_label_inv (c c1 : connectivity) (hc : label_inv c)
    (h : canonicalize c = some c1) : label_inv c1 := by
  have hlt : ∀ x ∈ c, x < 50 := canonicalize_loop_some_lt c _ _ c1 (by simp) h
  obtain ⟨table1, k1, hrun, hinv1, _, _, _, hnz, _⟩ :=
    canonicalize_loop_spec c (List.replicate 50 0) 1 table_inv_init hlt
  have hc1 : c1 = c.map (relabel table1) := by
    unfold canonicalize at h
    rw [hrun] at h
    exact (Option.some.inj h).symm
  subst hc1
  have hk := table_inv_le hinv1
  refine ⟨?_, ?_⟩
  · intro y hy
    obtain ⟨x, hx, rfl⟩ := List.mem_map.mp hy
    by_cases hx0 : x ≤ 0
    · have : relabel table1 x = x := by simp [relabel, hx0]
      rw [this]; exact hc.1 x hx
    · have := relabel_pos hinv1 x (by omega) (hnz x hx (by omega))
      omega
  · intro l hl
    by_cases hmem : l ∈ c.map (relabel table1)
    · obtain ⟨x0, hx0, hrel⟩ := List.mem_map.mp hmem
      have hx0pos : 0 < x0 := by
        by_contra hcon
        have : relabel table1 x0 = x0 := by simp [relabel, show x0 ≤ 0 by omega]
        omega
      have hle : (c.map (relabel table1)).count l ≤ c.count x0 := by
        rw [List.count_eq_countP, List.countP_map, List.count_eq_countP]
        apply List.countP_mono_left
        intro x hx hp
        simp only [Function.comp, beq_iff_eq] at hp ⊢
        have hxpos : 0 < x := by
          by_contra hcon
          have : relabel table1 x = x := by simp [relabel, show x ≤ 0 by omega]
          omega
        exact relabel_inj hinv1 x x0 hxpos hx0pos (hnz x hx hxpos) (by rw [hp, hrel])
      exact le_trans hle (hc.2 x0 hx0pos)
    · rw [List.count_eq_zero_of_not_mem hmem]; omega

theorem eraseIdx_label_inv (c : connectivity) (i : Nat) (hc : label_inv c) :
    label_inv (c.eraseIdx i) := by
  have hsub : (c.eraseIdx i).Sublist c := List.eraseIdx_sublist c i
  refine ⟨fun x hx => hc.1 x (hsub.subset hx), fun l hl => ?_⟩
  exact le_trans (hsub.count_le l) (hc.2 l hl)

theorem delete_node_label_inv (c c1 : connectivity) (i : Nat) (hc : label_inv c)
    (h : delete_node c i = some (some c1)) : label_inv c1 := by
  unfold delete_node at h
  split at h
  · cases h; exact hc
  · split at h
    · cases h
    · split at h
      · split at h
        · cases h; exact label_inv_nil
        · cases h
      · cases hcan : canonicalize (c.eraseIdx i) with
        | none => rw [hcan] at h; simp at h
        | some c2 =>
          rw [hcan] at h
          simp at h
          subst h
          exact canonicalize_label_inv _ _ (eraseIdx_label_inv c i hc) hcan

theorem walk_loop_label_inv : ∀ (newa : connectivity) (i : Nat) (newc : connectivity)
    (table : List (Nat × Nat)) (newc1 : connectivity) (table1 : List (Nat × Nat)),
    label_inv newc → walk_loop i newa newc table = some (some (newc1, table1)) →
    label_inv newc1 := by
  intro newa
  induction newa with
  | nil =>
    intro i newc table newc1 table1 hc h
    simp [walk_loop] at h
    rw [← h.1]; exact hc
  | cons a rest ih =>
    intro i newc table newc1 table1 hc h
    unfold walk_loop at h
    split at h
    · split at h
      · split at h
        · cases h
        · cases h
        · rename_i newc2 hcon
          exact ih _ _ _ _ _ (connect_label_inv _ _ _ _ hc hcon) h
      · exact ih _ _ _ _ _ hc h
    · split at h
      · split at h
        · cases h
        · split at h
          · cases h
          · exact ih _ _ _ _ _ (label_inv_set_neg _ _ hc) h
      · exact ih _ _ _ _ _ hc h

theorem strands_loop_label_inv : ∀ (table : List (Nat × Nat)) (newc : connectivity)
    (valid : Bool) (newc1 : connectivity) (valid1 : Bool),
    label_inv newc → strands_loop table newc valid = some (newc1, valid1) →
    label_inv newc1 := by
  intro table
  induction table with
  | nil =>
    intro newc valid newc1 valid1 hc h
    simp [strands_loop] at h
    rw [← h.1]; exact hc
  | cons x rest ih =>
    intro newc valid newc1 valid1 hc h
    obtain ⟨k, bi⟩ := x
    unfold strands_loop at h
    split at h
    · simp at h; rw [← h.1]; exact hc
    · split at h
      · cases h
      · rename_i v hv
        split at h
        · exact ih _ _ _ _ hc h
        · split at h
          · rename_i hv0
            subst hv0
            split at h
            · cases h
            · rename_i newc2 hdet
              exact ih _ _ _ _ (detach_label_inv _ _ _ hc hv hdet) h
          · split at h
            · exact ih _ _ _ _ (label_inv_set_neg _ _ hc) h
            · split at h
              · exact ih _ _ _ _ label_inv_nil h
              · exact ih _ _ _ _ hc h

theorem fuse_label_inv (m : List Nat) (sA sB key : connectivity) (hB : label_inv sB)
    (h : fuse m sA sB = some (some key)) : label_inv key := by
  unfold fuse at h
  split at h
  · split at h
    · cases h; exact label_inv_nil
    · cases h
  · split at h
    · split at h
      · cases h; exact label_inv_nil
      · cases h
    · split at h
      · cases h
      · split at h
        · cases h
        · cases h
        · rename_i newc table hwalk
          have h1 := walk_loop_label_inv _ _ _ _ _ _ hB hwalk
          split at h
          · cases h
          · rename_i newc1 valid hstr
            have h2 := strands_loop_label_inv _ _ _ _ _ h1 hstr
            split at h
            · split at h
              · cases h
              · split at h
                · cases hc : canonicalize newc1 with
                  | none => rw [hc] at h; simp at h
                  | some k =>
                    rw [hc] at h
                    simp at h
                    subst h
                    exact canonicalize_label_inv _ _ h2 hc
                · cases h
            · cases h


theorem accumulate_label_inv {W : Type} [Zero W] [Add W] (key : connectivity) (w : W)
    (T : table_type W) (hT : ∀ s ∈ T, label_inv s.1) (hkey : label_inv key) :
    ∀ s ∈ accumulate key w T, label_inv s.1 := by
  intro s hs
  rcases mem_accumulate key w T s hs with h | ⟨s1, hs1, h⟩
  · rw [h]; exact hkey
  · rw [← h]; exact hT s1 hs1

theorem join_step_label_inv {W : Type} [Zero W] [Add W] (shl : W → Nat → W) (i j : Nat)
    (acc acc1 : table_type W) (state : connectivity × W) (hstate : label_inv state.1)
    (hacc : ∀ s ∈ acc, label_inv s.1) (h : join_step shl i j acc state = some acc1) :
    ∀ s ∈ acc1, label_inv s.1 := by
  unfold join_step at h
  split at h
  · cases h
  · cases h; exact hacc
  · rename_i newc hcon
    split at h
    · cases h
    · split at h
      · split at h
        · cases h
        · rename_i key hkey
          cases h
          exact accumulate_label_inv _ _ _ hacc
            (canonicalize_label_inv _ _ (connect_label_inv _ _ _ _ hstate hcon) hkey)
      · cases h; exact hacc

theorem delete_step_label_inv {W : Type} [Zero W] [Add W] (i : Nat)
    (acc acc1 : table_type W) (state : connectivity × W) (hstate : label_inv state.1)
    (hacc : ∀ s ∈ acc, label_inv s.1) (h : delete_step i acc state = some acc1) :
    ∀ s ∈ acc1, label_inv s.1 := by
  unfold delete_step at h
  split at h
  · cases h
  · cases h; exact hacc
  · rename_i newc hdel
    split at h
    · cases h
    · split at h
      · cases h
        exact accumulate_label_inv _ _ _ hacc (delete_node_label_inv _ _ _ hstate hdel)
      · cases h; exact hacc

theorem fusion_step_label_inv {W : Type} [Zero W] [Add W] [Mul W] (m : List Nat)
    (stateA : connectivity × W) (acc acc1 : table_type W) (stateB : connectivity × W)
    (hstate : label_inv stateB.1) (hacc : ∀ s ∈ acc, label_inv s.1)
    (h : fusion_step m stateA acc stateB = some acc1) : ∀ s ∈ acc1, label_inv s.1 := by
  unfold fusion_step at h
  split at h
  · cases h
  · cases h; exact hacc
  · rename_i key hkey
    cases h
    exact accumulate_label_inv _ _ _ hacc (fuse_label_inv m _ _ key hstate hkey)

theorem reachable_label_inv {W : Type} [Zero W] [One W] [Add W] [Mul W] (shl : W → Nat → W)
    (n : Nat) (T : table_type W) (h : reachable shl n T) : ∀ s ∈ T, label_inv s.1 := by
  induction h with
  | empty n =>
    intro s hs
    simp [empty_state] at hs
    subst hs
    exact label_inv_replicate n
  | join _ _ _ hrun ih =>
    exact for_each_invariant (fun acc => ∀ s ∈ acc, label_inv s.1) _ _ _ _ ih
      (fun acc a acc1 ha hacc hb => join_step_label_inv shl _ _ acc acc1 a (ih a ha) hacc hb) hrun
  | delete _ _ hrun ih =>
    exact for_each_invariant (fun acc => ∀ s ∈ acc, label_inv s.1) _ _ _ _
      (by intro s hs; simp at hs)
      (fun acc a acc1 ha hacc hb => delete_step_label_inv _ acc acc1 a (ih a ha) hacc hb) hrun
  | fusion _ _ _ _ _ hrun _ ihB =>
    exact for_each_invariant (fun acc => ∀ s ∈ acc, label_inv s.1) _ _ _ _
      (by intro s hs; simp at hs)
      (fun acc a acc1 _ hacc hb =>
        for_each_invariant (fun acc => ∀ s ∈ acc, label_inv s.1) _ _ _ _ hacc
          (fun acc b acc2 hbm hacc hb => fusion_step_label_inv _ a acc acc2 b (ihB b hbm) hacc hb)
          hb) hrun

/-- C6: every table reachable from `empty_state(n)` by any sequence of
`join_operator`, `delete_operator` and `table_fusion` calls (in-range
positions, injective in-range mappings) has only keys in which every positive
label occurs exactly once or exactly twice. -/
theorem reachable_labels_once_or_twice {W : Type} [Zero W] [One W] [Add W] [Mul W]
    (shl : W → Nat → W) (n : Nat) (T : table_type W) (h : reachable shl n T) :
    ∀ s ∈ T, ∀ l : Int, 0 < l → l ∈ s.1 → s.1.count l = 1 ∨ s.1.count l = 2 := by
  intro s hs l hl hmem
  have h1 := (reachable_label_inv shl n T h s hs).2 l hl
  have h2 : 0 < s.1.count l := List.count_pos_iff.mpr hmem
  omega

/-- Witness of C6: the table `join_operator(0, 1, empty_state(2))`. -/
theorem reachable_labels_once_or_twice_witness :
    reachable (W := polynomial Int) polynomial.shl 2 [([0, 0], ⟨[1]⟩), ([1, 1], ⟨[0, 1]⟩)]
    ∧ ∀ s ∈ ([([0, 0], ⟨[1]⟩), ([1, 1], ⟨[0, 1]⟩)] : table_type (polynomial Int)),
        ∀ l : Int, 0 < l → l ∈ s.1 → s.1.count l = 1 ∨ s.1.count l = 2 :=
  have hr : reachable (W := polynomial Int) polynomial.shl 2
      [([0, 0], ⟨[1]⟩), ([1, 1], ⟨[0, 1]⟩)] :=
    @reachable.join _ _ _ _ _ polynomial.shl 2 0 1 _ _ (reachable.empty 2) (by decide) (by decide)
      (by decide)
  ⟨hr, reachable_labels_once_or_twice polynomial.shl 2 _ hr⟩

end longest_path


/-! ## The rules of `connect` and `delete_node` -/

namespace longest_path

theorem max_element_ne_none (c : connectivity) (h : c ≠ []) : ∃ m, max_element c = some m := by
  cases c with
  | nil => exact absurd rfl h
  | cons x xs => exact ⟨_, rfl⟩

theorem is_finished_eq_false (c : connectivity) (h : c ≠ []) : is_finished c = false := by
  cases c with
  | nil => exact absurd rfl h
  | cons x xs => rfl

theorem is_endpoint_eq (c : connectivity) (i : Nat) (li : Int) (hi : (c)[i]? = some li) :
    (is_endpoint c i == some true) = (decide (0 < li) && c.count li == 1) := by
  unfold is_endpoint
  rw [hi]
  by_cases h1 : 0 < li <;> by_cases h2 : c.count li = 1 <;> simp [h1, h2]

theorem countP_eq_zero_iff_forall (c : connectivity) (p : Int → Bool) :
    (c.countP p == 0) = true ↔ ∀ x ∈ c, p x = false := by
  simp [List.countP_eq_zero]

/-- C18: `connect` fails exactly in the listed cases.  For a non-finished
state and in-range positions holding `li` and `lj`, `connect` returns no result
if and only if one of the two is a bullet (negative), or `li = lj > 0`, or both
positions are free endpoints of different strands while some other positive
label is present; in every other case it returns a state, no access is
invalid, and it returns no result for the finished state. -/
theorem connect_fails_iff (c : connectivity) (i j : Nat) (li lj : Int) (hne : c ≠ [])
    (hi : (c)[i]? = some li) (hj : (c)[j]? = some lj) :
    (connect c i j = some none ↔
      (li < 0 ∨ lj < 0) ∨ (li = lj ∧ 0 < li)
      ∨ ((0 < li ∧ c.count li = 1) ∧ (0 < lj ∧ c.count lj = 1) ∧ li ≠ lj
          ∧ ∃ x ∈ c, 0 < x ∧ x ≠ li ∧ x ≠ lj))
    ∧ (∃ r, connect c i j = some r)
    ∧ connect [] i j = some none := by
  obtain ⟨m, hm⟩ := max_element_ne_none c hne
  have hfin := is_finished_eq_false c hne
  have hcon : connect c i j =
      if li < 0 ∨ lj < 0 then some none
      else if li = 0 ∧ lj = 0 then some (some ((c.set j (wrap8 (m + 1))).set i (wrap8 (m + 1))))
      else if li ≠ 0 ∧ lj = 0 then some (some ((c.set i (-1)).set j li))
      else if li = 0 ∧ lj ≠ 0 then some (some ((c.set i lj).set j (-1)))
      else if li = lj then some none
      else if (decide (0 < li) && c.count li == 1) && (decide (0 < lj) && c.count lj == 1) then
        if c.countP (fun x => decide (x > 0) && x != li && x != lj) == 0 then some (some [])
        else some none
      else some (some (((c.map (fun x => if x = lj then li else x)).set j (-1)).set i (-1))) := by
    unfold connect
    rw [hfin]
    simp only [hi, hj, hm, is_endpoint_eq c i li hi, is_endpoint_eq c j lj hj]
    rfl
  have hss : ∀ X : connectivity,
      ((some (some X) : Option (Option connectivity)) = some none) ↔ False := by
    intro X; simp
  refine ⟨?_, ?_, rfl⟩
  · rw [hcon]
    by_cases hneg : li < 0 ∨ lj < 0
    · rw [if_pos hneg]
      exact ⟨fun _ => Or.inl hneg, fun _ => rfl⟩
    · rw [if_neg hneg]
      by_cases h00 : li = 0 ∧ lj = 0
      · rw [if_pos h00, hss, false_iff]
        rintro (h | h | h)
        · exact hneg h
        · omega
        · omega
      · rw [if_neg h00]
        by_cases h10 : li ≠ 0 ∧ lj = 0
        · rw [if_pos h10, hss, false_iff]
          rintro (h | h | h)
          · exact hneg h
          · omega
          · omega
        · rw [if_neg h10]
          by_cases h01 : li = 0 ∧ lj ≠ 0
          · rw [if_pos h01, hss, false_iff]
            rintro (h | h | h)
            · exact hneg h
            · omega
            · omega
          · rw [if_neg h01]
            have hlipos : 0 < li := by omega
            have hljpos : 0 < lj := by omega
            by_cases heq : li = lj
            · rw [if_pos heq]
              exact ⟨fun _ => Or.inr (Or.inl ⟨heq, hlipos⟩), fun _ => rfl⟩
            · rw [if_neg heq]
              by_cases hend : c.count li = 1 ∧ c.count lj = 1
              · have hcond : ((decide (0 < li) && c.count li == 1)
                    && (decide (0 < lj) && c.count lj == 1)) = true := by
                  simp [hlipos, hljpos, hend.1, hend.2]
                rw [if_pos hcond]
                by_cases hother : ∃ x ∈ c, 0 < x ∧ x ≠ li ∧ x ≠ lj
                · have hnz : ¬ ((c.countP (fun x => decide (x > 0) && x != li && x != lj) == 0)
                      = true) := by
                    rw [countP_eq_zero_iff_forall]
                    intro hall
                    obtain ⟨x, hx, h1, h2, h3⟩ := hother
                    have := hall x hx
                    simp [h1, h2, h3] at this
                  rw [if_neg hnz]
                  exact ⟨fun _ => Or.inr (Or.inr ⟨⟨hlipos, hend.1⟩, ⟨hljpos, hend.2⟩, heq, hother⟩),
                    fun _ => rfl⟩
                · have hz : (c.countP (fun x => decide (x > 0) && x != li && x != lj) == 0)
                      = true := by
                    rw [countP_eq_zero_iff_forall]
                    intro x hx
                    by_contra hcon2
                    apply hother
                    have h3 : 0 < x ∧ ¬ x = li ∧ ¬ x = lj := by
                      simpa using hcon2
                    exact ⟨x, hx, h3.1, h3.2.1, h3.2.2⟩
                  rw [if_pos hz, hss, false_iff]
                  rintro (h | h | h)
                  · exact hneg h
                  · exact heq h.1
                  · exact hother h.2.2.2
              · have hcond : ¬ (((decide (0 < li) && c.count li == 1)
                    && (decide (0 < lj) && c.count lj == 1)) = true) := by
                  intro h
                  simp only [Bool.and_eq_true, decide_eq_true_eq, beq_iff_eq] at h
                  exact hend ⟨h.1.2, h.2.2⟩
                rw [if_neg hcond, hss, false_iff]
                rintro (h | h | h)
                · exact hneg h
                · exact heq h.1
                · exact hend ⟨h.1.2, h.2.1.2⟩
  · rw [hcon]
    split_ifs <;> exact ⟨_, rfl⟩

/-- Witness of C18 at the state `[1, 2, 3]` and the positions 0 and 1. -/
theorem connect_fails_iff_witness :
    ([1, 2, 3] : connectivity) ≠ [] ∧ ([1, 2, 3] : connectivity)[0]? = some 1
    ∧ ([1, 2, 3] : connectivity)[1]? = some 2
    ∧ (connect [1, 2, 3] 0 1 = some none ↔
        ((1 : Int) < 0 ∨ (2 : Int) < 0) ∨ ((1 : Int) = 2 ∧ (0 : Int) < 1)
        ∨ (((0 : Int) < 1 ∧ ([1, 2, 3] : connectivity).count 1 = 1)
            ∧ ((0 : Int) < 2 ∧ ([1, 2, 3] : connectivity).count 2 = 1) ∧ (1 : Int) ≠ 2
            ∧ ∃ x ∈ ([1, 2, 3] : connectivity), 0 < x ∧ x ≠ 1 ∧ x ≠ 2))
    ∧ (∃ r, connect [1, 2, 3] 0 1 = some r)
    ∧ connect [] 0 1 = some none :=
  ⟨by decide, by decide, by decide, connect_fails_iff [1, 2, 3] 0 1 1 2 (by decide) (by decide)
    (by decide)⟩


theorem count_le_two_of_all (c : connectivity)
    (h : c.all (fun x => decide (c.count x ≤ 2)) = true) : ∀ l : Int, 0 < l → c.count l ≤ 2 := by
  intro l _
  by_cases hmem : l ∈ c
  · have := List.all_eq_true.mp h l hmem
    simpa using this
  · rw [List.count_eq_zero_of_not_mem hmem]; omega

/-- C19: `connect` preserves the label multiplicity bound.  For every state
(a vector of `int8_t` values) in which each positive label occurs at most
twice, if `connect(c, i, j)` returns a state then no positive label occurs
three or more times in it (whatever the positions). -/
theorem connect_preserves_multiplicity (c c1 : connectivity) (i j : Nat)
    (hrange : ∀ x ∈ c, -128 ≤ x ∧ x ≤ 127) (hcount : ∀ l : Int, 0 < l → c.count l ≤ 2)
    (h : connect c i j = some (some c1)) : ∀ l : Int, 0 < l → c1.count l < 3 := by
  intro l hl
  have := (connect_label_inv c c1 i j ⟨hrange, hcount⟩ h).2 l hl
  omega

/-- Witness of C19 at the state `[1, 1, 2, 2]` and the positions 1 and 2. -/
theorem connect_preserves_multiplicity_witness :
    (∀ x ∈ ([1, 1, 2, 2] : connectivity), -128 ≤ x ∧ x ≤ 127)
    ∧ (∀ l : Int, 0 < l → ([1, 1, 2, 2] : connectivity).count l ≤ 2)
    ∧ connect [1, 1, 2, 2] 1 2 = some (some [1, -1, -1, 1])
    ∧ ∀ l : Int, 0 < l → ([1, -1, -1, 1] : connectivity).count l < 3 :=
  have h1 : ∀ x ∈ ([1, 1, 2, 2] : connectivity), -128 ≤ x ∧ x ≤ 127 := by decide
  have h2 : ∀ l : Int, 0 < l → ([1, 1, 2, 2] : connectivity).count l ≤ 2 :=
    count_le_two_of_all _ (by decide)
  ⟨h1, h2, by decide,
    connect_preserves_multiplicity [1, 1, 2, 2] [1, -1, -1, 1] 1 2 h1 h2 (by decide)⟩

/-- C20: `delete_node` follows the column-drop rules.  On the finished state
and on every non-finished state with an in-range position, `delete_node`
agrees with the rules in the spec's words (`delete_node_rules`): finished
stays finished; a free endpoint gives the finished state when no other
positive label occurs and no result otherwise; in every other case the result
is `canonicalize` of the state with position `i` removed. -/
theorem delete_node_follows_rules (c : connectivity) (i : Nat) (hi : c = [] ∨ i < c.length) :
    delete_node c i = delete_node_rules c i := by
  unfold delete_node delete_node_rules
  by_cases hc : c = []
  · subst hc; rfl
  · have hi : i < c.length := by
      rcases hi with h | h
      · exact absurd h hc
      · exact h
    rw [is_finished_eq_false c hc, if_neg hc]
    have hget : (c)[i]? = some (c.getD i 0) := by
      rw [List.getD_eq_getElem?_getD, List.getElem?_eq_getElem hi]; rfl
    simp only [Bool.false_eq_true, if_false, hget, is_endpoint_eq c i _ hget]
    by_cases hend : 0 < c.getD i 0 ∧ c.count (c.getD i 0) = 1
    · have hcond : (decide (0 < c.getD i 0) && c.count (c.getD i 0) == 1) = true := by
        rw [Bool.and_eq_true]
        exact ⟨decide_eq_true hend.1, by rw [beq_iff_eq]; exact hend.2⟩
      rw [if_pos hcond, if_pos hend]
      by_cases hall : ∀ x ∈ c, 0 < x → x = c.getD i 0
      · have hz : (c.countP (fun x => decide (x > 0) && x != c.getD i 0) == 0) = true := by
          rw [countP_eq_zero_iff_forall]
          intro x hx
          by_cases hx0 : 0 < x
          · simp [hall x hx hx0]
          · simp [hx0]
        rw [if_pos hz, if_pos hall]
      · have hnz : ¬ ((c.countP (fun x => decide (x > 0) && x != c.getD i 0) == 0) = true) := by
          rw [countP_eq_zero_iff_forall]
          intro h
          apply hall
          intro x hx hx0
          have := h x hx
          simpa [hx0] using this
        rw [if_neg hnz, if_neg hall]
    · have hcond : ¬ ((decide (0 < c.getD i 0) && c.count (c.getD i 0) == 1) = true) := by
        intro h
        simp only [Bool.and_eq_true, decide_eq_true_eq, beq_iff_eq] at h
        exact hend h
      rw [if_neg hcond, if_neg hend]

/-- Witness of C20 at the state `[1, 0, 2, 2]`, with the three rules evaluated. -/
theorem delete_node_follows_rules_witness :
    (([1, 0, 2, 2] : connectivity) = [] ∨ 0 < ([1, 0, 2, 2] : connectivity).length)
    ∧ delete_node [1, 0, 2, 2] 0 = delete_node_rules [1, 0, 2, 2] 0
    ∧ delete_node_rules [1, 0, 2, 2] 0 = some none
    ∧ delete_node_rules [1, 0, 2, 2] 2 = some (some [1, 0, 2])
    ∧ delete_node_rules [0, 1, 0] 1 = some (some []) :=
  ⟨by decide, delete_node_follows_rules [1, 0, 2, 2] 0 (by decide), by decide, by decide,
    by decide⟩

end longest_path

/-! ## `smallset`: sortedness and positional index -/

namespace smallset


theorem getD_mono (l : List Nat) (hs : l.Pairwise (· < ·)) (i j : Nat) (hij : i ≤ j)
    (hj : j < l.length) : l.getD i 0 ≤ l.getD j 0 := by
  rw [List.getD_eq_getElem l 0 (by omega), List.getD_eq_getElem l 0 hj]
  rcases Nat.lt_or_eq_of_le hij with h | h
  · exact Nat.le_of_lt (List.pairwise_iff_getElem.mp hs i j (by omega) hj h)
  · subst h; exact le_refl _

theorem lower_bound_loop_spec (l : List Nat) (x : Nat) (hs : l.Pairwise (· < ·)) :
    ∀ (fuel first count : Nat), count ≤ fuel → first + count ≤ l.length →
      (∀ k, k < first → l.getD k 0 < x) →
      (∀ k, first + count ≤ k → k < l.length → ¬ l.getD k 0 < x) →
      lower_bound_loop l x fuel first count ≤ l.length
      ∧ (∀ k, k < lower_bound_loop l x fuel first count → l.getD k 0 < x)
      ∧ (∀ k, lower_bound_loop l x fuel first count ≤ k → k < l.length → ¬ l.getD k 0 < x) := by
  intro fuel
  induction fuel with
  | zero =>
    intro first count hc hlen hlo hhi
    have : count = 0 := by omega
    subst this
    exact ⟨by simp [lower_bound_loop]; omega, by simpa [lower_bound_loop] using hlo,
      by simpa [lower_bound_loop] using hhi⟩
  | succ fuel ih =>
    intro first count hc hlen hlo hhi
    unfold lower_bound_loop
    by_cases hpos : 0 < count
    · rw [if_pos hpos]
      have hmid : first + count / 2 < l.length := by omega
      by_cases hlt : l.getD (first + count / 2) 0 < x
      · rw [if_pos hlt]
        apply ih _ _ (by omega) (by omega)
        · intro k hk
          have := getD_mono l hs k (first + count / 2) (by omega) hmid
          omega
        · intro k hk hk2
          exact hhi k (by omega) hk2
      · rw [if_neg hlt]
        apply ih _ _ (by omega) (by omega) hlo
        intro k hk hk2
        have := getD_mono l hs (first + count / 2) k hk hk2
        omega
    · rw [if_neg hpos]
      have : count = 0 := by omega
      subst this
      exact ⟨by omega, hlo, by simpa using hhi⟩

theorem lower_bound_spec (l : List Nat) (x : Nat) (hs : l.Pairwise (· < ·)) :
    lower_bound x l ≤ l.length
    ∧ (∀ k, k < lower_bound x l → l.getD k 0 < x)
    ∧ (∀ k, lower_bound x l ≤ k → k < l.length → ¬ l.getD k 0 < x) := by
  unfold lower_bound
  exact lower_bound_loop_spec l x hs l.length 0 l.length (le_refl _) (by omega)
    (fun k hk => by omega) (fun k hk hk2 => by omega)

theorem has_iff_mem (l : List Nat) (x : Nat) (hs : l.Pairwise (· < ·)) :
    has x l = true ↔ x ∈ l := by
  obtain ⟨h1, h2, h3⟩ := lower_bound_spec l x hs
  unfold has
  constructor
  · intro h
    simp only [Bool.and_eq_true, decide_eq_true_eq, Bool.not_eq_true', decide_eq_false_iff_not] at h
    have hr : lower_bound x l < l.length := by omega
    have := h3 _ (le_refl _) hr
    have heq : l.getD (lower_bound x l) 0 = x := by omega
    rw [List.getD_eq_getElem l 0 hr] at heq
    rw [← heq]
    exact List.getElem_mem _
  · intro hmem
    obtain ⟨k, hk, hkx⟩ := List.mem_iff_getElem.mp hmem
    have hkD : l.getD k 0 = x := by rw [List.getD_eq_getElem l 0 hk]; exact hkx
    have hrk : lower_bound x l ≤ k := by
      by_contra hcon
      have := h2 k (by omega)
      omega
    have hmono := getD_mono l hs _ k hrk hk
    simp only [Bool.and_eq_true, decide_eq_true_eq, Bool.not_eq_true', decide_eq_false_iff_not]
    exact ⟨by omega, by omega⟩

theorem mem_insert (l : List Nat) (x y : Nat) (hs : l.Pairwise (· < ·)) :
    y ∈ insert x l ↔ y = x ∨ y ∈ l := by
  obtain ⟨h1, h2, h3⟩ := lower_bound_spec l x hs
  unfold insert
  split_ifs with hc
  · rw [List.mem_append, List.mem_cons]
    constructor
    · rintro (h | h | h)
      · exact Or.inr (List.mem_of_mem_take h)
      · exact Or.inl h
      · exact Or.inr (List.mem_of_mem_drop h)
    · rintro (h | h)
      · exact Or.inr (Or.inl h)
      · rw [← List.take_append_drop (lower_bound x l) l] at h
        rcases List.mem_append.mp h with h | h
        · exact Or.inl h
        · exact Or.inr (Or.inr h)
  · have hr : lower_bound x l < l.length := by omega
    have := h3 _ (le_refl _) hr
    have heq : l.getD (lower_bound x l) 0 = x := by omega
    rw [List.getD_eq_getElem l 0 hr] at heq
    have hx : x ∈ l := by rw [← heq]; exact List.getElem_mem _
    constructor
    · intro h; exact Or.inr h
    · rintro (h | h)
      · rw [h]; exact hx
      · exact h

theorem insert_sorted (l : List Nat) (x : Nat) (hs : l.Pairwise (· < ·)) :
    (insert x l).Pairwise (· < ·) := by
  obtain ⟨h1, h2, h3⟩ := lower_bound_spec l x hs
  unfold insert
  split_ifs with hc
  · have hsplit := hs
    rw [← List.take_append_drop (lower_bound x l) l, List.pairwise_append] at hsplit
    obtain ⟨ht, hd, hcross⟩ := hsplit
    have htake : ∀ a ∈ l.take (lower_bound x l), a < x := by
      intro a ha
      obtain ⟨k, hk, rfl⟩ := List.mem_take_iff_getElem.mp ha
      have := h2 k (by omega)
      rwa [List.getD_eq_getElem l 0 (by omega)] at this
    have hdrop : ∀ b ∈ l.drop (lower_bound x l), x < b := by
      intro b hb
      obtain ⟨k, hk, rfl⟩ := List.mem_drop_iff_getElem.mp hb
      have hlt : lower_bound x l < l.length := by omega
      have hxr : x < l.getD (lower_bound x l) 0 := by
        rcases hc with h | h
        · omega
        · exact h
      have := getD_mono l hs (lower_bound x l) (lower_bound x l + k) (by omega) (by omega)
      have e2 : l.getD (lower_bound x l + k) 0 = l[lower_bound x l + k] :=
        List.getD_eq_getElem l 0 (by omega)
      omega
    rw [List.pairwise_append]
    refine ⟨ht, ?_, ?_⟩
    · rw [List.pairwise_cons]
      exact ⟨hdrop, hd⟩
    · intro a ha b hb
      rcases List.mem_cons.mp hb with rfl | hb
      · exact htake a ha
      · exact lt_trans (htake a ha) (hdrop b hb)
  · exact hs

theorem remove_eq_erase (x : Nat) : ∀ l : List Nat, remove x l = l.erase x := by
  intro l
  induction l with
  | nil => rfl
  | cons y ys ih =>
    by_cases h : y = x
    · subst h; simp [remove]
    · simp [remove, h, ih, List.erase_cons]

theorem remove_sorted (l : List Nat) (x : Nat) (hs : l.Pairwise (· < ·)) :
    (remove x l).Pairwise (· < ·) := by
  rw [remove_eq_erase]
  exact List.Pairwise.sublist (List.erase_sublist x l) hs

theorem sorted_nodup (l : List Nat) (hs : l.Pairwise (· < ·)) : l.Nodup :=
  hs.imp (fun h => Nat.ne_of_lt h)

theorem mem_remove (l : List Nat) (x y : Nat) (hs : l.Pairwise (· < ·)) :
    y ∈ remove x l ↔ y ≠ x ∧ y ∈ l := by
  rw [remove_eq_erase]
  exact List.Nodup.mem_erase_iff (sorted_nodup l hs)

theorem run_sorted : ∀ (calls : List call) (l : List Nat), l.Pairwise (· < ·) →
    (run calls l).Pairwise (· < ·) := by
  intro calls
  induction calls with
  | nil => intro l hs; exact hs
  | cons c rest ih =>
    intro l hs
    cases c with
    | insert x => exact ih _ (insert_sorted l x hs)
    | remove x => exact ih _ (remove_sorted l x hs)

theorem mem_run (y : Nat) : ∀ (calls : List call) (l : List Nat), l.Pairwise (· < ·) →
    (y ∈ run calls l ↔ inserted_since y calls (decide (y ∈ l)) = true) := by
  intro calls
  induction calls with
  | nil => intro l _; simp [run, inserted_since]
  | cons c rest ih =>
    intro l hs
    cases c with
    | insert x =>
      simp only [run, inserted_since]
      rw [ih _ (insert_sorted l x hs)]
      have : decide (y ∈ insert x l) = (if x = y then true else decide (y ∈ l)) := by
        by_cases hxy : x = y
        · subst hxy; simp [mem_insert l x x hs]
        · simp [mem_insert l x y hs, hxy, Ne.symm hxy]
      rw [this]
    | remove x =>
      simp only [run, inserted_since]
      rw [ih _ (remove_sorted l x hs)]
      have : decide (y ∈ remove x l) = (if x = y then false else decide (y ∈ l)) := by
        by_cases hxy : x = y
        · subst hxy; simp [mem_remove l x x hs]
        · simp [mem_remove l x y hs, hxy, Ne.symm hxy]
      rw [this]

/-- C15: `smallset` keeps its sequence sorted and unique.  Starting from the
empty set, after any sequence of `insert` and `remove` calls the underlying
sequence is strictly increasing, and `has(x)` is true exactly when `x` was
inserted and not removed since. -/
theorem smallset_sorted_unique (calls : List call) :
    (run calls []).Pairwise (· < ·)
    ∧ ∀ x, has x (run calls []) = true ↔ inserted_since x calls false = true := by
  have hs := run_sorted calls [] List.Pairwise.nil
  refine ⟨hs, fun x => ?_⟩
  rw [has_iff_mem _ x hs, mem_run x calls [] List.Pairwise.nil]
  simp


theorem index_sorted : ∀ (l : List Nat), l.Pairwise (· < ·) → ∀ x ∈ l,
    index x l = l.countP (fun y => decide (y < x)) ∧ l[index x l]? = some x := by
  intro l
  induction l with
  | nil => intro _ x hx; simp at hx
  | cons y ys ih =>
    intro hs x hx
    rw [List.pairwise_cons] at hs
    by_cases hyx : y = x
    · subst hyx
      have hz : ys.countP (fun z => decide (z < y)) = 0 := by
        rw [List.countP_eq_zero]
        intro z hz
        have := hs.1 z hz
        simp; omega
      simp [index, List.countP_cons, hz]
    · have hxs : x ∈ ys := by
        rcases List.mem_cons.mp hx with h | h
        · exact absurd h.symm hyx
        · exact h
      have hlt : y < x := hs.1 x hxs
      obtain ⟨h1, h2⟩ := ih hs.2 x hxs
      simp only [index, hyx, if_false, List.countP_cons]
      refine ⟨by simp [hlt, h1], ?_⟩
      simpa using h2

theorem index_getElem : ∀ (l : List Nat), l.Nodup → ∀ (i : Nat) (y : Nat), l[i]? = some y →
    index y l = i := by
  intro l
  induction l with
  | nil => intro _ i y h; simp at h
  | cons z zs ih =>
    intro hnd i y h
    rw [List.nodup_cons] at hnd
    cases i with
    | zero =>
      simp at h
      subst h
      simp [index]
    | succ i =>
      simp at h
      have hmem : y ∈ zs := List.getElem?_mem h
      have hne : z ≠ y := fun heq => hnd.1 (heq ▸ hmem)
      simp [index, hne, ih hnd.2 i y h]

/-- C16: the positional index is by sort order.  For every set built by
`insert` and `remove` and every member `x`, `index(x)` is the number of
members strictly smaller than `x` and `at(index(x)) = x`; for every `i` below
the size, `index(at(i)) = i`. -/
theorem smallset_index_by_sort_order (calls : List call) :
    (∀ x, has x (run calls []) = true →
      index x (run calls []) = (run calls []).countP (fun y => decide (y < x))
      ∧ at_ (run calls []) (index x (run calls [])) = some x)
    ∧ ∀ (i : Nat) (y : Nat), at_ (run calls []) i = some y → index y (run calls []) = i := by
  have hs := run_sorted calls [] List.Pairwise.nil
  refine ⟨fun x hx => ?_, fun i y h => ?_⟩
  · exact index_sorted _ hs x ((has_iff_mem _ x hs).mp hx)
  · exact index_getElem _ (sorted_nodup _ hs) i y h

/-- Witness of C16 at the set built by five calls and its member 7. -/
theorem smallset_index_by_sort_order_witness :
    has 7 (run [.insert 5, .insert 2, .insert 9, .remove 2, .insert 7] []) = true
    ∧ run [.insert 5, .insert 2, .insert 9, .remove 2, .insert 7] [] = [5, 7, 9]
    ∧ (index 7 (run [.insert 5, .insert 2, .insert 9, .remove 2, .insert 7] [])
        = (run [.insert 5, .insert 2, .insert 9, .remove 2, .insert 7] []).countP
            (fun y => decide (y < 7))
      ∧ at_ (run [.insert 5, .insert 2, .insert 9, .remove 2, .insert 7] [])
          (index 7 (run [.insert 5, .insert 2, .insert 9, .remove 2, .insert 7] [])) = some 7) :=
  ⟨by decide, by decide,
    (smallset_index_by_sort_order [.insert 5, .insert 2, .insert 9, .remove 2, .insert 7]).1 7
      (by decide)⟩

end smallset

/-! ## The fill-in score -/

namespace heuristics


theorem foldl_count_mod (p : Nat → Bool) : ∀ (l : List Nat) (n : Nat),
    l.foldl (fun n z => if p z then (n + 1) % 2 ^ 32 else n) (n % 2 ^ 32)
      = (n + (l.filter p).length) % 2 ^ 32 := by
  intro l
  induction l with
  | nil => intro n; simp
  | cons z zs ih =>
    intro n
    simp only [List.foldl_cons, List.filter_cons]
    by_cases hp : p z = true
    · simp only [hp, if_true, List.length_cons]
      have : (n % 2 ^ 32 + 1) % 2 ^ 32 = (n + 1) % 2 ^ 32 := by omega
      rw [this, ih]
      congr 1; omega
    · have hp2 : p z = false := by simpa using hp
      simp only [hp2, Bool.false_eq_true, if_false]
      rw [ih]

theorem num_non_adjacent_neighbors_eq (v : Nat) (g : graph) :
    num_non_adjacent_neighbors v g = adjacent_pairs v g % 2 ^ 32 := by
  unfold num_non_adjacent_neighbors adjacent_pairs
  have key : ∀ (us : List Nat) (n : Nat),
      us.foldl (fun n u =>
        (adjacent_vertices v g).foldl (fun n z =>
          if (adjacent_vertices u g).contains z then (n + 1) % 2 ^ 32 else n) n) (n % 2 ^ 32)
      = (n + (us.flatMap (fun u =>
          (adjacent_vertices v g).filter (fun z => (adjacent_vertices u g).contains z))).length)
          % 2 ^ 32 := by
    intro us
    induction us with
    | nil => intro n; simp
    | cons u rest ih =>
      intro n
      simp only [List.foldl_cons, List.flatMap_cons, List.length_append]
      rw [foldl_count_mod, ih, Nat.add_assoc]
  have := key (adjacent_vertices v g) 0
  simpa using this

/-- C17 (failing input): on the graph with the edges (0,1), (0,2), (1,3),
(1,4), (3,4), (2,5), (2,6), (5,6) the neighbours 1 and 2 of vertex 0 are not
adjacent, yet `num_non_adjacent_neighbors(0, g)` is 0 while two ordered pairs
of distinct neighbours of 0 are not adjacent; vertex 3 scores 2 although no
pair of its neighbours is missing an edge; `greedy_fillin_order` picks
vertex 0.  In general the function counts the ordered pairs of neighbours
that are adjacent. -/
theorem fillin_score_counts_adjacent_pairs :
    (∀ (v : Nat) (g : graph), num_non_adjacent_neighbors v g = adjacent_pairs v g % 2 ^ 32)
    ∧ num_non_adjacent_neighbors 0 [[1, 2], [0, 3, 4], [0, 5, 6], [1, 4], [1, 3], [2, 6], [2, 5]] = 0
    ∧ missing_pairs 0 [[1, 2], [0, 3, 4], [0, 5, 6], [1, 4], [1, 3], [2, 6], [2, 5]] = 2
    ∧ num_non_adjacent_neighbors 3 [[1, 2], [0, 3, 4], [0, 5, 6], [1, 4], [1, 3], [2, 6], [2, 5]] = 2
    ∧ missing_pairs 3 [[1, 2], [0, 3, 4], [0, 5, 6], [1, 4], [1, 3], [2, 6], [2, 5]] = 0
    ∧ greedy_fillin_pick [[1, 2], [0, 3, 4], [0, 5, 6], [1, 4], [1, 3], [2, 6], [2, 5]] = some 0 :=
  ⟨num_non_adjacent_neighbors_eq, by decide, by decide, by decide, by decide, by decide⟩

end heuristics

/-! ## Normal form, shifts and products of polynomials -/

namespace polynomial

variable {T : Type}

theorem length_resize [Zero T] (l : List T) (n : Nat) : (resize l n).length = n := by
  unfold resize
  simp
  omega

theorem length_zip_into (f : T → T → T) : ∀ (a b : List T), b.length ≤ a.length →
    (zip_into f a b).length = a.length := by
  intro a
  induction a with
  | nil =>
    intro b h
    cases b with
    | nil => rfl
    | cons y ys => simp at h
  | cons x xs ih =>
    intro b h
    cases b with
    | nil => rfl
    | cons y ys =>
      simp only [List.length_cons, Nat.add_le_add_iff_right] at h
      simp [zip_into, ih ys h]

theorem normalize_index_pos [Zero T] [DecidableEq T] (l : List T) :
    ∀ i : Nat, 1 ≤ i → 1 ≤ normalize_index l i := by
  intro i
  induction i with
  | zero => intro h; omega
  | succ i ih =>
    intro _
    unfold normalize_index
    split_ifs with h
    · exact ih (by omega)
    · omega

theorem normalize_index_top [Zero T] [DecidableEq T] (l : List T) :
    ∀ i : Nat, 1 < normalize_index l i → l.getD (normalize_index l i) 0 ≠ 0 := by
  intro i
  induction i with
  | zero => intro h; simp [normalize_index] at h
  | succ i ih =>
    intro h
    unfold normalize_index at h ⊢
    split_ifs with hc
    · rw [if_pos hc] at h
      exact ih h
    · rw [if_neg hc] at h
      intro h0
      exact hc ⟨h0, h⟩

theorem normalize_normal [Zero T] [DecidableEq T] (p : polynomial T) :
    normal (normalize p).impl_ := by
  unfold normal normalize set_order
  rw [length_resize]
  refine ⟨by omega, fun h => ?_⟩
  rw [getD_resize]
  simp only [Nat.add_sub_cancel, Nat.lt_add_one, if_true]
  exact normalize_index_top p.impl_ p.order (by omega)

theorem normalize_length_two [Zero T] [DecidableEq T] (p : polynomial T) :
    2 ≤ (normalize p).impl_.length ↔ 2 ≤ p.impl_.length := by
  unfold normalize set_order
  rw [length_resize]
  have h1 := (normalize_index_spec p.impl_ p.order).1
  unfold order at *
  constructor
  · intro h; omega
  · intro h
    have := normalize_index_pos p.impl_ (p.impl_.length - 1) (by omega)
    omega

theorem add_normal [Zero T] [Add T] [DecidableEq T] (p q : polynomial T) :
    normal (p + q).impl_ :=
  normalize_normal _

theorem add_length_two [Zero T] [Add T] [DecidableEq T] (p q : polynomial T)
    (hp : 1 ≤ p.impl_.length) (hq : 1 ≤ q.impl_.length) :
    2 ≤ (p + q).impl_.length ↔ (2 ≤ p.impl_.length ∨ 2 ≤ q.impl_.length) := by
  show 2 ≤ (add_assign p q).impl_.length ↔ _
  unfold add_assign
  rw [normalize_length_two]
  simp only [set_order]
  rw [length_zip_into _ _ _ (by rw [length_resize]; unfold order; omega), length_resize]
  unfold order
  omega

theorem scale_length_two [Zero T] [Mul T] [DecidableEq T] (p : polynomial T) (q : T) :
    2 ≤ (p.scale q).impl_.length ↔ 2 ≤ p.impl_.length := by
  unfold scale
  rw [normalize_length_two]
  simp

theorem scale_length_pos [Zero T] [Mul T] [DecidableEq T] (p : polynomial T) (q : T) :
    1 ≤ (p.scale q).impl_.length :=
  (normalize_normal _).1

theorem coeff_scale [MulZeroClass T] [DecidableEq T] (p : polynomial T) (q : T) (n : Nat) :
    (p.scale q).coeff n = p.coeff n * q := by
  unfold scale
  rw [coeff_normalize]
  unfold coeff
  simp only [List.getD_eq_getElem?_getD, List.getElem?_map]
  cases p.impl_[n]? with
  | none => simp
  | some x => simp

theorem normal_length_eq [Zero T] (a b : List T) (ha : normal a) (hb : normal b)
    (h2 : 2 ≤ a.length ↔ 2 ≤ b.length)
    (hz : ∀ n, a.getD n 0 = 0 ↔ b.getD n 0 = 0) : a.length = b.length := by
  have key : ∀ (a b : List T), normal a → normal b → (2 ≤ a.length ↔ 2 ≤ b.length) →
      (∀ n, a.getD n 0 = 0 ↔ b.getD n 0 = 0) → a.length ≤ b.length := by
    intro a b ha hb h2 hz
    by_contra hcon
    have hlt : b.length < a.length := by omega
    have h1 := ha.1
    have h1b := hb.1
    have ha3 : 2 < a.length := by
      by_contra h
      have : a.length = 2 := by omega
      have : 2 ≤ b.length := h2.mp (by omega)
      omega
    have hlast := ha.2 ha3
    have hb0 : b.getD (a.length - 1) 0 = 0 := by
      rw [List.getD_eq_getElem?_getD, List.getElem?_eq_none (by omega)]
      rfl
    exact hlast ((hz _).mpr hb0)
  exact le_antisymm (key a b ha hb h2 hz) (key b a hb ha h2.symm (fun n => (hz n).symm))


theorem add_at_zero [AddMonoid T] : ∀ (l : List T) (m : Nat), add_at l m 0 = l := by
  intro l
  induction l with
  | nil => intro m; cases m <;> rfl
  | cons y ys ih =>
    intro m
    cases m with
    | zero => simp [add_at]
    | succ m =>
      have := ih m
      unfold add_at at this ⊢
      rw [List.modify_succ_cons, this]

theorem add_at_append [Add T] (a b : List T) (z x : T) :
    add_at (a ++ z :: b) a.length x = a ++ (z + x) :: b := by
  induction a with
  | nil => simp [add_at]
  | cons y ys ih =>
    unfold add_at at ih ⊢
    simp only [List.cons_append, List.length_cons, List.modify_succ_cons, ih]

theorem foldl_id_of_forall {α β : Type} (f : β → α → β) :
    ∀ (l : List α) (b : β), (∀ a ∈ l, ∀ b, f b a = b) → l.foldl f b = b := by
  intro l
  induction l with
  | nil => intro b _; rfl
  | cons a rest ih =>
    intro b h
    simp only [List.foldl_cons]
    rw [h a (List.mem_cons_self _ _)]
    exact ih b (fun a ha => h a (List.mem_cons_of_mem _ ha))

theorem monomial_inner [Semiring T] (k i : Nat) (pi : T) (prod : List T) :
    (List.range (k + 1)).foldl
      (fun prod j => add_at prod (i + j) (pi * (List.replicate k (0 : T) ++ [1]).getD j 0)) prod
    = add_at prod (i + k) pi := by
  rw [List.range_succ, List.foldl_append]
  rw [foldl_id_of_forall _ (List.range k) prod]
  · simp [List.getD_eq_getElem?_getD, List.getElem?_append_right]
  · intro j hj b
    have hjk : j < k := List.mem_range.mp hj
    have : (List.replicate k (0 : T) ++ [1]).getD j 0 = 0 := by
      rw [List.getD_eq_getElem?_getD, List.getElem?_append_left (by simpa using hjk)]
      simp [List.getElem?_replicate, hjk]
    rw [this, mul_zero, add_at_zero]

theorem monomial_outer [Semiring T] (k : Nat) (l : List T) :
    ∀ m, m ≤ l.length →
      (List.range m).foldl (fun prod i => add_at prod (i + k) (l.getD i 0))
        (List.replicate (l.length + k) 0)
      = List.replicate k 0 ++ l.take m ++ List.replicate (l.length - m) 0 := by
  intro m
  induction m with
  | zero =>
    intro _
    simp [← List.replicate_add, Nat.add_comm]
  | succ m ih =>
    intro hm
    rw [List.range_succ, List.foldl_append, ih (by omega)]
    simp only [List.foldl_cons, List.foldl_nil]
    have hlen : (List.replicate k (0 : T) ++ l.take m).length = m + k := by
      simp; omega
    have hrep : List.replicate (l.length - m) (0 : T)
        = 0 :: List.replicate (l.length - (m + 1)) 0 := by
      rw [← List.replicate_succ]; congr 1; omega
    rw [hrep, ← hlen, add_at_append, zero_add]
    have htake : l.take (m + 1) = l.take m ++ [l.getD m 0] := by
      rw [List.take_succ, List.getD_eq_getElem?_getD, List.getElem?_eq_getElem (by omega)]
      rfl
    rw [htake]
    simp

/-- C14: left shift is multiplication by a monomial.  For every polynomial
`p` over a commutative ring and every `k`, `p << k` is the result of
`operator*=` of `p` with the polynomial `x^k` (coefficients: `k` zeros, then
1), namely `k` zero coefficients followed by the coefficients of `p`. -/
theorem shl_eq_mul_monomial [CommRing T] (p : polynomial T) (k : Nat) (hp : p.impl_ ≠ []) :
    p.shl k = p * ⟨List.replicate k 0 ++ [1]⟩
    ∧ (p.shl k).impl_ = List.replicate k 0 ++ p.impl_ := by
  refine ⟨?_, rfl⟩
  show p.shl k = mul_assign p ⟨List.replicate k 0 ++ [1]⟩
  unfold mul_assign shl order
  have hlen : 0 < p.impl_.length := List.length_pos.mpr hp
  have hk : (List.replicate k (0 : T) ++ [1]).length - 1 = k := by simp
  simp only [hk]
  have hinit : resize [(0 : T)] (p.impl_.length - 1 + k + 1)
      = List.replicate (p.impl_.length + k) 0 := by
    unfold resize
    have : p.impl_.length - 1 + k + 1 = (p.impl_.length + k - 1) + 1 := by omega
    rw [this, List.take_succ_cons]
    simp only [List.take_nil, List.length_singleton]
    have h2 : p.impl_.length + k = (p.impl_.length + k - 1) + 1 := by omega
    conv_rhs => rw [h2, List.replicate_succ]
    simp
  have hfun : (fun (prod : List T) (i : Nat) => (List.range (k + 1)).foldl
        (fun prod j => add_at prod (i + j)
          (p.impl_.getD i 0 * (List.replicate k (0 : T) ++ [1]).getD j 0)) prod)
      = fun prod i => add_at prod (i + k) (p.impl_.getD i 0) := by
    funext prod i
    exact monomial_inner k i _ prod
  rw [hinit, hfun]
  have hp1 : p.impl_.length - 1 + 1 = p.impl_.length := by omega
  rw [hp1, monomial_outer k p.impl_ p.impl_.length (le_refl _)]
  simp

/-- Witness of C14 at `3 + 5x^2` and `k = 2`. -/
theorem shl_eq_mul_monomial_witness :
    (⟨[3, 0, 5]⟩ : polynomial Int).impl_ ≠ []
    ∧ (⟨[3, 0, 5]⟩ : polynomial Int).shl 2 = ⟨[3, 0, 5]⟩ * ⟨List.replicate 2 0 ++ [1]⟩
    ∧ ((⟨[3, 0, 5]⟩ : polynomial Int).shl 2).impl_ = List.replicate 2 0 ++ [3, 0, 5] :=
  ⟨by decide, shl_eq_mul_monomial ⟨[3, 0, 5]⟩ 2 (by decide)⟩

/-- C13 (failing input): for `p = 1 + 2x`, `p -= p` leaves the coefficient
vector `[0, 0]`: `normalize` stops at index 1 and keeps the zero coefficient of
`x`, so the all-zero result has two coefficients and does not compare equal
to `polynomial(0)`; the same happens with `+=` and with `*= 0`. -/
theorem normalize_keeps_linear_coefficient :
    sub_assign (⟨[1, 2]⟩ : polynomial Int) ⟨[1, 2]⟩ = ⟨[0, 0]⟩
    ∧ sub_assign (⟨[1, 2]⟩ : polynomial Int) ⟨[1, 2]⟩ ≠ const 0
    ∧ add_assign (⟨[1, 2]⟩ : polynomial Int) ⟨[-1, -2]⟩ = ⟨[0, 0]⟩
    ∧ scale (⟨[1, 2]⟩ : polynomial Int) 0 = ⟨[0, 0]⟩
    ∧ normalize (⟨[0, 0]⟩ : polynomial Int) = ⟨[0, 0]⟩
    ∧ sub_assign (⟨[1, 2, 3]⟩ : polynomial Int) ⟨[1, 2, 3]⟩ = ⟨[0, 0]⟩ := by
  decide

end polynomial

/-! ## Range, congruence and stability of the reconstruction -/

namespace chinese_remainder

theorem inner_product_fold_coeff (n : Nat) :
    ∀ (L : List (polynomial Int × Int)) (acc : polynomial Int),
      (L.foldl (fun init pq => init + pq.1.scale pq.2) acc).coeff n
        = acc.coeff n + (L.map (fun pq => pq.1.coeff n * pq.2)).sum := by
  intro L
  induction L with
  | nil => intro acc; simp
  | cons x rest ih =>
    intro acc
    simp only [List.foldl_cons, List.map_cons, List.sum_cons]
    rw [ih, polynomial.coeff_add, polynomial.coeff_scale, add_assoc]

theorem inner_product_coeff (prs : List (polynomial Int)) (qs : List Int) (n : Nat) :
    (inner_product prs qs).coeff n
      = ((List.zip prs qs).map (fun pq => pq.1.coeff n * pq.2)).sum := by
  unfold inner_product
  rw [inner_product_fold_coeff]
  have : (polynomial.const (0 : Int)).coeff n = 0 := polynomial.coeff_zero n
  rw [this, zero_add]

theorem inner_product_fold_normal :
    ∀ (L : List (polynomial Int × Int)) (acc : polynomial Int), polynomial.normal acc.impl_ →
      polynomial.normal (L.foldl (fun init pq => init + pq.1.scale pq.2) acc).impl_ := by
  intro L
  induction L with
  | nil => intro acc h; exact h
  | cons x rest ih =>
    intro acc _
    simp only [List.foldl_cons]
    exact ih _ (polynomial.add_normal _ _)

theorem normal_const (a : Int) : polynomial.normal (polynomial.const a).impl_ := by
  unfold polynomial.normal polynomial.const
  simp

theorem inner_product_normal (prs : List (polynomial Int)) (qs : List Int) :
    polynomial.normal (inner_product prs qs).impl_ :=
  inner_product_fold_normal _ _ (normal_const 0)

theorem inner_product_fold_length :
    ∀ (L : List (polynomial Int × Int)) (acc : polynomial Int), 1 ≤ acc.impl_.length →
      (2 ≤ (L.foldl (fun init pq => init + pq.1.scale pq.2) acc).impl_.length
        ↔ (2 ≤ acc.impl_.length ∨ ∃ pq ∈ L, 2 ≤ pq.1.impl_.length)) := by
  intro L
  induction L with
  | nil => intro acc _; simp
  | cons x rest ih =>
    intro acc hacc
    simp only [List.foldl_cons]
    rw [ih _ (polynomial.add_normal _ _).1,
      polynomial.add_length_two _ _ hacc (polynomial.scale_length_pos _ _),
      polynomial.scale_length_two]
    constructor
    · rintro ((h | h) | ⟨pq, hpq, h⟩)
      · exact Or.inl h
      · exact Or.inr ⟨x, List.mem_cons_self _ _, h⟩
      · exact Or.inr ⟨pq, List.mem_cons_of_mem _ hpq, h⟩
    · rintro (h | ⟨pq, hpq, h⟩)
      · exact Or.inl (Or.inl h)
      · rcases List.mem_cons.mp hpq with rfl | hpq
        · exact Or.inl (Or.inr h)
        · exact Or.inr ⟨pq, hpq, h⟩

theorem inner_product_length_two (prs : List (polynomial Int)) (qs : List Int) :
    2 ≤ (inner_product prs qs).impl_.length
      ↔ ∃ pq ∈ List.zip prs qs, 2 ≤ pq.1.impl_.length := by
  unfold inner_product
  rw [inner_product_fold_length _ _ (by simp [polynomial.const])]
  simp [polynomial.const]

theorem reduce_range (P c : Int) (hP : 0 < P) (hc : 0 ≤ c) :
    -P < 2 * reduce P c ∧ 2 * reduce P c ≤ P := by
  unfold reduce
  simp only
  rw [Int.tmod_eq_emod hc (le_of_lt hP), Int.shiftRight_eq_div_pow]
  have h1 : 0 ≤ c % P := Int.emod_nonneg _ (by omega)
  have h2 : c % P < P := Int.emod_lt_of_pos _ hP
  have hhalf : (((2 ^ 1 : Nat) : Nat) : Int) = 2 := by norm_num
  rw [hhalf]
  split_ifs with h <;> omega

theorem reduce_dvd (P c : Int) (hP : 0 < P) (hc : 0 ≤ c) : P ∣ reduce P c - c := by
  unfold reduce
  simp only
  rw [Int.tmod_eq_emod hc (le_of_lt hP)]
  have h3 : P ∣ c % P - c := by
    have : P ∣ c - c % P := Int.dvd_sub_of_emod_eq rfl
    have := (dvd_neg).mpr this
    simpa using this
  split_ifs with h
  · have : c % P - P - c = (c % P - c) - P := by ring
    rw [this]
    exact dvd_sub h3 (dvd_refl P)
  · exact h3

theorem reduce_zero (P : Int) (hP : 0 < P) : reduce P 0 = 0 := by
  have h1 := reduce_range P 0 hP (le_refl _)
  have h2 := reduce_dvd P 0 hP (le_refl _)
  obtain ⟨t, ht⟩ := h2
  have h4 : -1 < t := by
    by_contra hcon
    have : P * t ≤ P * (-1) := Int.mul_le_mul_of_nonneg_left (by omega) (le_of_lt hP)
    omega
  have h5 : t < 1 := by
    by_contra hcon
    have : P * 1 ≤ P * t := Int.mul_le_mul_of_nonneg_left (by omega) (le_of_lt hP)
    omega
  have : t = 0 := by omega
  subst this
  omega

theorem reduce_all_getElem (pp : Int) (r : polynomial Int) (n : Nat) :
    (reduce_all pp r).impl_[n]? = (r.impl_[n]?).map (reduce pp) := by
  unfold reduce_all
  simp


theorem qs_nonneg (modinv : Int → Nat → Int) (hinv : modinv_contract modinv) (ps : List Nat)
    (hprime : ∀ p ∈ ps, p.Prime) (p : Nat) (hp : p ∈ ps) :
    0 ≤ ((ps.prod : Nat) : Int).tdiv (p : Int) * modinv (((ps.prod : Nat) : Int).tdiv (p : Int)) p := by
  have hppos : 0 < p := (hprime p hp).pos
  apply mul_nonneg
  · rw [tdiv_prod ps p hp hppos]; positivity
  · exact hinv.2 _ _ hppos

theorem qs_dvd_other (modinv : Int → Nat → Int) (ps : List Nat)
    (hprime : ∀ p ∈ ps, p.Prime) (hnodup : ps.Nodup) (p x : Nat) (hp : p ∈ ps) (hx : x ∈ ps)
    (hne : x ≠ p) :
    (p : Int) ∣ ((ps.prod : Nat) : Int).tdiv (x : Int)
      * modinv (((ps.prod : Nat) : Int).tdiv (x : Int)) x := by
  have hxpos : 0 < x := (hprime x hx).pos
  rw [tdiv_prod ps x hx hxpos]
  have hmem : p ∈ ps.erase x := (List.Nodup.mem_erase_iff hnodup).mpr ⟨Ne.symm hne, hp⟩
  have hd : (p : Int) ∣ (((ps.erase x).prod : Nat) : Int) :=
    Int.natCast_dvd_natCast.mpr (List.dvd_prod hmem)
  exact Dvd.dvd.mul_right hd _

theorem qs_dvd_self (modinv : Int → Nat → Int) (hinv : modinv_contract modinv) (ps : List Nat)
    (hprime : ∀ p ∈ ps, p.Prime) (hnodup : ps.Nodup) (p : Nat) (hp : p ∈ ps) :
    (p : Int) ∣ ((ps.prod : Nat) : Int).tdiv (p : Int)
      * modinv (((ps.prod : Nat) : Int).tdiv (p : Int)) p - 1 := by
  have hppos : 0 < p := (hprime p hp).pos
  rw [tdiv_prod ps p hp hppos]
  exact hinv.1 _ p (by rw [Int.gcd_natCast_natCast]; exact coprime_erase ps hprime hnodup p hp)

theorem dvd_sum_sub_key {α : Type} (d : Int) (key : α → Nat) (f : α → Int) (z0 : α) :
    ∀ Z : List α, (Z.map key).Nodup → z0 ∈ Z → (∀ z ∈ Z, key z ≠ key z0 → d ∣ f z) →
      d ∣ (Z.map f).sum - f z0 := by
  intro Z
  induction Z with
  | nil => intro _ h; simp at h
  | cons y ys ih =>
    intro hnd hmem hdv
    simp only [List.map_cons, List.nodup_cons] at hnd
    simp only [List.map_cons, List.sum_cons]
    have hrest : ∀ z ∈ ys, key z ≠ key y := by
      intro z hz heq
      exact hnd.1 (heq ▸ List.mem_map_of_mem key hz)
    rcases List.mem_cons.mp hmem with h | h
    · subst h
      have : d ∣ (ys.map f).sum := by
        apply List.dvd_sum
        intro w hw
        obtain ⟨z, hz, rfl⟩ := List.mem_map.mp hw
        exact hdv z (List.mem_cons_of_mem _ hz) (hrest z hz)
      simpa using this
    · have hy : key y ≠ key z0 := fun heq => hrest z0 h heq.symm
      have h1 := ih hnd.2 h (fun z hz => hdv z (List.mem_cons_of_mem _ hz))
      have h2 := hdv y (List.mem_cons_self _ _) hy
      have : f y + (ys.map f).sum - f z0 = f y + ((ys.map f).sum - f z0) := by ring
      rw [this]
      exact dvd_add h2 h1

theorem coeff_nonneg_of (r : polynomial Int) (hr : ∀ x ∈ r.impl_, 0 ≤ x) (n : Nat) :
    0 ≤ r.coeff n := by
  unfold polynomial.coeff
  rw [List.getD_eq_getElem?_getD]
  cases h : r.impl_[n]? with
  | none => simp
  | some x => exact hr x (List.getElem?_mem h)

/-- C11: for partial results whose coefficients are residues `0 <= r < p_i`
of pairwise distinct primes `p_0 .. p_k` with product `P`, every coefficient
`c` of the reconstructed polynomial after the reduction loop satisfies
`-P/2 < c <= P/2` and is congruent modulo every `p_i` to the coefficient of
the same degree of the partial result for `p_i`. -/
theorem reconstruct_coefficients (modinv : Int → Nat → Int) (hinv : modinv_contract modinv)
    (ps : List Nat) (hprime : ∀ p ∈ ps, p.Prime) (hnodup : ps.Nodup)
    (prs : List (polynomial Int)) (hlen : prs.length = ps.length)
    (hres : ∀ (i p : Nat) (r : polynomial Int), ps[i]? = some p → prs[i]? = some r →
      ∀ x ∈ r.impl_, 0 ≤ x ∧ x < p)
    (n : Nat) (c : Int) (hc : (reconstruct modinv ps prs).impl_[n]? = some c) :
    (-(running_product ps) < 2 * c ∧ 2 * c ≤ running_product ps)
    ∧ ∀ (i p : Nat) (r : polynomial Int), ps[i]? = some p → prs[i]? = some r →
        (p : Int) ∣ c - r.coeff n := by
  unfold reconstruct at hc
  rw [reduce_all_getElem] at hc
  cases hs : (inner_product prs (compute_qs modinv (running_product ps) ps)).impl_[n]? with
  | none => rw [hs] at hc; simp at hc
  | some s =>
    rw [hs] at hc
    simp only [Option.map_some', Option.some.injEq] at hc
    have hcoeff : s = (inner_product prs (compute_qs modinv (running_product ps) ps)).coeff n := by
      unfold polynomial.coeff
      rw [List.getD_eq_getElem?_getD, hs]; rfl
    rw [inner_product_coeff] at hcoeff
    unfold compute_qs at hcoeff
    rw [List.zip_map_right, List.map_map] at hcoeff
    rw [running_product_eq] at hcoeff hc ⊢
    have hP : 0 < ((ps.prod : Nat) : Int) := by
      have := prod_pos_of_primes ps hprime
      exact_mod_cast this
    have hmemz : ∀ z ∈ List.zip prs ps, ∃ i : Nat, prs[i]? = some z.1 ∧ ps[i]? = some z.2 := by
      intro z hz
      obtain ⟨i, hi⟩ := List.mem_iff_getElem?.mp hz
      exact ⟨i, List.getElem?_zip_eq_some.mp hi⟩
    have hs0 : 0 ≤ s := by
      rw [hcoeff]
      apply List.sum_nonneg
      intro w hw
      obtain ⟨z, hz, rfl⟩ := List.mem_map.mp hw
      obtain ⟨i, hi1, hi2⟩ := hmemz z hz
      simp only [Function.comp, Prod.map, id]
      apply mul_nonneg
      · exact coeff_nonneg_of _ (fun x hx => (hres i z.2 z.1 hi2 hi1 x hx).1) n
      · exact qs_nonneg modinv hinv ps hprime z.2 (List.getElem?_mem hi2)
    subst hc
    refine ⟨reduce_range _ _ hP hs0, ?_⟩
    intro i p r hip hir
    have hd1 : (p : Int) ∣ reduce ((ps.prod : Nat) : Int) s - s := by
      have hpP : (p : Int) ∣ ((ps.prod : Nat) : Int) :=
        Int.natCast_dvd_natCast.mpr (List.dvd_prod (List.getElem?_mem hip))
      exact dvd_trans hpP (reduce_dvd _ _ hP hs0)
    have hz0 : (r, p) ∈ List.zip prs ps :=
      List.mem_iff_getElem?.mpr ⟨i, List.getElem?_zip_eq_some.mpr ⟨hir, hip⟩⟩
    have hkeys : ((List.zip prs ps).map Prod.snd).Nodup := by
      rw [List.map_snd_zip _ _ (by omega)]; exact hnodup
    have hd2 := dvd_sum_sub_key (p : Int) Prod.snd
      (fun (z : polynomial Int × Nat) => z.1.coeff n
        * (((ps.prod : Nat) : Int).tdiv (z.2 : Int)
            * modinv (((ps.prod : Nat) : Int).tdiv (z.2 : Int)) z.2)) (r, p)
      (List.zip prs ps) hkeys hz0 (by
        intro z hz hne
        obtain ⟨j, _, hj2⟩ := hmemz z hz
        exact Dvd.dvd.mul_left (qs_dvd_other modinv ps hprime hnodup p z.2
          (List.getElem?_mem hip) (List.getElem?_mem hj2) hne) _)
    have hd3 := qs_dvd_self modinv hinv ps hprime hnodup p (List.getElem?_mem hip)
    have hsum : s = ((List.zip prs ps).map (fun (z : polynomial Int × Nat) => z.1.coeff n
        * (((ps.prod : Nat) : Int).tdiv (z.2 : Int)
            * modinv (((ps.prod : Nat) : Int).tdiv (z.2 : Int)) z.2))).sum := by
      rw [hcoeff]; rfl
    rw [← hsum] at hd2
    obtain ⟨u, hu⟩ := hd1
    obtain ⟨v, hv⟩ := hd2
    obtain ⟨w, hw⟩ := hd3
    simp only at hv
    refine ⟨u + v + r.coeff n * w, ?_⟩
    linear_combination hu + hv + r.coeff n * hw


theorem crt_sum_nonneg (modinv : Int → Nat → Int) (hinv : modinv_contract modinv)
    (ps : List Nat) (hprime : ∀ p ∈ ps, p.Prime) (a : Int) :
    0 ≤ (ps.map (fun (p : Nat) => a % (p : Int)
        * ((((ps.prod : Nat) : Int).tdiv (p : Int))
            * modinv (((ps.prod : Nat) : Int).tdiv (p : Int)) p))).sum := by
  apply List.sum_nonneg
  intro z hz
  obtain ⟨p, hp, rfl⟩ := List.mem_map.mp hz
  have hppos : 0 < p := (hprime p hp).pos
  exact mul_nonneg (Int.emod_nonneg _ (by omega)) (qs_nonneg modinv hinv ps hprime p hp)

theorem coeff_residues (A : List Int) (p : Nat) (n : Nat) :
    (residues A p).coeff n = A.getD n 0 % (p : Int) := by
  unfold residues polynomial.coeff
  simp only [List.getD_eq_getElem?_getD, List.getElem?_map]
  cases A[n]? with
  | none => simp
  | some x => simp

theorem inner_product_residues_coeff (modinv : Int → Nat → Int) (ps : List Nat) (A : List Int)
    (n : Nat) :
    (inner_product (ps.map (residues A)) (compute_qs modinv (running_product ps) ps)).coeff n
      = (ps.map (fun (p : Nat) => A.getD n 0 % (p : Int)
        * ((((ps.prod : Nat) : Int).tdiv (p : Int))
            * modinv (((ps.prod : Nat) : Int).tdiv (p : Int)) p))).sum := by
  rw [inner_product_coeff]
  unfold compute_qs
  rw [List.zip_map', List.map_map, running_product_eq]
  congr 1
  apply List.map_congr_left
  intro p _
  simp only [Function.comp, coeff_residues]

theorem eq_zero_of_dvd_of_bound (P a : Int) (hP : 0 < P) (hd : P ∣ a) (hlo : -P < 2 * a)
    (hhi : 2 * a ≤ P) : a = 0 := by
  obtain ⟨t, ht⟩ := hd
  have h4 : -1 < t := by
    by_contra hcon
    have : P * t ≤ P * (-1) := Int.mul_le_mul_of_nonneg_left (by omega) (le_of_lt hP)
    omega
  have h5 : t < 1 := by
    by_contra hcon
    have : P * 1 ≤ P * t := Int.mul_le_mul_of_nonneg_left (by omega) (le_of_lt hP)
    omega
  have : t = 0 := by omega
  subst this
  omega

theorem crt_sum_eq_zero_iff (modinv : Int → Nat → Int) (hinv : modinv_contract modinv)
    (ps : List Nat) (hprime : ∀ p ∈ ps, p.Prime) (hnodup : ps.Nodup) (a : Int)
    (hlo : -((ps.prod : Nat) : Int) < 2 * a) (hhi : 2 * a ≤ ((ps.prod : Nat) : Int)) :
    (ps.map (fun (p : Nat) => a % (p : Int)
        * ((((ps.prod : Nat) : Int).tdiv (p : Int))
            * modinv (((ps.prod : Nat) : Int).tdiv (p : Int)) p))).sum = 0 ↔ a = 0 := by
  have hP : 0 < ((ps.prod : Nat) : Int) := by
    have := prod_pos_of_primes ps hprime
    exact_mod_cast this
  constructor
  · intro h
    have hd := crt_sum_dvd modinv hinv ps hprime hnodup a
    rw [h] at hd
    have hd2 : ((ps.prod : Nat) : Int) ∣ a := by
      have := (dvd_neg).mpr hd
      simpa using this
    exact eq_zero_of_dvd_of_bound _ a hP hd2 hlo hhi
  · intro h
    subst h
    apply List.sum_eq_zero
    intro z hz
    obtain ⟨p, _, rfl⟩ := List.mem_map.mp hz
    simp

theorem length_residues (A : List Int) (p : Nat) : (residues A p).impl_.length = A.length := by
  simp [residues]

theorem inner_product_residues_length_two (modinv : Int → Nat → Int) (ps : List Nat)
    (hne : ps ≠ []) (A : List Int) :
    2 ≤ (inner_product (ps.map (residues A))
          (compute_qs modinv (running_product ps) ps)).impl_.length ↔ 2 ≤ A.length := by
  rw [inner_product_length_two]
  unfold compute_qs
  rw [List.zip_map']
  constructor
  · rintro ⟨pq, hpq, h⟩
    obtain ⟨p, _, rfl⟩ := List.mem_map.mp hpq
    rwa [length_residues] at h
  · intro h
    obtain ⟨p, hp⟩ := List.exists_mem_of_ne_nil ps hne
    exact ⟨_, List.mem_map_of_mem _ hp, by rw [length_residues]; exact h⟩

theorem getD_bound (A : List Int) (P : Int) (hP : 0 < P)
    (hb : ∀ a ∈ A, -P < 2 * a ∧ 2 * a ≤ P) (n : Nat) :
    -P < 2 * A.getD n 0 ∧ 2 * A.getD n 0 ≤ P := by
  rw [List.getD_eq_getElem?_getD]
  cases h : A[n]? with
  | none => simp; omega
  | some x => exact hb x (List.getElem?_mem h)

theorem reconstruct_residues_getElem (modinv : Int → Nat → Int) (hinv : modinv_contract modinv)
    (ps : List Nat) (hprime : ∀ p ∈ ps, p.Prime) (hnodup : ps.Nodup) (A : List Int)
    (hb : ∀ a ∈ A, -(running_product ps) < 2 * a ∧ 2 * a ≤ running_product ps) (n : Nat) :
    (reconstruct modinv ps (ps.map (residues A))).impl_[n]?
      = if n < (inner_product (ps.map (residues A))
            (compute_qs modinv (running_product ps) ps)).impl_.length
        then some (A.getD n 0) else none := by
  have hP : 0 < ((ps.prod : Nat) : Int) := by
    have := prod_pos_of_primes ps hprime
    exact_mod_cast this
  unfold reconstruct
  rw [reduce_all_getElem]
  split_ifs with hn
  · rw [List.getElem?_eq_getElem hn]
    simp only [Option.map_some', Option.some.injEq]
    have hco := inner_product_residues_coeff modinv ps A n
    unfold polynomial.coeff at hco
    rw [List.getD_eq_getElem _ _ hn] at hco
    rw [hco, running_product_eq]
    rw [running_product_eq] at hb
    have hbn := getD_bound A _ hP hb n
    exact reduce_eq _ _ _ hP (crt_sum_nonneg modinv hinv ps hprime _)
      (crt_sum_dvd modinv hinv ps hprime hnodup _) hbn.1 hbn.2
  · rw [List.getElem?_eq_none (by omega)]
    rfl

theorem reconstruct_residues_eq (modinv : Int → Nat → Int) (hinv : modinv_contract modinv)
    (ps : List Nat) (hne : ps ≠ []) (hprime : ∀ p ∈ ps, p.Prime) (hnodup : ps.Nodup)
    (A : List Int)
    (hb : ∀ a ∈ A, -(running_product ps) < 2 * a ∧ 2 * a ≤ running_product ps) :
    reconstruct modinv ps (ps.map (residues A)) = polynomial.normalize ⟨A⟩ := by
  have hP : 0 < ((ps.prod : Nat) : Int) := by
    have := prod_pos_of_primes ps hprime
    exact_mod_cast this
  have hb1 : ∀ a ∈ A, -(((ps.prod : Nat) : Int)) < 2 * a ∧ 2 * a ≤ ((ps.prod : Nat) : Int) := by
    intro a ha; have := hb a ha; rw [running_product_eq] at this; exact this
  have hcn : ∀ n, (polynomial.normalize (⟨A⟩ : polynomial Int)).impl_.getD n 0 = A.getD n 0 :=
    fun n => polynomial.coeff_normalize (⟨A⟩ : polynomial Int) n
  have hlen : (inner_product (ps.map (residues A))
        (compute_qs modinv (running_product ps) ps)).impl_.length
      = (polynomial.normalize (⟨A⟩ : polynomial Int)).impl_.length := by
    apply polynomial.normal_length_eq _ _ (inner_product_normal _ _)
      (polynomial.normalize_normal _)
    · rw [inner_product_residues_length_two modinv _ hne A, polynomial.normalize_length_two]
    · intro n
      have e1 := inner_product_residues_coeff modinv ps A n
      unfold polynomial.coeff at e1
      rw [e1, hcn n]
      have g1 := getD_bound A _ hP hb1 n
      exact crt_sum_eq_zero_iff modinv hinv _ hprime hnodup _ g1.1 g1.2
  have himpl : (reconstruct modinv ps (ps.map (residues A))).impl_
      = (polynomial.normalize (⟨A⟩ : polynomial Int)).impl_ := by
    apply List.ext_getElem?
    intro n
    rw [reconstruct_residues_getElem modinv hinv _ hprime hnodup A hb n, hlen]
    split_ifs with hn
    · rw [List.getElem?_eq_getElem hn, ← hcn n, List.getD_eq_getElem _ _ hn]
    · rw [List.getElem?_eq_none (by omega)]
  cases h1 : reconstruct modinv ps (ps.map (residues A))
  cases h2 : polynomial.normalize (⟨A⟩ : polynomial Int)
  rw [h1, h2] at himpl
  simp only at himpl
  rw [himpl]

/-- C12 (amended): the reconstruction is stable once the product of the
primes exceeds the coefficients.  If every coefficient `a` of the integer
polynomial satisfies `-P/2 < a <= P/2` for the product `P` of the primes
`p_0 .. p_k`, then the reconstruction of its residues over `p_0 .. p_(k+1)` is
the same coefficient vector as the reconstruction `R_k` over `p_0 .. p_k`, and
`R_k` is the polynomial itself: the vector of its coefficients as
`polynomial::normalize` leaves it, with the polynomial's coefficient at every
degree. -/
theorem reconstruct_stable_when_bounded (modinv : Int → Nat → Int)
    (hinv : modinv_contract modinv) (ps : List Nat) (q : Nat) (hne : ps ≠ [])
    (hprime : ∀ p ∈ ps ++ [q], p.Prime) (hnodup : (ps ++ [q]).Nodup) (A : List Int)
    (hb : ∀ a ∈ A, -(running_product ps) < 2 * a ∧ 2 * a ≤ running_product ps) :
    reconstruct modinv (ps ++ [q]) ((ps ++ [q]).map (residues A))
      = reconstruct modinv ps (ps.map (residues A))
    ∧ reconstruct modinv ps (ps.map (residues A)) = polynomial.normalize ⟨A⟩
    ∧ ∀ n : Nat, (reconstruct modinv ps (ps.map (residues A))).coeff n = A.getD n 0 := by
  have hprime1 : ∀ p ∈ ps, p.Prime := fun p hp => hprime p (List.mem_append_left _ hp)
  have hnodup1 : ps.Nodup := (List.nodup_append.mp hnodup).1
  have hq : q.Prime := hprime q (by simp)
  have hP1 : 0 < ((ps.prod : Nat) : Int) := by
    have := prod_pos_of_primes ps hprime1
    exact_mod_cast this
  have hPle : ((ps.prod : Nat) : Int) ≤ (((ps ++ [q]).prod : Nat) : Int) := by
    rw [List.prod_append, List.prod_singleton, Nat.cast_mul]
    have hq1 : (1 : Int) ≤ (q : Int) := by exact_mod_cast hq.pos
    nlinarith
  have hb2 : ∀ a ∈ A, -(running_product (ps ++ [q])) < 2 * a
      ∧ 2 * a ≤ running_product (ps ++ [q]) := by
    intro a ha
    have := hb a ha
    rw [running_product_eq] at this ⊢
    omega
  have h1 := reconstruct_residues_eq modinv hinv ps hne hprime1 hnodup1 A hb
  have h2 := reconstruct_residues_eq modinv hinv (ps ++ [q]) (by simp) hprime hnodup A hb2
  refine ⟨by rw [h1, h2], h1, fun n => ?_⟩
  rw [h1]
  exact polynomial.coeff_normalize (⟨A⟩ : polynomial Int) n

/-- Witness of C12 (amended) at the primes 3, 5, the further prime 7 and the
polynomial `1 - 2x`. -/
theorem reconstruct_stable_when_bounded_witness :
    modinv_contract modinv ∧ ([3, 5] : List Nat) ≠ []
    ∧ (∀ p ∈ [3, 5] ++ [7], Nat.Prime p) ∧ ([3, 5] ++ [7]).Nodup
    ∧ (∀ a ∈ ([1, -2] : List Int), -(running_product [3, 5]) < 2 * a
        ∧ 2 * a ≤ running_product [3, 5])
    ∧ polynomial.normalize (⟨[1, -2]⟩ : polynomial Int) = ⟨[1, -2]⟩
    ∧ (reconstruct modinv ([3, 5] ++ [7]) (([3, 5] ++ [7]).map (residues [1, -2]))
        = reconstruct modinv [3, 5] ([3, 5].map (residues [1, -2]))
      ∧ reconstruct modinv [3, 5] ([3, 5].map (residues [1, -2]))
        = polynomial.normalize ⟨[1, -2]⟩
      ∧ ∀ n : Nat, (reconstruct modinv [3, 5] ([3, 5].map (residues [1, -2]))).coeff n
          = ([1, -2] : List Int).getD n 0) :=
  ⟨modinv_satisfies_contract, by decide, by decide, by decide, by decide, by decide,
    reconstruct_stable_when_bounded modinv modinv_satisfies_contract [3, 5] 7 (by decide)
      (by decide) (by decide) [1, -2] (by decide)⟩

/-- C12 (as stated, refuted): equal reconstructions over `p_0 .. p_(k-1)` and
over `p_0 .. p_k` do not make the next one equal.  For the constant polynomial
16 and the primes 3, 5, 7 the reconstructions over `3` and over `3, 5` are
both 1 and the one over `3, 5, 7` is 16.  With the first three entries
`p_0, p_1, p_2` of the table `primes[]` and the constant polynomial
`1 + p_0 * p_1 = 18446743979220271190`, the reconstructions over `p_0` and over
`p_0, p_1` are both 1 (the loop stops and prints 1) and the one over
`p_0, p_1, p_2` is `1 + p_0 * p_1`. -/
theorem reconstruct_false_convergence :
    (reconstruct modinv [3] ([3].map (residues [16])) = ⟨[1]⟩
      ∧ reconstruct modinv [3, 5] ([3, 5].map (residues [16])) = ⟨[1]⟩
      ∧ reconstruct modinv [3, 5, 7] ([3, 5, 7].map (residues [16])) = ⟨[16]⟩
      ∧ reconstruct modinv [3, 5, 7] ([3, 5, 7].map (residues [16]))
        ≠ reconstruct modinv [3, 5] ([3, 5].map (residues [16])))
    ∧ primes.take 3 = [4294967291, 4294967279, 4294967231]
    ∧ reconstruct modinv (primes.take 1) ((primes.take 1).map (residues [18446743979220271190]))
      = ⟨[1]⟩
    ∧ reconstruct modinv (primes.take 2) ((primes.take 2).map (residues [18446743979220271190]))
      = ⟨[1]⟩
    ∧ reconstruct modinv (primes.take 3) ((primes.take 3).map (residues [18446743979220271190]))
      = ⟨[18446743979220271190]⟩ := by
  have e1 : [3].map (residues [16])
      = [3].map (fun (p : Nat) => polynomial.const ((1 : Int) % (p : Int))) := by decide
  have e2 : [3, 5].map (residues [16])
      = [3, 5].map (fun (p : Nat) => polynomial.const ((1 : Int) % (p : Int))) := by decide
  have e3 : [3, 5, 7].map (residues [16])
      = [3, 5, 7].map (fun (p : Nat) => polynomial.const ((16 : Int) % (p : Int))) := by decide
  have h1 : reconstruct modinv [3] ([3].map (residues [16])) = ⟨[1]⟩ := by
    rw [e1]
    exact reconstruct_const_eq modinv modinv_satisfies_contract [3] (by decide) (by decide) 1
      (by decide) (by decide)
  have h2 : reconstruct modinv [3, 5] ([3, 5].map (residues [16])) = ⟨[1]⟩ := by
    rw [e2]
    exact reconstruct_const_eq modinv modinv_satisfies_contract [3, 5] (by decide) (by decide) 1
      (by decide) (by decide)
  have h3 : reconstruct modinv [3, 5, 7] ([3, 5, 7].map (residues [16])) = ⟨[16]⟩ := by
    rw [e3]
    exact reconstruct_const_eq modinv modinv_satisfies_contract [3, 5, 7] (by decide)
      (by decide) 16 (by decide) (by decide)
  have t1 : (primes.take 1).map (residues [18446743979220271190])
      = (primes.take 1).map (fun (p : Nat) => polynomial.const ((1 : Int) % (p : Int))) := by
    decide
  have t2 : (primes.take 2).map (residues [18446743979220271190])
      = (primes.take 2).map (fun (p : Nat) => polynomial.const ((1 : Int) % (p : Int))) := by
    decide
  have t3 : (primes.take 3).map (residues [18446743979220271190])
      = (primes.take 3).map (fun (p : Nat) =>
          polynomial.const ((18446743979220271190 : Int) % (p : Int))) := by
    decide
  have hpos0 : ∀ p ∈ primes, 0 < p := by decide
  have hpos : ∀ n, ∀ p ∈ primes.take n, 0 < p :=
    fun n p hp => hpos0 p (List.mem_of_mem_take hp)
  have hcop3 : ∀ p ∈ primes.take 3, ∀ q ∈ primes.take 3, p ≠ q → Nat.Coprime p q := by
    decide
  have hcop2 : ∀ p ∈ primes.take 2, ∀ q ∈ primes.take 2, p ≠ q → Nat.Coprime p q := by
    decide
  have hcop1 : ∀ p ∈ primes.take 1, ∀ q ∈ primes.take 1, p ≠ q → Nat.Coprime p q := by
    decide
  refine ⟨⟨h1, h2, h3, ?_⟩, by decide, ?_, ?_, ?_⟩
  · rw [h2, h3]
    decide
  · rw [t1]
    exact reconstruct_const_of_coprime modinv modinv_satisfies_contract (primes.take 1)
      (hpos 1) (by decide) hcop1 1 (by decide) (by decide)
  · rw [t2]
    exact reconstruct_const_of_coprime modinv modinv_satisfies_contract (primes.take 2)
      (hpos 2) (by decide) hcop2 1 (by decide) (by decide)
  · rw [t3]
    exact reconstruct_const_of_coprime modinv modinv_satisfies_contract (primes.take 3)
      (hpos 3) (by decide) hcop3 18446743979220271190 (by decide) (by decide)

/-- Witness of C11 at the primes 3, 5, 7, the residues of -52 and the
constant coefficient. -/
theorem reconstruct_coefficients_witness :
    modinv_contract modinv ∧ (∀ p ∈ [3, 5, 7], Nat.Prime p) ∧ [3, 5, 7].Nodup
    ∧ (reconstruct modinv [3, 5, 7] [⟨[2]⟩, ⟨[3]⟩, ⟨[4]⟩]).impl_[0]? = some (-52)
    ∧ ((-(running_product [3, 5, 7]) < 2 * (-52) ∧ 2 * (-52) ≤ running_product [3, 5, 7])
      ∧ ∀ (i p : Nat) (r : polynomial Int), [3, 5, 7][i]? = some p →
          ([⟨[2]⟩, ⟨[3]⟩, ⟨[4]⟩] : List (polynomial Int))[i]? = some r →
          (p : Int) ∣ (-52) - r.coeff 0) :=
  have hc : (reconstruct modinv [3, 5, 7] [⟨[2]⟩, ⟨[3]⟩, ⟨[4]⟩]).impl_[0]? = some (-52) := by
    have e : ([⟨[2]⟩, ⟨[3]⟩, ⟨[4]⟩] : List (polynomial Int))
        = [3, 5, 7].map (fun (p : Nat) => polynomial.const ((-52 : Int) % (p : Int))) := by
      decide
    rw [e, reconstruct_const_eq modinv modinv_satisfies_contract [3, 5, 7] (by decide)
      (by decide) (-52) (by decide) (by decide)]
    rfl
  ⟨modinv_satisfies_contract, by decide, by decide, hc,
    reconstruct_coefficients modinv modinv_satisfies_contract [3, 5, 7] (by decide) (by decide)
      [⟨[2]⟩, ⟨[3]⟩, ⟨[4]⟩] (by decide)
      (by
        intro i p r hp hr x hx
        match i with
        | 0 =>
          simp at hp hr; subst hp; subst hr; simp at hx; subst hx; decide
        | 1 =>
          simp at hp hr; subst hp; subst hr; simp at hx; subst hx; decide
        | 2 =>
          simp at hp hr; subst hp; subst hr; simp at hx; subst hx; decide
        | i + 3 => simp at hp)
      0 (-52) hc⟩

end chinese_remainder

/-! ## What `canonicalize` returns -/

namespace longest_path

theorem mem_distinct_labels (y : Int) : ∀ c : connectivity, y ∈ distinct_labels c → y ∈ c ∧ 0 < y := by
  intro c
  induction c with
  | nil => intro h; simp [distinct_labels] at h
  | cons x xs ih =>
    intro h
    unfold distinct_labels at h
    split_ifs at h with hx
    · rcases List.mem_cons.mp h with h1 | h1
      · subst h1; exact ⟨List.mem_cons_self _ _, hx⟩
      · have := ih (List.mem_of_mem_filter h1)
        exact ⟨List.mem_cons_of_mem _ this.1, this.2⟩
    · have := ih h
      exact ⟨List.mem_cons_of_mem _ this.1, this.2⟩

theorem distinct_labels_map (f : Int → Int) (c0 : connectivity)
    (hpos : ∀ x ∈ c0, 0 < x → 0 < f x) (hnonpos : ∀ x, x ≤ 0 → f x ≤ 0)
    (hinj : ∀ x ∈ c0, ∀ y ∈ c0, 0 < x → 0 < y → f x = f y → x = y) :
    ∀ c : connectivity, (∀ x ∈ c, x ∈ c0) →
      distinct_labels (c.map f) = (distinct_labels c).map f := by
  intro c
  induction c with
  | nil => intro _; rfl
  | cons x xs ih =>
    intro hsub
    have hx0 : x ∈ c0 := hsub x (List.mem_cons_self _ _)
    have hxs : ∀ y ∈ xs, y ∈ c0 := fun y hy => hsub y (List.mem_cons_of_mem _ hy)
    rw [List.map_cons]
    unfold distinct_labels
    by_cases hx : 0 < x
    · rw [if_pos hx, if_pos (hpos x hx0 hx), ih hxs, List.map_cons, List.filter_map]
      congr 2
      apply List.filter_congr
      intro y hy
      have hy1 := mem_distinct_labels y xs hy
      simp only [Function.comp, ne_eq, decide_not]
      congr 1
      apply decide_eq_decide.mpr
      constructor
      · intro h; exact hinj y (hxs y hy1.1) x hx0 hy1.2 hx h
      · intro h; rw [h]
    · have : ¬ 0 < f x := by have := hnonpos x (by omega); omega
      rw [if_neg hx, if_neg this, ih hxs]

theorem distinct_labels_canon : ∀ (c : connectivity) (k : Int), canon_from k c →
    (distinct_labels c).filter (fun y => decide (k ≤ y))
      = (List.range ((distinct_labels c).filter (fun y => decide (k ≤ y))).length).map
          (fun (n : Nat) => k + (n : Int)) := by
  intro c
  induction c with
  | nil => intro k _; rfl
  | cons x xs ih =>
    intro k hcan
    unfold canon_from at hcan
    unfold distinct_labels
    by_cases hx0 : x ≤ 0
    · rw [if_pos hx0] at hcan
      rw [if_neg (by omega)]
      exact ih k hcan
    · rw [if_neg hx0] at hcan
      rw [if_pos (by omega)]
      have hff : ∀ (l : List Int) (a b : Int), a < b →
          (l.filter (fun y => decide (y ≠ a))).filter (fun y => decide (b ≤ y))
            = l.filter (fun y => decide (b ≤ y)) := by
        intro l a b hab
        rw [List.filter_filter]
        apply List.filter_congr
        intro y _
        by_cases hy : b ≤ y
        · have : y ≠ a := by omega
          simp [hy, this]
        · simp [hy]
      by_cases hxk : x < k
      · rw [if_pos hxk] at hcan
        rw [List.filter_cons, if_neg (by simpa using hxk), hff _ _ _ hxk]
        exact ih k hcan
      · rw [if_neg hxk] at hcan
        obtain ⟨hxe, hcan2⟩ := hcan
        subst hxe
        rw [List.filter_cons, if_pos (by simp)]
        have hgg : ((distinct_labels xs).filter (fun y => decide (y ≠ x))).filter
              (fun y => decide (x ≤ y))
            = (distinct_labels xs).filter (fun y => decide (x + 1 ≤ y)) := by
          rw [List.filter_filter]
          apply List.filter_congr
          intro y _
          by_cases hy : x + 1 ≤ y
          · have h1 : x ≤ y := by omega
            have h2 : y ≠ x := by omega
            simp [hy, h1, h2]
          · by_cases h1 : x ≤ y
            · have h2 : y = x := by omega
              simp [hy, h2]
            · simp [hy, h1]
        rw [hgg]
        have := ih (x + 1) hcan2
        rw [List.length_cons, List.range_succ_eq_map, List.map_cons, List.map_map]
        rw [this]
        simp only [List.length_map, List.length_range, Nat.cast_zero, add_zero]
        congr 1
        apply List.map_congr_left
        intro n _
        simp only [Function.comp, Nat.cast_succ]
        ring


/-- C21 (amended): `canonicalize` relabels in first-occurrence order and
changes nothing else, for every state whose labels are below the bound 50 of
the local table.  It returns a state of the same length; a non-positive entry
(0, -1) stays what it is and a positive entry stays positive, so 0 and -1 are
exactly where they were; two positive positions have equal labels afterwards if
and only if they had before; and the distinct positive labels of the result,
read left to right by first occurrence, are 1, 2, 3, ... up to the number of
distinct positive labels of the input. -/
theorem canonicalize_first_occurrence (c : connectivity) (h : ∀ x ∈ c, x < 50) :
    ∃ c1, canonicalize c = some c1 ∧ c1.length = c.length
      ∧ (∀ (i : Nat) (x y : Int), (c)[i]? = some x → c1[i]? = some y →
          (x ≤ 0 → y = x) ∧ (0 < x → 0 < y) ∧ (y = 0 ↔ x = 0) ∧ (y = -1 ↔ x = -1))
      ∧ (∀ (i j : Nat) (x1 x2 y1 y2 : Int), (c)[i]? = some x1 → (c)[j]? = some x2 →
          c1[i]? = some y1 → c1[j]? = some y2 → 0 < x1 → 0 < x2 → (y1 = y2 ↔ x1 = x2))
      ∧ distinct_labels c1
          = (List.range (distinct_labels c).length).map (fun (n : Nat) => (n : Int) + 1) := by
  obtain ⟨table1, k1, hrun, hinv1, _, _, _, hnz, hcan⟩ :=
    canonicalize_loop_spec c (List.replicate 50 0) 1 table_inv_init h
  have hkeep : ∀ x : Int, x ≤ 0 → relabel table1 x = x := by
    intro x hx
    unfold relabel
    rw [if_pos hx]
  have hpos : ∀ x ∈ c, 0 < x → 0 < relabel table1 x :=
    fun x hx h0 => (relabel_pos hinv1 x h0 (hnz x hx h0)).1
  have hinj : ∀ x ∈ c, ∀ y ∈ c, 0 < x → 0 < y → relabel table1 x = relabel table1 y → x = y :=
    fun x hx y _ h0 h1 he => relabel_inj hinv1 x y h0 h1 (hnz x hx h0) he
  have hget : ∀ (i : Nat) (x y : Int), (c)[i]? = some x →
      (c.map (relabel table1))[i]? = some y → y = relabel table1 x := by
    intro i x y hx hy
    rw [List.getElem?_map, hx] at hy
    exact (Option.some.inj hy).symm
  refine ⟨c.map (relabel table1), hrun, List.length_map _ _, ?_, ?_, ?_⟩
  · intro i x y hx hy
    have hmem : x ∈ c := List.getElem?_mem hx
    have hy1 := hget i x y hx hy
    subst hy1
    by_cases hx0 : x ≤ 0
    · rw [hkeep x hx0]
      exact ⟨fun _ => rfl, fun h0 => absurd h0 (by omega), Iff.rfl, Iff.rfl⟩
    · have hp := hpos x hmem (by omega)
      refine ⟨fun h0 => absurd h0 hx0, fun _ => hp, ?_, ?_⟩
      · constructor <;> intro h0 <;> omega
      · constructor <;> intro h0 <;> omega
  · intro i j x1 x2 y1 y2 hx1 hx2 hy1 hy2 h1 h2
    have e1 := hget i x1 y1 hx1 hy1
    have e2 := hget j x2 y2 hx2 hy2
    subst e1; subst e2
    constructor
    · exact hinj x1 (List.getElem?_mem hx1) x2 (List.getElem?_mem hx2) h1 h2
    · intro he; rw [he]
  · have hmap := distinct_labels_map (relabel table1) c hpos
      (fun x hx => by rw [hkeep x hx]; exact hx) hinj c (fun x hx => hx)
    have hall : (distinct_labels (c.map (relabel table1))).filter (fun y => decide (1 ≤ y))
        = distinct_labels (c.map (relabel table1)) := by
      apply List.filter_eq_self.mpr
      intro y hy
      have := (mem_distinct_labels y _ hy).2
      simp only [decide_eq_true_eq]
      omega
    have hd := distinct_labels_canon _ 1 hcan
    rw [hall] at hd
    rw [hd, hmap, List.length_map]
    apply List.map_congr_left
    intro n _
    ring

/-- Witness of C21 (amended) at the state `[7, 0, 3, -1, 7, 5]`, whose
canonical form is `[1, 0, 2, -1, 1, 3]`. -/
theorem canonicalize_first_occurrence_witness :
    (∀ x ∈ ([7, 0, 3, -1, 7, 5] : connectivity), x < 50)
    ∧ canonicalize [7, 0, 3, -1, 7, 5] = some [1, 0, 2, -1, 1, 3]
    ∧ distinct_labels [1, 0, 2, -1, 1, 3] = [1, 2, 3]
    ∧ ∃ c1, canonicalize [7, 0, 3, -1, 7, 5] = some c1
      ∧ c1.length = ([7, 0, 3, -1, 7, 5] : connectivity).length
      ∧ (∀ (i : Nat) (x y : Int), ([7, 0, 3, -1, 7, 5] : connectivity)[i]? = some x →
          c1[i]? = some y →
          (x ≤ 0 → y = x) ∧ (0 < x → 0 < y) ∧ (y = 0 ↔ x = 0) ∧ (y = -1 ↔ x = -1))
      ∧ (∀ (i j : Nat) (x1 x2 y1 y2 : Int),
          ([7, 0, 3, -1, 7, 5] : connectivity)[i]? = some x1 →
          ([7, 0, 3, -1, 7, 5] : connectivity)[j]? = some x2 →
          c1[i]? = some y1 → c1[j]? = some y2 → 0 < x1 → 0 < x2 → (y1 = y2 ↔ x1 = x2))
      ∧ distinct_labels c1
          = (List.range (distinct_labels [7, 0, 3, -1, 7, 5]).length).map
              (fun (n : Nat) => (n : Int) + 1) :=
  ⟨by decide, by decide, by decide, canonicalize_first_occurrence _ (by decide)⟩

set_option maxRecDepth 100000 in
/-- C21 (as stated, refuted): on the state `[50]` the loop of `canonicalize`
reads `table[50]`, outside the local array of 50 entries, so there is no
result to speak of; 49 is the largest label it can take.  The program gets
there on a bag of 100 vertices: from the canonical state
`[1, 1, 2, 2, ..., 49, 49, 0, 0]`, `connect` at the positions 98 and 99 gives
the two positions the fresh label 50, and `join_operator` then canonicalizes
that state. -/
theorem canonicalize_label_fifty_out_of_table :
    canonicalize [50] = none ∧ canonicalize [49] = some [1]
    ∧ (¬ ∃ c1, canonicalize [50] = some c1 ∧ c1.length = ([50] : connectivity).length)
    ∧ connect ((List.range 49).flatMap (fun (n : Nat) => [(n : Int) + 1, (n : Int) + 1])
          ++ [0, 0]) 98 99
        = some (some ((List.range 50).flatMap (fun (n : Nat) => [(n : Int) + 1, (n : Int) + 1])))
    ∧ canonicalize ((List.range 50).flatMap (fun (n : Nat) => [(n : Int) + 1, (n : Int) + 1]))
        = none
    ∧ join_operator polynomial.shl 98 99
        ([((List.range 49).flatMap (fun (n : Nat) => [(n : Int) + 1, (n : Int) + 1]) ++ [0, 0],
          ⟨[1]⟩)] : table_type (polynomial Int)) = none := by
  refine ⟨by decide, by decide, ?_, by decide, by decide, by decide⟩
  rintro ⟨c1, h1, _⟩
  have h2 : canonicalize [50] = none := by decide
  rw [h2] at h1
  cases h1

end longest_path

/-! ## The frame of `join_operator` -/

namespace longest_path

theorem lookup_accumulate {W : Type} [Zero W] [Add W] (key key1 : connectivity) (w : W) :
    ∀ T : table_type W, lookup key1 (accumulate key w T)
      = if key1 = key then some (weight_at key T + w) else lookup key1 T := by
  intro T
  induction T with
  | nil =>
    by_cases h : key1 = key
    · subst h; simp [accumulate, lookup, weight_at]
    · simp [accumulate, lookup, h, Ne.symm h]
  | cons a rest ih =>
    obtain ⟨k, v⟩ := a
    by_cases hk : k = key
    · subst hk
      by_cases h : key1 = k
      · subst h; simp [accumulate, lookup, weight_at]
      · simp [accumulate, lookup, h, Ne.symm h]
    · by_cases hk1 : k = key1
      · subst hk1
        simp [accumulate, lookup, hk]
      · simp only [accumulate, if_neg hk, lookup, if_neg hk1]
        rw [ih]
        by_cases h : key1 = key
        · subst h; simp [weight_at, lookup, hk]
        · simp [h]

theorem lookup_of_mem {W : Type} : ∀ (T : table_type W) (s : connectivity × W), s ∈ T →
    ∃ w, lookup s.1 T = some w := by
  intro T
  induction T with
  | nil => intro s hs; simp at hs
  | cons a rest ih =>
    intro s hs
    obtain ⟨k, v⟩ := a
    by_cases hk : k = s.1
    · exact ⟨v, by simp [lookup, hk]⟩
    · rcases List.mem_cons.mp hs with h | h
      · subst h; exact absurd rfl hk
      · obtain ⟨w, hw⟩ := ih s h
        exact ⟨w, by simp [lookup, hk, hw]⟩

theorem join_step_lookup {W : Type} [Zero W] [Add W] (shl : W → Nat → W) (i j : Nat)
    (acc acc1 : table_type W) (s : connectivity × W)
    (h : join_step shl i j acc s = some acc1) (key : connectivity) :
    ((∃ w, lookup key acc = some w) → ∃ w, lookup key acc1 = some w)
    ∧ ((∀ newc, connect s.1 i j = some (some newc) → canonicalize newc ≠ some key) →
        lookup key acc1 = lookup key acc) := by
  unfold join_step at h
  split at h
  · cases h
  · cases h; exact ⟨fun hw => hw, fun _ => rfl⟩
  · rename_i newc hc
    split at h
    · cases h
    · rename_i e he
      split_ifs at h with h2
      · split at h
        · cases h
        · rename_i k hk
          cases h
          rw [lookup_accumulate]
          constructor
          · intro hw
            by_cases hkk : key = k
            · rw [if_pos hkk]; exact ⟨_, rfl⟩
            · rw [if_neg hkk]; exact hw
          · intro hno
            have : key ≠ k := by
              intro hkk
              subst hkk
              exact hno newc hc hk
            rw [if_neg this]
      · cases h; exact ⟨fun hw => hw, fun _ => rfl⟩

theorem for_each_total {α β : Type} (body : β → α → Option β) :
    ∀ (l : List α) (acc : β), (∀ acc a, a ∈ l → ∃ acc1, body acc a = some acc1) →
      ∃ r, for_each body l acc = some r := by
  intro l
  induction l with
  | nil => intro acc _; exact ⟨acc, rfl⟩
  | cons a rest ih =>
    intro acc h
    obtain ⟨acc1, h1⟩ := h acc a (List.mem_cons_self _ _)
    obtain ⟨r, hr⟩ := ih acc1 (fun acc a ha => h acc a (List.mem_cons_of_mem _ ha))
    exact ⟨r, by simp only [for_each, h1, hr]⟩

theorem how_many_endpoints_loop_total (N : Nat) : ∀ (c : connectivity) (T : List Int) (r j : Nat),
    T.length = N + 1 → (∀ x ∈ c, x ≤ (N : Int)) →
      ∃ e, how_many_endpoints_loop T r j c = some e := by
  intro c
  induction c with
  | nil => intro T r j _ _; exact ⟨r, rfl⟩
  | cons x xs ih =>
    intro T r j hT hle
    have hxs : ∀ y ∈ xs, y ≤ (N : Int) := fun y hy => hle y (List.mem_cons_of_mem _ hy)
    have hx := hle x (List.mem_cons_self _ _)
    unfold how_many_endpoints_loop
    by_cases hpos : x > 0
    · rw [if_pos hpos]
      have hin : x.toNat < T.length := by omega
      rw [List.getElem?_eq_getElem hin]
      simp only
      split_ifs
      · exact ih _ _ _ (by rw [List.length_set]; exact hT) hxs
      · exact ih _ _ _ hT hxs
    · rw [if_neg hpos]
      exact ih _ _ _ hT hxs

theorem how_many_endpoints_total (c : connectivity) (h : ∀ x ∈ c, x ≤ (c.length : Int)) :
    ∃ e, how_many_endpoints c = some e :=
  how_many_endpoints_loop_total c.length c _ 0 0 (by simp) h

theorem canon_from_lt : ∀ (c : connectivity) (k : Int), 1 ≤ k → canon_from k c →
    ∀ x ∈ c, x < k + ((c.countP (fun y => decide (0 < y)) : Nat) : Int) := by
  intro c
  induction c with
  | nil => intro k _ _ x hx; simp at hx
  | cons y ys ih =>
    intro k hk hcan x hx
    unfold canon_from at hcan
    rw [List.countP_cons]
    by_cases hy0 : y ≤ 0
    · rw [if_pos hy0] at hcan
      have hyn : ¬ 0 < y := by omega
      simp only [hyn, decide_False, Bool.false_eq_true, if_false, add_zero]
      rcases List.mem_cons.mp hx with h | h
      · subst h; omega
      · exact ih k hk hcan x h
    · rw [if_neg hy0] at hcan
      have hyp : 0 < y := by omega
      simp only [hyp, decide_True, if_true, Nat.cast_add, Nat.cast_one]
      by_cases hyk : y < k
      · rw [if_pos hyk] at hcan
        rcases List.mem_cons.mp hx with h | h
        · subst h; omega
        · have := ih k hk hcan x h; omega
      · rw [if_neg hyk] at hcan
        rcases List.mem_cons.mp hx with h | h
        · subst h; omega
        · have := ih (k + 1) (by omega) hcan.2 x h; omega

theorem countP_lt_length_of_getElem {α : Type} (p : α → Bool) (l : List α) (i : Nat) (a : α)
    (h : l[i]? = some a) (hp : p a = false) : l.countP p < l.length := by
  have hle := List.countP_le_length p (l := l)
  rcases Nat.lt_or_eq_of_le hle with h1 | h1
  · exact h1
  · have := List.countP_eq_length.mp h1 a (List.getElem?_mem h)
    rw [hp] at this
    cases this

theorem max_element_le (c : connectivity) (m B : Int) (h : max_element c = some m)
    (hB : ∀ x ∈ c, x ≤ B) : m ≤ B := by
  cases c with
  | nil => simp [max_element] at h
  | cons y ys =>
    simp only [max_element, Option.some.injEq] at h
    subst h
    have : ∀ (l : List Int) (a : Int), a ≤ B → (∀ x ∈ l, x ≤ B) → l.foldl max a ≤ B := by
      intro l
      induction l with
      | nil => intro a ha _; exact ha
      | cons z zs ih =>
        intro a ha hl
        simp only [List.foldl_cons]
        exact ih _ (max_le ha (hl z (List.mem_cons_self _ _)))
          (fun x hx => hl x (List.mem_cons_of_mem _ hx))
    exact this ys y (hB y (List.mem_cons_self _ _))
      (fun x hx => hB x (List.mem_cons_of_mem _ hx))

theorem connect_in_range (c : connectivity) (i j : Nat) (hi : i < c.length) (hj : j < c.length) :
    ∃ r, connect c i j = some r := by
  have hne : c ≠ [] := by
    intro h; subst h; simp at hi
  unfold connect
  rw [is_finished_eq_false c hne]
  simp only [Bool.false_eq_true, if_false]
  rw [List.getElem?_eq_getElem hi, List.getElem?_eq_getElem hj]
  simp only
  obtain ⟨m, hm⟩ := max_element_ne_none c hne
  rw [hm]
  split_ifs <;> exact ⟨_, rfl⟩

theorem connect_bounded (c c1 : connectivity) (i j : Nat) (hcan : canon_from 1 c)
    (hlen : c.length ≤ 127) (h : connect c i j = some (some c1)) :
    (c1 = [] ∨ c1.length = c.length) ∧ ∀ x ∈ c1, x ≤ (c.length : Int) := by
  have hlt := canon_from_lt c 1 (le_refl _) hcan
  have hcnt := List.countP_le_length (fun y : Int => decide (0 < y)) (l := c)
  have hall : ∀ x ∈ c, x ≤ (c.length : Int) := by
    intro x hx
    have := hlt x hx
    omega
  have hset : ∀ (l : List Int) (n : Nat) (a : Int), (∀ x ∈ l, x ≤ (c.length : Int)) →
      a ≤ (c.length : Int) → ∀ x ∈ l.set n a, x ≤ (c.length : Int) := by
    intro l n a hl ha x hx
    rcases List.mem_or_eq_of_mem_set hx with h8 | h8
    · exact hl x h8
    · rw [h8]; exact ha
  unfold connect at h
  by_cases hf : is_finished c = true
  · simp [hf] at h
  · rw [if_neg hf] at h
    cases hi : (c)[i]? with
    | none => simp [hi] at h
    | some li =>
      cases hj : (c)[j]? with
      | none => simp [hi, hj] at h
      | some lj =>
        simp only [hi, hj] at h
        have hlim := List.getElem?_mem hi
        have hljm := List.getElem?_mem hj
        by_cases hneg : li < 0 ∨ lj < 0
        · simp [hneg] at h
        · simp only [hneg, if_false] at h
          by_cases h00 : li = 0 ∧ lj = 0
          · simp only [h00, and_self, if_true] at h
            obtain ⟨rfl, rfl⟩ := h00
            cases hm : max_element c with
            | none => simp [hm] at h
            | some m =>
              simp only [hm, Option.some.injEq] at h
              subst h
              have hm0 : 0 ≤ m := max_element_ge c m hm 0 hlim
              have hcl := countP_lt_length_of_getElem (fun y : Int => decide (0 < y)) c i 0 hi
                (by simp)
              have hmB : m ≤ (c.length : Int) - 1 := by
                apply max_element_le c m _ hm
                intro x hx
                have := hlt x hx
                omega
              have hw : wrap8 (m + 1) = m + 1 := by unfold wrap8; omega
              refine ⟨Or.inr (by simp), ?_⟩
              rw [hw]
              exact hset _ _ _ (hset _ _ _ hall (by omega)) (by omega)
          · simp only [h00, if_false] at h
            by_cases h10 : li ≠ 0 ∧ lj = 0
            · simp only [h10, and_self, if_true, ne_eq, not_false_eq_true, Option.some.injEq] at h
              subst h
              refine ⟨Or.inr (by simp), ?_⟩
              exact hset _ _ _ (hset _ _ _ hall (by omega)) (hall li hlim)
            · simp only [h10, if_false] at h
              by_cases h01 : li = 0 ∧ lj ≠ 0
              · simp only [h01, and_self, if_true, ne_eq, not_false_eq_true,
                  Option.some.injEq] at h
                subst h
                refine ⟨Or.inr (by simp), ?_⟩
                exact hset _ _ _ (hset _ _ _ hall (hall lj hljm)) (by omega)
              · simp only [h01, if_false] at h
                by_cases heq : li = lj
                · simp [heq] at h
                · simp only [heq, if_false] at h
                  split at h
                  · split at h
                    · cases h; exact ⟨Or.inl rfl, fun x hx => by simp at hx⟩
                    · cases h
                  · simp only [Option.some.injEq] at h
                    subst h
                    refine ⟨Or.inr (by simp), ?_⟩
                    apply hset _ _ _ (hset _ _ _ _ (by omega)) (by omega)
                    intro x hx
                    obtain ⟨y, hy, rfl⟩ := List.mem_map.mp hx
                    split_ifs
                    · exact hall li hlim
                    · exact hall y hy

theorem join_step_total {W : Type} [Zero W] [Add W] (shl : W → Nat → W) (i j n : Nat)
    (hn : n < 50) (hi : i < n) (hj : j < n) (acc : table_type W) (s : connectivity × W)
    (hs : s.1 = [] ∨ (s.1.length = n ∧ canonicalize s.1 = some s.1)) :
    ∃ acc1, join_step shl i j acc s = some acc1 := by
  unfold join_step
  rcases hs with hs | ⟨hlen, hcan⟩
  · rw [hs]
    exact ⟨acc, rfl⟩
  · obtain ⟨r, hr⟩ := connect_in_range s.1 i j (by omega) (by omega)
    rw [hr]
    cases r with
    | none => exact ⟨acc, rfl⟩
    | some newc =>
      simp only
      have hlt50 : ∀ x ∈ s.1, x < 50 := canonicalize_loop_some_lt s.1 _ _ s.1 (by simp) hcan
      obtain ⟨table1, k1, hrun, _, _, _, _, _, hcf⟩ :=
        canonicalize_loop_spec s.1 (List.replicate 50 0) 1 table_inv_init hlt50
      have hfix : s.1.map (relabel table1) = s.1 := by
        unfold canonicalize at hcan
        rw [hrun] at hcan
        exact Option.some.inj hcan
      rw [hfix] at hcf
      obtain ⟨hshape, hb⟩ := connect_bounded s.1 newc i j hcf (by omega) hr
      have hb1 : ∀ x ∈ newc, x ≤ (newc.length : Int) := by
        rcases hshape with h0 | h0
        · subst h0; intro x hx; simp at hx
        · intro x hx; rw [h0]; exact hb x hx
      obtain ⟨e, he⟩ := how_many_endpoints_total newc hb1
      rw [he]
      simp only
      split_ifs
      · obtain ⟨t2, k2, hrun2, _⟩ := canonicalize_loop_spec newc (List.replicate 50 0) 1
          table_inv_init (fun x hx => by have := hb x hx; omega)
        have : canonicalize newc = some (newc.map (relabel t2)) := hrun2
        rw [this]
        exact ⟨_, rfl⟩
      · exact ⟨acc, rfl⟩

theorem join_operator_total {W : Type} [Zero W] [Add W] (shl : W → Nat → W) (i j n : Nat)
    (hn : n < 50) (hi : i < n) (hj : j < n) (T : table_type W)
    (hT : ∀ s ∈ T, s.1 = [] ∨ (s.1.length = n ∧ canonicalize s.1 = some s.1)) :
    ∃ T1, join_operator shl i j T = some T1 :=
  for_each_total (join_step shl i j) T T
    (fun acc a ha => join_step_total shl i j n hn hi hj acc a (hT a ha))

/-- C22: `join_operator` keeps every original state.  Whenever
`join_operator(i, j, T)` runs without an invalid access, every key of `T` is a
key of the result, and at every key `s` that no state of `T` connects to (no
`s1` in `T` with `canonicalize(connect(s1, i, j)) = s`) the result holds what
`T` holds: the weight `T[s]` when `s` is a key of `T`, and nothing otherwise.
It does run without an invalid access on every table whose keys are finished
or canonical states of one length `n < 50`, for positions `i, j < n`. -/
theorem join_operator_keeps_states {W : Type} [Zero W] [Add W] (shl : W → Nat → W) (i j : Nat)
    (T : table_type W) :
    (∀ T1, join_operator shl i j T = some T1 →
      (∀ s ∈ T, ∃ w, lookup s.1 T1 = some w)
      ∧ ∀ key : connectivity,
        (∀ s1 ∈ T, ∀ newc, connect s1.1 i j = some (some newc) →
          canonicalize newc ≠ some key) →
        lookup key T1 = lookup key T)
    ∧ ∀ n : Nat, n < 50 → i < n → j < n →
        (∀ s ∈ T, s.1 = [] ∨ (s.1.length = n ∧ canonicalize s.1 = some s.1)) →
        ∃ T1, join_operator shl i j T = some T1 := by
  refine ⟨fun T1 h => ?_, fun n hn hi hj hT => join_operator_total shl i j n hn hi hj T hT⟩
  have hinv := for_each_invariant
    (fun acc : table_type W =>
      (∀ key : connectivity, (∃ w, lookup key T = some w) → ∃ w, lookup key acc = some w)
      ∧ ∀ key : connectivity,
        (∀ s1 ∈ T, ∀ newc, connect s1.1 i j = some (some newc) → canonicalize newc ≠ some key) →
        lookup key acc = lookup key T)
    (join_step shl i j) T T T1 ⟨fun _ hw => hw, fun _ _ => rfl⟩
    (by
      intro acc a acc1 ha hP hstep
      constructor
      · intro key hw
        exact (join_step_lookup shl i j acc acc1 a hstep key).1 (hP.1 key hw)
      · intro key hno
        rw [(join_step_lookup shl i j acc acc1 a hstep key).2 (hno a ha)]
        exact hP.2 key hno)
    h
  exact ⟨fun s hs => hinv.1 s.1 (lookup_of_mem T s hs), hinv.2⟩

/-- Witness of C22 at the table `{[0,0,0] : 1, [1,1,0] : x}` and the positions
0 and 2: the operator returns a table, in which both keys are kept with their
weights next to the new keys `[1,0,1]` and `[-1,1,1]`. -/
theorem join_operator_keeps_states_witness :
    (∀ s ∈ ([([0, 0, 0], ⟨[1]⟩), ([1, 1, 0], ⟨[0, 1]⟩)] : table_type (polynomial Int)),
      s.1 = [] ∨ (s.1.length = 3 ∧ canonicalize s.1 = some s.1))
    ∧ join_operator polynomial.shl 0 2
        ([([0, 0, 0], ⟨[1]⟩), ([1, 1, 0], ⟨[0, 1]⟩)] : table_type (polynomial Int))
      = some [([0, 0, 0], ⟨[1]⟩), ([1, 1, 0], ⟨[0, 1]⟩), ([1, 0, 1], ⟨[0, 1]⟩),
          ([-1, 1, 1], ⟨[0, 0, 1]⟩)]
    ∧ (∃ T1, join_operator polynomial.shl 0 2
        ([([0, 0, 0], ⟨[1]⟩), ([1, 1, 0], ⟨[0, 1]⟩)] : table_type (polynomial Int)) = some T1)
    ∧ ((∀ s ∈ ([([0, 0, 0], ⟨[1]⟩), ([1, 1, 0], ⟨[0, 1]⟩)] : table_type (polynomial Int)),
        ∃ w, lookup s.1 ([([0, 0, 0], ⟨[1]⟩), ([1, 1, 0], ⟨[0, 1]⟩), ([1, 0, 1], ⟨[0, 1]⟩),
          ([-1, 1, 1], ⟨[0, 0, 1]⟩)] : table_type (polynomial Int)) = some w)
      ∧ ∀ key : connectivity,
        (∀ s1 ∈ ([([0, 0, 0], ⟨[1]⟩), ([1, 1, 0], ⟨[0, 1]⟩)] : table_type (polynomial Int)),
          ∀ newc, connect s1.1 0 2 = some (some newc) → canonicalize newc ≠ some key) →
        lookup key ([([0, 0, 0], ⟨[1]⟩), ([1, 1, 0], ⟨[0, 1]⟩), ([1, 0, 1], ⟨[0, 1]⟩),
          ([-1, 1, 1], ⟨[0, 0, 1]⟩)] : table_type (polynomial Int))
          = lookup key ([([0, 0, 0], ⟨[1]⟩), ([1, 1, 0], ⟨[0, 1]⟩)] :
              table_type (polynomial Int))) :=
  have hT : ∀ s ∈ ([([0, 0, 0], ⟨[1]⟩), ([1, 1, 0], ⟨[0, 1]⟩)] : table_type (polynomial Int)),
      s.1 = [] ∨ (s.1.length = 3 ∧ canonicalize s.1 = some s.1) := by decide
  ⟨hT, by decide,
    (join_operator_keeps_states polynomial.shl 0 2 _).2 3 (by decide) (by decide) (by decide) hT,
    (join_operator_keeps_states polynomial.shl 0 2 _).1 _ (by decide)⟩

end longest_path

/-! ## What `how_many_endpoints` counts -/

namespace longest_path

theorem countP_split {α : Type} [DecidableEq α] (p q : α → Bool) (x : α) :
    ∀ l : List α, (∀ y ∈ l, y ≠ x → p y = q y) →
      l.countP p + (if q x = true then l.count x else 0)
        = l.countP q + (if p x = true then l.count x else 0) := by
  intro l
  induction l with
  | nil => intro _; simp
  | cons a rest ih =>
    intro h
    have ih1 := ih (fun y hy hne => h y (List.mem_cons_of_mem _ hy) hne)
    by_cases ha : a = x
    · subst ha
      rw [List.countP_cons, List.countP_cons, List.count_cons_self]
      cases hp : p a <;> cases hq : q a <;> simp [hp, hq] at ih1 ⊢ <;> omega
    · have hpq := h a (List.mem_cons_self _ _) ha
      rw [List.countP_cons, List.countP_cons, List.count_cons_of_ne (Ne.symm ha), hpq]
      by_cases hq : q x = true <;> by_cases hp : p x = true <;>
        simp only [hq, hp, if_true, if_false] at ih1 ⊢ <;> omega

theorem once_count_snoc (pre : connectivity) (x : Int) :
    (pre ++ [x]).countP (fun y => decide (0 < y) && (pre ++ [x]).count y == 1)
      = if x ≤ 0 then pre.countP (fun y => decide (0 < y) && pre.count y == 1)
        else if pre.count x = 0 then
          pre.countP (fun y => decide (0 < y) && pre.count y == 1) + 1
        else if pre.count x = 1 then
          pre.countP (fun y => decide (0 < y) && pre.count y == 1) - 1
        else pre.countP (fun y => decide (0 < y) && pre.count y == 1) := by
  have hsplit := countP_split
    (fun y => decide (0 < y) && (pre ++ [x]).count y == 1)
    (fun y => decide (0 < y) && pre.count y == 1) x pre (by
      intro y _ hne
      simp [List.count_append, List.count_cons, hne, Ne.symm hne])
  rw [List.countP_append]
  simp only [List.countP_cons, List.countP_nil, List.count_append, List.count_cons_self,
    List.count_nil, zero_add] at hsplit ⊢
  by_cases hx : x ≤ 0
  · have hx1 : ¬ 0 < x := by omega
    simp only [hx, hx1, if_true, decide_False, Bool.false_and, Bool.false_eq_true, if_false,
      add_zero] at hsplit ⊢
    exact hsplit
  · have hx1 : 0 < x := by omega
    simp only [hx, hx1, if_false, decide_True, Bool.true_and, beq_iff_eq] at hsplit ⊢
    by_cases h0 : pre.count x = 0
    · simp only [h0, if_true] at hsplit ⊢
      simp at hsplit
      omega
    · by_cases h1 : pre.count x = 1
      · simp only [h1, h0, if_true, if_false] at hsplit ⊢
        simp at hsplit ⊢
        omega
      · simp only [h1, h0, if_false] at hsplit ⊢
        have : ¬ List.count x pre + 1 = 1 := by omega
        simp only [this, if_false] at hsplit ⊢
        simp at hsplit ⊢
        omega


theorem once_count_le (pre : connectivity) :
    pre.countP (fun y => decide (0 < y) && pre.count y == 1) ≤ pre.length :=
  List.countP_le_length _

theorem once_count_pos (pre : connectivity) (x : Int) (hx : 0 < x) (h1 : pre.count x = 1) :
    1 ≤ pre.countP (fun y => decide (0 < y) && pre.count y == 1) := by
  apply List.countP_pos_iff.mpr
  refine ⟨x, List.count_pos_iff.mp (by omega), ?_⟩
  simp [hx, h1]

theorem how_many_endpoints_loop_spec (c : connectivity) (N : Nat)
    (hle : ∀ x ∈ c, x ≤ (N : Int)) (htwice : ∀ l : Int, 0 < l → c.count l ≤ 2)
    (hlen : c.length < 2 ^ 64) :
    ∀ (suf pre : connectivity) (T : List Int), pre ++ suf = c →
      (∀ l : Int, 0 < l → l ≤ (N : Int) → ∃ t, T[l.toNat]? = some t ∧ (t < 0 ↔ l ∉ pre)) →
      how_many_endpoints_loop T (pre.countP (fun y => decide (0 < y) && pre.count y == 1))
          pre.length suf
        = some (c.countP (fun y => decide (0 < y) && c.count y == 1)) := by
  intro suf
  induction suf with
  | nil =>
    intro pre T hc _
    rw [List.append_nil] at hc
    subst hc
    rfl
  | cons x xs ih =>
    intro pre T hc hT
    have hc1 : (pre ++ [x]) ++ xs = c := by rw [List.append_assoc]; exact hc
    have hxmem : x ∈ c := by rw [← hc]; simp
    have hlen1 : (pre ++ [x]).length = pre.length + 1 := by simp
    have hprelen : pre.length + 1 ≤ c.length := by
      rw [← hc1, List.length_append, hlen1]; omega
    have hsn := once_count_snoc pre x
    unfold how_many_endpoints_loop
    by_cases hx : x > 0
    · rw [if_pos hx]
      have hxN := hle x hxmem
      obtain ⟨t, ht, htiff⟩ := hT x hx hxN
      rw [ht]
      simp only
      have hcnt : pre.count x + 1 ≤ 2 := by
        have := htwice x hx
        rw [← hc, List.count_append, List.count_cons_self] at this
        omega
      by_cases htneg : t < 0
      · rw [if_pos htneg]
        have hnot : x ∉ pre := htiff.mp htneg
        have h0 : pre.count x = 0 := List.count_eq_zero_of_not_mem hnot
        rw [if_neg (by omega), if_pos h0] at hsn
        have hr := once_count_le pre
        have hmod : (pre.countP (fun y => decide (0 < y) && pre.count y == 1) + 1) % 2 ^ 64
            = (pre ++ [x]).countP (fun y => decide (0 < y) && (pre ++ [x]).count y == 1) := by
          rw [hsn]
          apply Nat.mod_eq_of_lt
          omega
        rw [hmod, ← hlen1]
        apply ih (pre ++ [x]) _ hc1
        intro l hl hlN
        by_cases hlx : l = x
        · subst hlx
          have hin : l.toNat < T.length := by
            have := (List.getElem?_eq_some_iff.mp ht).1
            exact this
          refine ⟨(pre.length : Int), ?_, ?_⟩
          · rw [List.getElem?_set_self hin]
          · constructor
            · intro h; omega
            · intro h; exact absurd (by simp) h
        · obtain ⟨t1, ht1, hiff1⟩ := hT l hl hlN
          refine ⟨t1, ?_, ?_⟩
          · rw [List.getElem?_set_ne (by omega)]
            exact ht1
          · rw [hiff1]
            simp [hlx]
      · rw [if_neg htneg]
        have hin : x ∈ pre := by
          by_contra hn
          exact htneg (htiff.mpr hn)
        have h1 : pre.count x = 1 := by
          have := List.count_pos_iff.mpr hin
          omega
        rw [if_neg (by omega), if_neg (by omega), if_pos h1] at hsn
        have hpos := once_count_pos pre x hx h1
        have hr := once_count_le pre
        have hmod : (pre.countP (fun y => decide (0 < y) && pre.count y == 1) + 2 ^ 64 - 1)
              % 2 ^ 64
            = (pre ++ [x]).countP (fun y => decide (0 < y) && (pre ++ [x]).count y == 1) := by
          rw [hsn]
          have e : pre.countP (fun y => decide (0 < y) && pre.count y == 1) + 2 ^ 64 - 1
              = (pre.countP (fun y => decide (0 < y) && pre.count y == 1) - 1) + 2 ^ 64 := by
            omega
          rw [e, Nat.add_mod_right]
          apply Nat.mod_eq_of_lt
          omega
        rw [hmod, ← hlen1]
        apply ih (pre ++ [x]) _ hc1
        intro l hl hlN
        obtain ⟨t1, ht1, hiff1⟩ := hT l hl hlN
        refine ⟨t1, ht1, ?_⟩
        rw [hiff1]
        by_cases hlx : l = x
        · subst hlx; simp [hin]
        · simp [hlx]
    · rw [if_neg hx]
      rw [if_pos (by omega)] at hsn
      rw [← hsn, ← hlen1]
      apply ih (pre ++ [x]) _ hc1
      intro l hl hlN
      obtain ⟨t1, ht1, hiff1⟩ := hT l hl hlN
      refine ⟨t1, ht1, ?_⟩
      rw [hiff1]
      have : l ≠ x := by omega
      simp [this]


theorem countP_range_getElem {α : Type} (p : α → Bool) : ∀ l : List α,
    (List.range l.length).countP (fun i => match l[i]? with
      | some x => p x
      | none => false) = l.countP p := by
  intro l
  induction l with
  | nil => rfl
  | cons a rest ih =>
    rw [List.length_cons, List.range_succ_eq_map, List.countP_cons, List.countP_map,
      List.countP_cons, ← ih]
    congr 1
    · apply List.countP_congr
      intro i _
      simp only [Function.comp, Nat.succ_eq_add_one, List.getElem?_cons_succ]
    · simp only [List.getElem?_cons_zero]

theorem endpoint_positions_eq (c : connectivity) :
    endpoint_positions c = c.countP (fun y => decide (0 < y) && c.count y == 1) := by
  unfold endpoint_positions
  rw [(countP_range_getElem (fun y => decide (0 < y) && c.count y == 1) c).symm]
  apply List.countP_congr
  intro i _
  unfold is_endpoint
  cases h : (c)[i]? with
  | none => simp
  | some x => simp

theorem single_labels_eq (c : connectivity) :
    single_labels c = c.countP (fun y => decide (0 < y) && c.count y == 1) := by
  unfold single_labels
  rw [← List.sum_map_count_dedup_filter_eq_countP]
  have : ∀ l : List Int, (∀ y ∈ l, c.count y = 1) → (l.map (fun y => c.count y)).sum = l.length := by
    intro l
    induction l with
    | nil => intro _; rfl
    | cons a rest ih =>
      intro h
      rw [List.map_cons, List.sum_cons, h a (List.mem_cons_self _ _),
        ih (fun y hy => h y (List.mem_cons_of_mem _ hy)), List.length_cons]
      omega
  rw [this]
  intro y hy
  have := (List.mem_filter.mp hy).2
  simp only [Bool.and_eq_true, decide_eq_true_eq, beq_iff_eq] at this
  exact this.2

/-- C23: `how_many_endpoints` computes the specified count.  For every state
`c` in which each positive label occurs at most twice and is at most the length
of `c` (the length fitting the `int` entries of the local table), the function
returns the number of positive labels that occur exactly once in `c`, which is
also the number of positions `i` with `is_endpoint(c, i)`. -/
theorem how_many_endpoints_counts_single_labels (c : connectivity)
    (htwice : ∀ l : Int, 0 < l → c.count l ≤ 2) (hle : ∀ x ∈ c, x ≤ (c.length : Int))
    (hlen : c.length < 2 ^ 31) :
    how_many_endpoints c = some (single_labels c) ∧ single_labels c = endpoint_positions c := by
  have h := how_many_endpoints_loop_spec c c.length hle htwice
    (by have : (2 : Nat) ^ 31 < 2 ^ 64 := by decide
        omega) c [] (List.replicate (c.length + 1) (-1)) rfl (by
      intro l hl hlN
      refine ⟨-1, ?_, by simp⟩
      rw [List.getElem?_replicate]
      have : l.toNat < c.length + 1 := by omega
      simp [this])
  rw [single_labels_eq, endpoint_positions_eq]
  exact ⟨h, rfl⟩

/-- Witness of C23 at the state `[1, 2, 0, 2, -1, 3]`: two labels (1 and 3)
occur once. -/
theorem how_many_endpoints_counts_single_labels_witness :
    (∀ l : Int, 0 < l → ([1, 2, 0, 2, -1, 3] : connectivity).count l ≤ 2)
    ∧ (∀ x ∈ ([1, 2, 0, 2, -1, 3] : connectivity),
        x ≤ (([1, 2, 0, 2, -1, 3] : connectivity).length : Int))
    ∧ single_labels [1, 2, 0, 2, -1, 3] = 2
    ∧ how_many_endpoints [1, 2, 0, 2, -1, 3] = some (single_labels [1, 2, 0, 2, -1, 3])
    ∧ single_labels [1, 2, 0, 2, -1, 3] = endpoint_positions [1, 2, 0, 2, -1, 3] :=
  have h1 : ∀ l : Int, 0 < l → ([1, 2, 0, 2, -1, 3] : connectivity).count l ≤ 2 :=
    count_le_two_of_all _ (by decide)
  ⟨h1, by decide, by decide,
    how_many_endpoints_counts_single_labels [1, 2, 0, 2, -1, 3] h1 (by decide) (by decide)⟩

end longest_path

/-! ## The positions used by `recurse` -/

namespace transfer

open longest_path

end transfer

/-! ## The symmetry of `table_fusion` with the identity mapping -/

namespace longest_path

end longest_path

namespace longest_path

end longest_path

namespace longest_path

theorem next_port_cases (M : port → wire) (i : Nat) :
    (M (i, false) = wire.absent ∧ next_port M i = (i, true))
      ∨ (M (i, false) ≠ wire.absent ∧ next_port M i = (i, false)) := by
  unfold next_port
  by_cases h : M (i, false) = wire.absent
  · left
    exact ⟨h, if_pos h⟩
  · right
    exact ⟨h, if_neg h⟩

theorem next_port_fst (M : port → wire) (i : Nat) : (next_port M i).1 = i := by
  rcases next_port_cases M i with h | h <;> rw [h.2]

theorem next_port_self (M : port → wire) (i : Nat) :
    next_port M i = next_port M (next_port M i).1 := by
  rw [next_port_fst]

theorem port_eta (p : port) : p = (p.1, p.2) := rfl

end longest_path

namespace longest_path

end longest_path

namespace longest_path

end longest_path

namespace longest_path

end longest_path

namespace longest_path

end longest_path

namespace longest_path

end longest_path

namespace longest_path

theorem abs_cases {c : connectivity} {M : port → wire} (habs : Abs c M) (p : Nat) :
    c.getD p 0 = 0 ∨ c.getD p 0 = -1 ∨ 0 < c.getD p 0 := by
  have := habs.ge p
  omega

theorem abs_sym {c : connectivity} {M : port → wire} (habs : Abs c M) : sym M := by
  intro u v huv
  rcases u with ⟨p, s⟩
  rcases abs_cases habs p with h | h | h
  · have hz := habs.zero p h
    cases s with
    | false =>
      rw [hz.1] at huv
      rw [← wire.to.inj huv]
      exact ⟨by simp, hz.2⟩
    | true =>
      rw [hz.2] at huv
      rw [← wire.to.inj huv]
      exact ⟨by simp, hz.1⟩
  · have hz := habs.neg p h
    cases s with
    | false => rw [hz.1] at huv; cases huv
    | true => rw [hz.2] at huv; cases huv
  · have hz := habs.pos p h
    cases s with
    | false => rw [hz.1] at huv; cases huv
    | true =>
      rcases hz.2 with hf | ⟨j, hj, hjm, hjc⟩
      · rw [hf] at huv; cases huv
      · rw [hjm] at huv
        rw [← wire.to.inj huv]
        refine ⟨by simpa using hj, ?_⟩
        have hjpos : 0 < c.getD j 0 := by rw [hjc]; exact h
        rcases habs.uniq j p hjpos hjc.symm with e | e
        · exact absurd e.symm hj
        · exact e

theorem abs_wf {c : connectivity} {M : port → wire} (habs : Abs c M) : wf M := by
  refine ⟨abs_sym habs, ?_⟩
  intro p
  rcases abs_cases habs p with h | h | h
  · right; exact (habs.zero p h).1
  · left; exact (habs.neg p h).1
  · left; exact (habs.pos p h).1

end longest_path

namespace longest_path

end longest_path

namespace longest_path

end longest_path

namespace longest_path

theorem getD_of_getElem? {c : connectivity} {i : Nat} {x : Int} (h : (c)[i]? = some x) :
    c.getD i 0 = x := by
  rw [List.getD_eq_getElem?_getD, h]
  rfl

theorem getElem?_of_getD {c : connectivity} {i : Nat} {x : Int} (h : c.getD i 0 = x)
    (hx : x ≠ 0) : (c)[i]? = some x := by
  rw [List.getD_eq_getElem?_getD] at h
  cases hc : (c)[i]? with
  | none =>
    rw [hc] at h
    exact absurd h.symm hx
  | some y =>
    rw [hc] at h
    simp only [Option.getD_some] at h
    rw [h]

theorem two_le_count : ∀ (l : List Int) (x : Int) (i k : Nat), i ≠ k → l[i]? = some x →
    l[k]? = some x → 2 ≤ l.count x := by
  intro l
  induction l with
  | nil => intro x i k _ h; simp at h
  | cons a r ih =>
    intro x i k hik hi hk
    cases i with
    | zero =>
      cases k with
      | zero => exact absurd rfl hik
      | succ k =>
        simp only [List.getElem?_cons_zero, Option.some.injEq] at hi
        simp only [List.getElem?_cons_succ] at hk
        have := List.count_pos_iff.mpr (List.getElem?_mem hk)
        rw [hi, List.count_cons_self]
        omega
    | succ i =>
      cases k with
      | zero =>
        simp only [List.getElem?_cons_zero, Option.some.injEq] at hk
        simp only [List.getElem?_cons_succ] at hi
        have := List.count_pos_iff.mpr (List.getElem?_mem hi)
        rw [hk, List.count_cons_self]
        omega
      | succ k =>
        simp only [List.getElem?_cons_succ] at hi hk
        have := ih x i k (fun e => hik (by rw [e])) hi hk
        have := List.count_le_count_cons (a := x) (b := a) (l := r)
        omega

theorem count_eq_one_of_unique : ∀ (l : List Int) (x : Int) (i : Nat), l[i]? = some x →
    (∀ k, l[k]? = some x → k = i) → l.count x = 1 := by
  intro l
  induction l with
  | nil => intro x i h; simp at h
  | cons a r ih =>
    intro x i hi hu
    cases i with
    | zero =>
      simp only [List.getElem?_cons_zero, Option.some.injEq] at hi
      rw [hi, List.count_cons_self]
      have : r.count x = 0 := by
        apply List.count_eq_zero_of_not_mem
        intro hm
        obtain ⟨k, hk⟩ := List.getElem?_of_mem hm
        have := hu (k + 1) (by simpa using hk)
        omega
      omega
    | succ i =>
      simp only [List.getElem?_cons_succ] at hi
      have hax : a ≠ x := by
        intro e
        have := hu 0 (by simp [e])
        omega
      rw [List.count_cons_of_ne (Ne.symm hax)]
      apply ih x i hi
      intro k hk
      have := hu (k + 1) (by simpa using hk)
      omega

/-- A positive label occurs once exactly when the second port of its column
is wired to the end of the path. -/
theorem abs_count_one_iff {c : connectivity} {M : port → wire} (habs : Abs c M) (i : Nat)
    (h0 : 0 < c.getD i 0) : c.count (c.getD i 0) = 1 ↔ M (i, true) = wire.fin := by
  have hi : (c)[i]? = some (c.getD i 0) := getElem?_of_getD rfl (by omega)
  constructor
  · intro h1
    rcases (habs.pos i h0).2 with h | ⟨k, hk, _, hkc⟩
    · exact h
    · exfalso
      have hk2 : (c)[k]? = some (c.getD i 0) := getElem?_of_getD hkc (by omega)
      have := two_le_count c _ i k (Ne.symm hk) hi hk2
      omega
  · intro h1
    apply count_eq_one_of_unique c _ i hi
    intro k hk
    rcases habs.uniq i k h0 (getD_of_getElem? hk) with e | e
    · exact e
    · rw [h1] at e
      cases e

/-- A positive label occurs twice exactly when the second port of its column
is wired to another column. -/
theorem abs_count_two {c : connectivity} {M : port → wire} (habs : Abs c M) (i : Nat)
    (h0 : 0 < c.getD i 0) (h1 : M (i, true) ≠ wire.fin) : c.count (c.getD i 0) ≠ 1 :=
  fun h => h1 ((abs_count_one_iff habs i h0).mp h)

end longest_path

namespace longest_path

end longest_path

namespace longest_path

end longest_path

namespace longest_path

end longest_path

namespace longest_path

end longest_path

namespace longest_path

end longest_path

namespace longest_path

end longest_path

namespace longest_path

theorem sim_wf {n : Nat} {c : connectivity} {S : wiring} (h : sim n c S) : wf S.ends := by
  rcases h with h | h
  · exact abs_wf h.2.2.1
  · exact h.2.2.2

end longest_path

namespace longest_path

end longest_path

namespace longest_path

end longest_path

namespace longest_path

end longest_path

namespace longest_path

end longest_path

namespace longest_path

end longest_path

namespace longest_path

end longest_path

namespace longest_path

end longest_path

namespace longest_path

end longest_path

namespace longest_path

end longest_path

namespace longest_path

end longest_path

namespace longest_path

end longest_path

/-! ## Evaluations of `transfer` and `table_fusion` -/

section evaluations

open longest_path transfer

/-- C2 (as stated, refuted): on the single edge `(0,1)` decomposed as one bag
`{0,1}` owning the edge, `transfer` with polynomial weights does not return the
coefficient vector `[0, 2]` of `2x`. -/
theorem transfer_single_edge_ne_two_x :
    transfer (W := polynomial Int) polynomial.shl (.mk [0, 1] [(0, 1)] [])
      ≠ some (some ⟨[0, 2]⟩) := by
  decide

/-- C2 (amended): on the single edge `(0,1)` decomposed as one bag `{0,1}`
owning the edge, `transfer` with polynomial weights returns the polynomial
`1 + x`, coefficient vector `[1, 1]`. -/
theorem transfer_single_edge :
    transfer (W := polynomial Int) polynomial.shl (.mk [0, 1] [(0, 1)] [])
      = some (some ⟨[1, 1]⟩) := by
  decide

/-- C1 (failing input): the graph with the two disjoint edges `(0,1)` and
`(2,3)`, decomposed as the root bag `{0,1}` and its child `{2,3}`, is a valid
tree decomposition; `transfer` returns `1 + x`, so its coefficient of `x` is 1,
while the graph has two simple paths with one edge (four when each direction
is counted). -/
theorem transfer_two_disjoint_edges :
    tree_decomposition.valid [0, 1, 2, 3] [(0, 1), (2, 3)]
        (.mk [0, 1] [(0, 1)] [.mk [2, 3] [(2, 3)] []]) = true
    ∧ transfer (W := polynomial Int) polynomial.shl
        (.mk [0, 1] [(0, 1)] [.mk [2, 3] [(2, 3)] []]) = some (some ⟨[1, 1]⟩)
    ∧ brute_force.undirected_paths [0, 1, 2, 3] [(0, 1), (2, 3)] 1 = 2
    ∧ brute_force.directed_paths [0, 1, 2, 3] [(0, 1), (2, 3)] 1 = 4 := by
  decide

/-- C3 (failing input): the graph with the three disjoint edges `(0,1)`,
`(2,3)`, `(4,5)`, decomposed as the root bag `{0,1}` with the children `{2,3}`
and `{4,5}`, each bag owning its edge, is a valid tree decomposition;
`recurse` on the root returns the empty table, it stays empty under the
deletes, and the assertion `table.size() == 1` fails. -/
theorem transfer_assertion_fails :
    tree_decomposition.valid [0, 1, 2, 3, 4, 5] [(0, 1), (2, 3), (4, 5)]
        (.mk [0, 1] [(0, 1)] [.mk [2, 3] [(2, 3)] [], .mk [4, 5] [(4, 5)] []]) = true
    ∧ recurse (W := polynomial Int) polynomial.shl
        (.mk [0, 1] [(0, 1)] [.mk [2, 3] [(2, 3)] [], .mk [4, 5] [(4, 5)] []]) = some []
    ∧ delete_loop [0, 1] [0, 1] ([] : table_type (polynomial Int)) = some ([], [])
    ∧ transfer (W := polynomial Int) polynomial.shl
        (.mk [0, 1] [(0, 1)] [.mk [2, 3] [(2, 3)] [], .mk [4, 5] [(4, 5)] []]) = some none := by
  decide

set_option maxRecDepth 4096 in
/-- On connected examples (triangle in one bag, the path on four vertices and
the four-cycle in path decompositions) `transfer` returns the constant
coefficient 1 followed by the numbers of simple paths with 1, 2, 3 edges,
a path and its reverse counted once. -/
theorem transfer_connected_examples :
    transfer (W := polynomial Int) polynomial.shl
        (.mk [0, 1, 2] [(0, 1), (1, 2), (0, 2)] []) = some (some ⟨[1, 3, 3]⟩)
    ∧ [1, 2].map (brute_force.undirected_paths [0, 1, 2] [(0, 1), (1, 2), (0, 2)]) = [3, 3]
    ∧ transfer (W := polynomial Int) polynomial.shl
        (.mk [0, 1] [(0, 1)] [.mk [1, 2] [(1, 2)] [.mk [2, 3] [(2, 3)] []]])
        = some (some ⟨[1, 3, 2, 1]⟩)
    ∧ [1, 2, 3].map (brute_force.undirected_paths [0, 1, 2, 3] [(0, 1), (1, 2), (2, 3)])
        = [3, 2, 1]
    ∧ transfer (W := polynomial Int) polynomial.shl
        (.mk [0, 1, 3] [(0, 1), (3, 0)] [.mk [1, 2, 3] [(1, 2), (2, 3)] []])
        = some (some ⟨[1, 4, 4, 4]⟩)
    ∧ [1, 2, 3].map
        (brute_force.undirected_paths [0, 1, 2, 3] [(0, 1), (1, 2), (2, 3), (3, 0)])
        = [4, 4, 4] := by
  decide

/-- C9 (failing input): with the identity mapping, the child state
`[1, 1, -1]` and the parent state `[1, 2, 0]`, the walk of `table_fusion`
connects positions 1 and 0, which clears `newc` to the finished state, and
then reads `newc[2]` for the bullet of the child: an access outside the
(empty) vector.  Both states are valid; they are keys of the tables that
`transfer` fuses on a valid decomposition of the path 3 - 0 - 2 - 1 - 4, where
the same access happens. -/
theorem table_fusion_reads_cleared_state {W : Type} [Zero W] [Add W] [Mul W] (wA wB : W) :
    connect [1, 2, 0] 1 0 = some (some [])
    ∧ walk_loop 2 [-1] [] [] = none
    ∧ valid_state [1, 1, -1] = true ∧ valid_state [1, 2, 0] = true
    ∧ (recurse (W := polynomial Int) polynomial.shl (.mk [0, 1, 2] [(0, 2), (2, 1)] [])).map
        (fun t => t.map Prod.fst) = some [[0, 0, 0], [1, 0, 1], [0, 1, 1], [1, 1, -1]]
    ∧ (recurse (W := polynomial Int) polynomial.shl
        (.mk [0, 1, 2] [] [.mk [0, 3] [(0, 3)] [], .mk [1, 4] [(1, 4)] []])).map
        (fun t => t.map Prod.fst) = some [[0, 0, 0], [1, 0, 0], [0, 1, 0], [1, 2, 0]]
    ∧ table_fusion [0, 1, 2] [([1, 1, -1], wA)] [([1, 2, 0], wB)] = none
    ∧ tree_decomposition.valid [0, 1, 2, 3, 4] [(0, 3), (1, 4), (0, 2), (2, 1)]
        (.mk [0, 1, 2] [] [.mk [0, 3] [(0, 3)] [], .mk [1, 4] [(1, 4)] [],
          .mk [0, 1, 2] [(0, 2), (2, 1)] []]) = true
    ∧ transfer (W := polynomial Int) polynomial.shl
        (.mk [0, 1, 2] [] [.mk [0, 3] [(0, 3)] [], .mk [1, 4] [(1, 4)] [],
          .mk [0, 1, 2] [(0, 2), (2, 1)] []]) = none := by
  refine ⟨by decide, by decide, by decide, by decide, by decide, by decide, ?_, by decide,
    by decide⟩
  have h : fuse [0, 1, 2] [1, 1, -1] [1, 2, 0] = none := by decide
  simp [table_fusion, for_each, fusion_step, h]

/-- With the identity mapping on three columns, `table_fusion` of the tables
`{[1,1,-1] : wA}` and `{[1,2,0] : wB}` makes the access outside the cleared
state in one order, and yields the one-entry table `{finished : wB * wA}` in
the other order. -/
theorem table_fusion_identity_order {W : Type} [Zero W] [Add W] [Mul W] (wA wB : W) :
    table_fusion [0, 1, 2] [([1, 1, -1], wA)] [([1, 2, 0], wB)] = none
    ∧ table_fusion [0, 1, 2] [([1, 2, 0], wB)] [([1, 1, -1], wA)]
        = some [([], 0 + wB * wA)] := by
  have h1 : fuse [0, 1, 2] [1, 1, -1] [1, 2, 0] = none := by decide
  have h2 : fuse [0, 1, 2] [1, 2, 0] [1, 1, -1] = some (some []) := by decide
  constructor
  · simp [table_fusion, for_each, fusion_step, h1]
  · simp [table_fusion, for_each, fusion_step, h2, accumulate]

set_option maxRecDepth 100000 in
/-- With the identity mapping on at most three columns, the two orders of
`fuse` give the same key on every pair of valid or finished states on which
neither order makes an invalid access. -/
theorem fuse_symmetric_small :
    fuse_symmetric_on 1 = true ∧ fuse_symmetric_on 2 = true ∧ fuse_symmetric_on 3 = true := by
  decide

end evaluations
